import Mathlib

/-!
# Peg Solitaire: board model and backtracking solver

A shallow embedding of `PegSolitaire.hpp` / `PegSolitaire.cpp`.

* `std::vector` is a `List`, `size_t` and `uint64_t` are `Nat` (the 64-bit
  operations reduce modulo `2 ^ 64` explicitly), `ptrdiff_t` is `Int`.
* A constructor that throws returns `Except`.
* An access out of the range of a `std::vector` (the move stack, the bitfield of the
  store) is undefined in C++; here it is `none`, and it ends a run of the solver with
  `out_of_range`.
* The two nested `while (true)` loops of `BoardSolver::solve_board` are a step
  function on the state of the solver (`solve_step`, with a phase that says which
  loop is running), iterated under a fuel counter (`solve_loop`).
-/

set_option autoImplicit false

namespace ps

/-! ## Data model (`PegSolitaire.hpp`) -/

/-- Piece of the board, `None` denotes a position that is not part of the board. -/
inductive Piece
  | Peg
  | Hole
  | None
deriving DecidableEq

/-- Direction of a move on the board, in the order of the enum. -/
inductive Direction
  | Up
  | Right
  | Down
  | Left
deriving DecidableEq

/-- Position on the board (two `ptrdiff_t`). -/
structure Position where
  row : Int
  col : Int
deriving DecidableEq

/-- A board move: from a position into a direction. -/
structure Move where
  pos : Position
  dir : Direction
deriving DecidableEq

/-- The private members of `class PegBoard`. -/
structure PegBoard where
  n_positions : Nat
  n_rows : Nat
  n_cols : Nat
  pieces : List (List Piece)
  flattened_pos : List (List Nat)
  flattened_board : Nat
deriving DecidableEq

/-- The reasons for which the constructor of `PegBoard` throws. -/
inductive BoardError
  | too_many_positions
  | invalid_character
  | size_zero
  | rows_not_same_size
deriving DecidableEq

deriving instance DecidableEq for Except

/-! ## 64-bit helpers -/

/-- The expression `uint64_t(1) << k`, reduced to 64 bits. For `k < 64` this is `2 ^ k`. A shift
by 64 or more is undefined in C++; here it gives 0, so a cell whose flattened position is 64 or
more has no bit in the flattened board. The constructor is meant to exclude such cells. -/
def shl1 (k : Nat) : Nat := (1 <<< k) % 2 ^ 64

/-- The expression `~x` on a `uint64_t`. -/
def not64 (x : Nat) : Nat := 2 ^ 64 - 1 - x % 2 ^ 64

/-! ## Two-dimensional indexing -/

/-- The read `grid[pos.row][pos.col]`; `none` when an index is out of range (the source reads
only after `position_on_board`, so that on a rectangular grid the indices are in range). -/
def index2 {α : Type} (grid : List (List α)) (pos : Position) : Option α :=
  if 0 ≤ pos.row ∧ 0 ≤ pos.col then
    match grid[pos.row.toNat]? with
    | some r => r[pos.col.toNat]?
    | none => none
  else none

/-- The write `grid[pos.row][pos.col] = x`; nothing is written out of range. -/
def assign2 {α : Type} (grid : List (List α)) (pos : Position) (x : α) : List (List α) :=
  if 0 ≤ pos.row ∧ 0 ≤ pos.col then
    match grid[pos.row.toNat]? with
    | some r => grid.set pos.row.toNat (r.set pos.col.toNat x)
    | none => grid
  else grid

/-! ## Construction of a board (`PegBoard::PegBoard`) -/

/-- The lines `std::getline` extracts from the text: the text is cut at every
newline, and no line is produced after a final newline or for an empty text. -/
def getlines : List Char → List (List Char)
  | [] => []
  | c :: cs =>
    if c = '\n' then [] :: getlines cs
    else
      match getlines cs with
      | [] => [[c]]
      | l :: ls => (c :: l) :: ls

/-- The `for (char c: line)` loop of the constructor on one line, started with
the current `flat_index` and `flattened_board`. It returns the row of pieces,
the row of flattened positions, and the two counters after the line. -/
def parse_line : List Char → Nat → Nat →
    Except BoardError (List Piece × List Nat × Nat × Nat)
  | [], flat_index, fb => .ok ([], [], flat_index, fb)
  | c :: cs, flat_index, fb =>
    if c = ' ' then
      match parse_line cs flat_index fb with
      | .ok (ps, fs, fi, fb') => .ok (Piece.None :: ps, 0 :: fs, fi, fb')
      | .error e => .error e
    else if c = '1' then
      if flat_index = 63 then .error BoardError.too_many_positions
      else
        match parse_line cs (flat_index + 1) ((fb ||| shl1 flat_index) % 2 ^ 64) with
        | .ok (ps, fs, fi, fb') => .ok (Piece.Peg :: ps, flat_index :: fs, fi, fb')
        | .error e => .error e
    else if c = '0' then
      match parse_line cs (flat_index + 1) fb with
      | .ok (ps, fs, fi, fb') => .ok (Piece.Hole :: ps, flat_index :: fs, fi, fb')
      | .error e => .error e
    else .error BoardError.invalid_character

/-- The `while (std::getline(ss, line))` loop of the constructor. -/
def parse_lines : List (List Char) → Nat → Nat →
    Except BoardError (List (List Piece) × List (List Nat) × Nat × Nat)
  | [], flat_index, fb => .ok ([], [], flat_index, fb)
  | line :: rest, flat_index, fb =>
    match parse_line line flat_index fb with
    | .error e => .error e
    | .ok (ps, fs, fi, fb') =>
      match parse_lines rest fi fb' with
      | .error e => .error e
      | .ok (pss, fss, fi', fb'') => .ok (ps :: pss, fs :: fss, fi', fb'')

/-- The constructor `PegBoard::PegBoard(const std::string&)`. -/
def PegBoard.new (board_string : String) : Except BoardError PegBoard :=
  match parse_lines (getlines board_string.data) 0 0 with
  | .error e => .error e
  | .ok (pieces, flattened_pos, flat_index, fb) =>
    if pieces.length = 0 then .error BoardError.size_zero
    else if (pieces.headD []).length = 0 ∨ flat_index = 0 then .error BoardError.size_zero
    else if pieces.any (fun row => row.length != (pieces.headD []).length) then
      .error BoardError.rows_not_same_size
    else
      .ok { n_positions := flat_index
            n_rows := pieces.length
            n_cols := (pieces.headD []).length
            pieces := pieces
            flattened_pos := flattened_pos
            flattened_board := fb }

/-! ## Operations of a board -/

namespace PegBoard

def get_n_positions (b : PegBoard) : Nat := b.n_positions

def get_n_rows (b : PegBoard) : Nat := b.n_rows

def get_n_cols (b : PegBoard) : Nat := b.n_cols

def get_flattened_value (b : PegBoard) : Nat := b.flattened_board

/-- The target and the middle position of a move (`get_move_positions`). -/
def get_move_positions (move : Move) : Position × Position :=
  match move.dir with
  | Direction.Up => ({ move.pos with row := move.pos.row - 2 }, { move.pos with row := move.pos.row - 1 })
  | Direction.Right => ({ move.pos with col := move.pos.col + 2 }, { move.pos with col := move.pos.col + 1 })
  | Direction.Down => ({ move.pos with row := move.pos.row + 2 }, { move.pos with row := move.pos.row + 1 })
  | Direction.Left => ({ move.pos with col := move.pos.col - 2 }, { move.pos with col := move.pos.col - 1 })

/-- Whether a position is inside the grid (`position_on_board`). -/
def position_on_board (b : PegBoard) (pos : Position) : Bool :=
  decide (pos.col ≥ 0) && decide (pos.col < (b.n_cols : Int)) &&
    decide (pos.row ≥ 0) && decide (pos.row < (b.n_rows : Int))

/-- The read `pieces[pos.row][pos.col]` of `PegBoard::get`. -/
def get (b : PegBoard) (pos : Position) : Option Piece := index2 b.pieces pos

/-- The method `PegBoard::set`: writes the grid and the bit of the flattened board. -/
def set (b : PegBoard) (pos : Position) (piece : Piece) : PegBoard :=
  let flattened_index := (index2 b.flattened_pos pos).getD 0
  let flattened_mask := shl1 flattened_index
  { b with
    pieces := assign2 b.pieces pos piece
    flattened_board :=
      if piece = Piece.Peg then b.flattened_board ||| flattened_mask
      else b.flattened_board &&& not64 flattened_mask }

/-- The method `PegBoard::make_move`: the returned boolean and the board after the call. -/
def make_move (b : PegBoard) (move : Move) (reversed : Bool) : Bool × PegBoard :=
  let target := (get_move_positions move).1
  let middle := (get_move_positions move).2
  if !b.position_on_board move.pos || !b.position_on_board target then (false, b)
  else
    let piece_target := if reversed then Piece.Peg else Piece.Hole
    let piece_other := if reversed then Piece.Hole else Piece.Peg
    if b.get move.pos ≠ some piece_other ∨ b.get middle ≠ some piece_other ∨
        b.get target ≠ some piece_target then (false, b)
    else (true, ((b.set target piece_other).set move.pos piece_target).set middle piece_target)

/-- The method `PegBoard::count_pieces`. -/
def count_pieces (b : PegBoard) (piece : Piece) : Nat :=
  (b.pieces.map (fun row => row.count piece)).sum

/-- The characters `PegBoard::print` writes: every row, then a newline, and one
more newline (the `std::endl`) after the last row. -/
def print (b : PegBoard) : List Char :=
  (b.pieces.map (fun row =>
      row.map (fun col =>
        match col with
        | Piece.Hole => '0'
        | Piece.Peg => '1'
        | Piece.None => ' ') ++ ['\n'])).flatten ++ ['\n']

end PegBoard

/-- The boards a program can hold: those returned by the constructor, and those
obtained from them by calls of `make_move`. -/
inductive PegBoard.Reachable : PegBoard → Prop
  | construct (board_string : String) (b : PegBoard) :
      PegBoard.new board_string = .ok b → PegBoard.Reachable b
  | make_move (b : PegBoard) (move : Move) (reversed : Bool) :
      PegBoard.Reachable b → PegBoard.Reachable (b.make_move move reversed).2

/-! ## The store of unwinnable boards (`BoardSaver`) -/

inductive SolverBoardSaving
  | None
  | Hashmap
  | Bitfield
deriving DecidableEq

/-- The members of `BoardSaver`. The `std::unordered_set` is the list of its elements; the
`std::vector<bool>` is its size (`bitfield_size`) and the list of the indices that hold
`true`. -/
structure BoardSaver where
  mode : SolverBoardSaving
  boards_hashmap : List Nat
  boards_bitfield : List Nat
  bitfield_size : Nat
deriving DecidableEq

/-- The ways the construction of a solver and a run of `solve_board` can go wrong. -/
inductive SolverError
  | length_error
  | out_of_range
  | out_of_fuel
deriving DecidableEq

/-- The value of `std::vector<bool>::max_size()` in the standard library the program is built
with (libstdc++ on a 64-bit target): a `resize` to more bits throws `std::length_error`. -/
def vector_bool_max_size : Nat := 2 ^ 63 - 64

/-- The constructor of `BoardSaver`. In mode Bitfield it resizes the bitfield to
`uint64_t(1) << capacity` bits. A size above `max_size()` makes `resize` throw
`std::length_error`, which the constructor does not catch. The allocation itself can fail with
`std::bad_alloc`, which the constructor catches by going over to mode Hashmap; whether it
fails depends on the memory of the machine and is the parameter `bad_alloc` (a resize to 0
bits allocates nothing). -/
def BoardSaver.construct (bad_alloc : Bool) (capacity : Nat) (mode_in : SolverBoardSaving) :
    Except SolverError BoardSaver :=
  if mode_in = SolverBoardSaving.Bitfield then
    let size := shl1 capacity
    if size > vector_bool_max_size then .error SolverError.length_error
    else if bad_alloc && decide (size ≠ 0) then
      .ok { mode := SolverBoardSaving.Hashmap, boards_hashmap := [], boards_bitfield := []
            bitfield_size := 0 }
    else
      .ok { mode := SolverBoardSaving.Bitfield, boards_hashmap := [], boards_bitfield := []
            bitfield_size := size }
  else
    .ok { mode := mode_in, boards_hashmap := [], boards_bitfield := [], bitfield_size := 0 }

/-- The constructor of `BoardSaver` on a machine where the allocation of the bitfield does not
fail for lack of memory. -/
def BoardSaver.new (capacity : Nat) (mode_in : SolverBoardSaving) :
    Except SolverError BoardSaver :=
  BoardSaver.construct false capacity mode_in

/-- The method `saveBoard`. The write `boards_bitfield[flattened_board] = true` is out of range
when the flattened board is not below the size of the bitfield: `none`. -/
def BoardSaver.saveBoard (s : BoardSaver) (flattened_board : Nat) : Option BoardSaver :=
  if s.mode = SolverBoardSaving.Hashmap then
    some { s with boards_hashmap := flattened_board :: s.boards_hashmap }
  else if s.mode = SolverBoardSaving.Bitfield then
    if flattened_board < s.bitfield_size then
      some { s with boards_bitfield := flattened_board :: s.boards_bitfield }
    else none
  else some s

/-- The method `checkBoardSaved`. The read `boards_bitfield[flattened_board]` is out of range
when the flattened board is not below the size of the bitfield: `none`. -/
def BoardSaver.checkBoardSaved (s : BoardSaver) (flattened_board : Nat) : Option Bool :=
  if s.mode = SolverBoardSaving.Hashmap then some (decide (flattened_board ∈ s.boards_hashmap))
  else if s.mode = SolverBoardSaving.Bitfield then
    if flattened_board < s.bitfield_size then
      some (decide (flattened_board ∈ s.boards_bitfield))
    else none
  else some false

/-! ## The solver (`BoardSolver`) -/

/-- The members of `BoardSolver`. -/
structure BoardSolver where
  moves : List Move
  last_move_index : Nat
  input_board : PegBoard
  board : PegBoard
  board_saver : BoardSaver
  solve_board_completed : Bool
  solve_board_status : Bool
deriving DecidableEq

/-- The value-initialised `Move`, which is also the first move of the scan. -/
def first_move : Move := { pos := { row := 0, col := 0 }, dir := Direction.Up }

/-- The constructor of `BoardSolver`. The store is constructed first, with the number of
positions of the board as its capacity, and a `std::length_error` of its constructor leaves
the constructor of the solver. `n_pegs - 1` is computed in `size_t`; for a board without pegs
it wraps to `2 ^ 64 - 1` and `resize` throws. The parameter `bad_alloc` is that of
`BoardSaver.construct`. -/
def BoardSolver.construct (bad_alloc : Bool) (board : PegBoard) (mode : SolverBoardSaving) :
    Except SolverError BoardSolver :=
  match BoardSaver.construct bad_alloc board.get_n_positions mode with
  | .error e => .error e
  | .ok saver =>
    let n_pegs := board.count_pieces Piece.Peg
    if n_pegs = 0 then .error SolverError.length_error
    else
      .ok { moves := List.replicate (n_pegs - 1) first_move
            last_move_index := 0
            input_board := board
            board := board
            board_saver := saver
            solve_board_completed := false
            solve_board_status := false }

/-- The constructor of `BoardSolver` on a machine where the allocation of the bitfield does
not fail for lack of memory. -/
def BoardSolver.new (board : PegBoard) (mode : SolverBoardSaving) :
    Except SolverError BoardSolver :=
  BoardSolver.construct false board mode

namespace BoardSolver

def get_current_board (s : BoardSolver) : PegBoard := s.board

def get_moves (s : BoardSolver) : List Move := s.moves

/-- The method `find_next_move`: the returned boolean and `found_move`. -/
def find_next_move (s : BoardSolver) (last_tried : Move) : Bool × Move :=
  match last_tried.dir with
  | Direction.Up => (true, { last_tried with dir := Direction.Right })
  | Direction.Right => (true, { last_tried with dir := Direction.Down })
  | Direction.Down => (true, { last_tried with dir := Direction.Left })
  | Direction.Left =>
    if last_tried.pos.col = (s.board.get_n_cols : Int) - 1 then
      if last_tried.pos.row = (s.board.get_n_rows : Int) - 1 then
        (false, { last_tried with dir := Direction.Up })
      else
        (true, { pos := { row := last_tried.pos.row + 1, col := 0 }, dir := Direction.Up })
    else
      (true, { pos := { last_tried.pos with col := last_tried.pos.col + 1 }, dir := Direction.Up })

/-- Which of the two loops of `solve_board` is running: the head of the outer
loop (a move is tried), or the inner loop (the next move is looked for). -/
inductive Phase
  | try_move
  | next_move
deriving DecidableEq

/-- What one pass through the head of the outer loop or through the inner loop does: the loops
go on, or `solve_board` returns, or `moves` or the bitfield of the store is accessed out of
range. -/
inductive Step
  | next (phase : Phase) (s : BoardSolver)
  | done (status : Bool) (s : BoardSolver)
  | fault

/-- One pass of the loops of `solve_board` (lines 349-403).

* `try_move` is the head of the outer loop: the move `moves[last_move_index]` is tried, it is
  taken back when the new board is saved as unwinnable, and on success the solver returns true
  (last move) or goes to the next index with the first move.
* `next_move` is one pass of the inner loop: the next move of the scan is stored, or, when the
  scan is exhausted, the solver returns false (index 0) or saves the board, takes the previous
  move back and decrements the index.

A read of `moves` or a read or write of the bitfield out of range is `fault`. -/
def solve_step : Phase → BoardSolver → Step
  | Phase.try_move, s =>
    match s.moves[s.last_move_index]? with
    | none => Step.fault
    | some move =>
      let r := s.board.make_move move false
      match s.board_saver.checkBoardSaved r.2.get_flattened_value with
      | none => Step.fault
      | some saved =>
        let board := if saved then (r.2.make_move move true).2 else r.2
        let success := if saved then false else r.1
        if success then
          if s.last_move_index = s.moves.length - 1 then
            Step.done true { s with board := board, solve_board_status := true }
          else
            Step.next Phase.try_move
              { s with board := board
                       last_move_index := s.last_move_index + 1
                       moves := s.moves.set (s.last_move_index + 1) first_move }
        else Step.next Phase.next_move { s with board := board }
  | Phase.next_move, s =>
    match s.moves[s.last_move_index]? with
    | none => Step.fault
    | some move =>
      let r := s.find_next_move move
      if r.1 then
        Step.next Phase.try_move { s with moves := s.moves.set s.last_move_index r.2 }
      else if s.last_move_index = 0 then
        Step.done false { s with solve_board_status := false }
      else
        match s.board_saver.saveBoard s.board.get_flattened_value with
        | none => Step.fault
        | some saver =>
          match s.moves[s.last_move_index - 1]? with
          | none => Step.fault
          | some prev =>
            Step.next Phase.next_move
              { s with board_saver := saver
                       board := (s.board.make_move prev true).2
                       last_move_index := s.last_move_index - 1 }

/-- The loops of `solve_board`: passes are made until the solver returns. A read or write out
of range ends the run with `out_of_range`. -/
def solve_loop : Nat → Phase → BoardSolver → Except SolverError (Bool × BoardSolver)
  | 0, _, _ => .error SolverError.out_of_fuel
  | fuel + 1, phase, s =>
    match solve_step phase s with
    | Step.next phase' s' => solve_loop fuel phase' s'
    | Step.done status s' => .ok (status, s')
    | Step.fault => .error SolverError.out_of_range

/-- The method `solve_board`, run with the given fuel. -/
def solve_board (fuel : Nat) (s : BoardSolver) : Except SolverError (Bool × BoardSolver) :=
  if s.solve_board_completed then .ok (s.solve_board_status, s)
  else solve_loop fuel Phase.try_move { s with solve_board_completed := true }

end BoardSolver

/-- Replaying moves as `print_moves` does: `make_move` for each move in order.
The result is whether every call returned `true`, and the final board. -/
def replay_moves : PegBoard → List Move → Bool × PegBoard
  | b, [] => (true, b)
  | b, m :: ms =>
    let r := b.make_move m false
    let rest := replay_moves r.2 ms
    (r.1 && rest.1, rest.2)


/-! ## Auxiliary definitions for the statements -/

/-- The piece a move requires at its target: `piece_target` of `make_move`. -/
def PegBoard.piece_target (reversed : Bool) : Piece := if reversed then Piece.Peg else Piece.Hole

/-- The piece a move requires at its origin and middle: `piece_other` of `make_move`. -/
def PegBoard.piece_other (reversed : Bool) : Piece := if reversed then Piece.Hole else Piece.Peg

/-- The value `from_state` in the words of section 4.1 of the specification. -/
def spec_from_state (reversed : Bool) : Piece := if reversed then Piece.Peg else Piece.Hole

/-- The value `to_state` in the words of section 4.1 of the specification. -/
def spec_to_state (reversed : Bool) : Piece := if reversed then Piece.Hole else Piece.Peg

/-- The board of the layout `"110"`. -/
def board_110 : PegBoard :=
  { n_positions := 3, n_rows := 1, n_cols := 3
    pieces := [[Piece.Peg, Piece.Peg, Piece.Hole]]
    flattened_pos := [[0, 1, 2]]
    flattened_board := 3 }

/-- The jump of the leftmost peg of `board_110` to the right. -/
def move_110 : Move := { pos := { row := 0, col := 0 }, dir := Direction.Right }

/-- The number of characters `'0'` and `'1'` of a line. -/
def active_count (cs : List Char) : Nat := cs.countP (fun c => c == '0' || c == '1')

/-- The piece a character of the layout stands for. -/
def char_piece (c : Char) : Piece :=
  if c = '1' then Piece.Peg else if c = '0' then Piece.Hole else Piece.None

/-- A layout of 65 cells: four rows of thirteen pegs and a row of eleven pegs and two holes. -/
def layout_65 : String :=
  "1111111111111\n1111111111111\n1111111111111\n1111111111111\n1111111111100"

/-- A layout of 64 cells: eight rows of eight pegs. -/
def layout_64 : String :=
  "11111111\n11111111\n11111111\n11111111\n11111111\n11111111\n11111111\n11111111"

/-- What the scan of one line establishes: the cells that are not blocked get the indices from
`lo` up to `hi`, each once, and the bits of the pegs are added to the flattened board. -/
def RowSpec (ps : List Piece) (fs : List Nat) (lo hi fb fb' : Nat) : Prop :=
  lo ≤ hi ∧
  (∀ (j : Nat) (x : Piece), ps[j]? = some x → x ≠ Piece.None →
    ∃ k, fs[j]? = some k ∧ lo ≤ k ∧ k < hi) ∧
  (∀ (j1 j2 : Nat) (x1 x2 : Piece) (k : Nat), ps[j1]? = some x1 → x1 ≠ Piece.None →
    ps[j2]? = some x2 → x2 ≠ Piece.None → fs[j1]? = some k → fs[j2]? = some k → j1 = j2) ∧
  (hi ≤ 64 → fb < 2 ^ 64 → fb' < 2 ^ 64 ∧
    ∀ k : Nat, fb'.testBit k = true ↔
      fb.testBit k = true ∨ ∃ j : Nat, ps[j]? = some Piece.Peg ∧ fs[j]? = some k)

/-- The read `g[r][j]` with natural indices; `none` out of range. -/
def cell? {α : Type} (g : List (List α)) (r j : Nat) : Option α :=
  match g[r]? with
  | some row => row[j]?
  | none => none

/-- What the scan of all lines establishes, see `RowSpec`. -/
def GridSpec (pieces : List (List Piece)) (fpos : List (List Nat)) (lo hi fb fb' : Nat) : Prop :=
  lo ≤ hi ∧
  (∀ (r j : Nat) (x : Piece), cell? pieces r j = some x → x ≠ Piece.None →
    ∃ k, cell? fpos r j = some k ∧ lo ≤ k ∧ k < hi) ∧
  (∀ (r1 j1 r2 j2 : Nat) (x1 x2 : Piece) (k : Nat), cell? pieces r1 j1 = some x1 →
    x1 ≠ Piece.None → cell? pieces r2 j2 = some x2 → x2 ≠ Piece.None →
    cell? fpos r1 j1 = some k → cell? fpos r2 j2 = some k → r1 = r2 ∧ j1 = j2) ∧
  (hi ≤ 64 → fb < 2 ^ 64 → fb' < 2 ^ 64 ∧
    ∀ k : Nat, fb'.testBit k = true ↔
      fb.testBit k = true ∨
        ∃ r j : Nat, cell? pieces r j = some Piece.Peg ∧ cell? fpos r j = some k)

/-- A cell that is part of the board: it holds a peg or a hole. -/
def PegBoard.active (b : PegBoard) (p : Position) : Prop :=
  b.get p = some Piece.Peg ∨ b.get p = some Piece.Hole

/-- The flattened board agrees with the grid: every cell of the board has its own index below
`n_positions`, at most 64 of them, and bit `k` of the flattened board is set exactly when the
cell of index `k` holds a peg. -/
structure PegBoard.Consistent (b : PegBoard) : Prop where
  index : ∀ p, b.active p → ∃ k, index2 b.flattened_pos p = some k ∧ k < b.n_positions
  inj : ∀ p q k, b.active p → b.active q → index2 b.flattened_pos p = some k →
    index2 b.flattened_pos q = some k → p = q
  bits : ∀ k, b.flattened_board.testBit k = true ↔
    ∃ p, b.get p = some Piece.Peg ∧ index2 b.flattened_pos p = some k
  bound : b.n_positions ≤ 64

/-- A layout of 96 cells, three rows of 32, with seven pegs in its upper left corner. -/
def layout_unsound : String :=
  "11110000000000000000000000000000\n11010000000000000000000000000000\n00000000000000000000000000000000"

/-- A layout of 128 cells, four rows of 32, with four pegs in its upper left corner; three
jumps reduce it to one peg. -/
def layout_incomplete : String :=
  "01000000000000000000000000000000\n10000000000000000000000000000000\n01100000000000000000000000000000\n00000000000000000000000000000000"

/-- Three jumps that reduce `layout_incomplete` to one peg. -/
def solution_incomplete : List Move :=
  [{ pos := { row := 2, col := 2 }, dir := Direction.Left },
   { pos := { row := 2, col := 0 }, dir := Direction.Up },
   { pos := { row := 0, col := 0 }, dir := Direction.Right }]

/-- The answer of `checkBoardSaved` when its read is in range: whether the value is held in the
container of the mode. -/
def BoardSaver.check (s : BoardSaver) (flattened_board : Nat) : Bool :=
  if s.mode = SolverBoardSaving.Hashmap then decide (flattened_board ∈ s.boards_hashmap)
  else if s.mode = SolverBoardSaving.Bitfield then decide (flattened_board ∈ s.boards_bitfield)
  else false

/-- The store after `saveBoard` when its write is in range: the value is added to the
container of the mode. -/
def BoardSaver.save (s : BoardSaver) (flattened_board : Nat) : BoardSaver :=
  if s.mode = SolverBoardSaving.Hashmap then
    { s with boards_hashmap := flattened_board :: s.boards_hashmap }
  else if s.mode = SolverBoardSaving.Bitfield then
    { s with boards_bitfield := flattened_board :: s.boards_bitfield }
  else s

/-- A flattened value that `saveBoard` and `checkBoardSaved` access in range: in mode Bitfield
it is below the size of the bitfield. -/
def BoardSaver.in_range (s : BoardSaver) (flattened_board : Nat) : Prop :=
  s.mode = SolverBoardSaving.Bitfield → flattened_board < s.bitfield_size

/-- In mode Bitfield the bitfield has a bit for every flattened value of `n` positions. -/
def BoardSaver.Covers (s : BoardSaver) (n : Nat) : Prop :=
  s.mode = SolverBoardSaving.Bitfield → 2 ^ n ≤ s.bitfield_size

/-- The store of a mode fits a board of `n` positions: in mode Bitfield the board has fewer
than 64 positions, so that `uint64_t(1) << n` is `2 ^ n`. -/
def store_fits (mode : SolverBoardSaving) (n : Nat) : Prop :=
  mode = SolverBoardSaving.Bitfield → n < 64

/-- A run of the program of the test: the board is constructed from the layout, a solver is
constructed for it in the given mode, and `solve_board` is called. The result is what
`solve_board` returned, whether replaying `get_moves()` on the input board succeeds at every
step, and the number of pegs of `get_current_board()`. -/
def solver_outcome (fuel : Nat) (layout : String) (mode : SolverBoardSaving) :
    Option (Bool × Bool × Nat) :=
  match PegBoard.new layout with
  | .error _ => none
  | .ok b =>
    match BoardSolver.new b mode with
    | .error _ => none
    | .ok s =>
      match s.solve_board fuel with
      | .error _ => none
      | .ok (r, s') =>
        some (r, (replay_moves b s'.get_moves).1, s'.get_current_board.count_pieces Piece.Peg)

/-- The number of pegs of the board of a layout, and whether the given moves are legal on it
one after the other. -/
def replay_outcome (layout : String) (moves : List Move) : Option (Nat × Bool) :=
  match PegBoard.new layout with
  | .error _ => none
  | .ok b => some (b.count_pieces Piece.Peg, (replay_moves b moves).1)

/-- Two boards of the same shape: the same dimensions and table of flattened positions, and
the same cells inside the grid and part of the board. -/
structure PegBoard.SameShape (c b : PegBoard) : Prop where
  n_rows : c.n_rows = b.n_rows
  n_cols : c.n_cols = b.n_cols
  n_positions : c.n_positions = b.n_positions
  flattened_pos : c.flattened_pos = b.flattened_pos
  length : c.pieces.length = b.pieces.length
  cells : ∀ q, c.active q ↔ b.active q
  outside : ∀ q, c.get q = none ↔ b.get q = none

/-- The invariant of the loops of `solve_board` on a board `b0` of at most 64 positions: the
index is inside the move stack, the stack has one slot less than the board has pegs, the moves
below the index are legal one after the other from the input board and give the working board,
no board on this path is saved as unwinnable, and in mode Bitfield the bitfield has a bit for
every flattened value of the board. -/
structure BoardSolver.Inv (b0 : PegBoard) (s : BoardSolver) : Prop where
  input : s.input_board = b0
  consistent : b0.Consistent
  index : s.last_move_index < s.moves.length
  length : s.moves.length + 1 = b0.count_pieces Piece.Peg
  path : replay_moves b0 (s.moves.take s.last_move_index) = (true, s.board)
  fresh : ∀ j, j ≤ s.last_move_index →
    s.board_saver.check (replay_moves b0 (s.moves.take j)).2.flattened_board = false
  covers : s.board_saver.Covers b0.n_positions

/-- The index of a direction in the enum. -/
def Direction.index : Direction → Nat
  | Direction.Up => 0
  | Direction.Right => 1
  | Direction.Down => 2
  | Direction.Left => 3

/-- A move whose origin is inside a grid of `R` rows and `C` columns. -/
def Move.InGrid (R C : Nat) (m : Move) : Prop :=
  0 ≤ m.pos.row ∧ m.pos.row < (R : Int) ∧ 0 ≤ m.pos.col ∧ m.pos.col < (C : Int)

/-- The place of a move in the scan of `find_next_move` over a grid of `C` columns: by rows,
then columns, then directions. -/
def Move.rank (C : Nat) (m : Move) : Nat :=
  (m.pos.row.toNat * C + m.pos.col.toNat) * 4 + m.dir.index

/-- A board from which `k` legal forward moves can be made one after the other. -/
def Solvable (k : Nat) (c : PegBoard) : Prop :=
  ∃ ms : List Move, ms.length = k ∧ (replay_moves c ms).1 = true

/-- The store holds only unwinnable boards: a consistent board of the shape of `b0` whose
flattened value is saved admits no sequence of legal moves that leaves one peg. -/
def BoardSaver.Sound (b0 : PegBoard) (sv : BoardSaver) : Prop :=
  ∀ c : PegBoard, c.SameShape b0 → c.Consistent →
    sv.check c.flattened_board = true → ¬ Solvable (c.count_pieces Piece.Peg - 1) c

/-- The loops of `solve_board` get from one state to another in finitely many passes. -/
inductive BoardSolver.Run : BoardSolver.Phase → BoardSolver → BoardSolver.Phase → BoardSolver → Prop
  | refl (ph : BoardSolver.Phase) (s : BoardSolver) : BoardSolver.Run ph s ph s
  | step (ph ph1 ph2 : BoardSolver.Phase) (s s1 s2 : BoardSolver) :
      BoardSolver.solve_step ph s = BoardSolver.Step.next ph1 s1 →
      BoardSolver.Run ph1 s1 ph2 s2 → BoardSolver.Run ph s ph2 s2

/-- The loops of `solve_board`, started in a state, return after finitely many passes. -/
def BoardSolver.Returns (ph : BoardSolver.Phase) (s : BoardSolver) (r : Bool)
    (s' : BoardSolver) : Prop :=
  ∃ ph1 s1, BoardSolver.Run ph s ph1 s1 ∧ BoardSolver.solve_step ph1 s1 = BoardSolver.Step.done r s'

/-- A move that does not start a solution of `d` further moves: it is illegal on the board, or
the board it gives admits no `d` legal moves in a row. -/
def Handled (c : PegBoard) (d : Nat) (m : Move) : Prop :=
  (c.make_move m false).1 = true → ¬ Solvable d (c.make_move m false).2

/-- A state at the head of the outer loop in which `d` slots of the move stack lie above the
index, with the move `mv` in the slot of the index. -/
def BoardSolver.Ready (b0 : PegBoard) (d : Nat) (s : BoardSolver) (mv : Move) : Prop :=
  BoardSolver.Inv b0 s ∧ s.board_saver.Sound b0 ∧ s.moves.length = s.last_move_index + 1 + d ∧
    s.moves[s.last_move_index]? = some mv ∧ mv.InGrid b0.n_rows b0.n_cols

/-- The state `t` in the inner loop after the move `mv` of the state `s` was tried and did not
lead to a solution. -/
def BoardSolver.AfterTry (b0 : PegBoard) (d : Nat) (s t : BoardSolver) (mv : Move) : Prop :=
  BoardSolver.Inv b0 t ∧ t.board_saver.Sound b0 ∧ t.last_move_index = s.last_move_index ∧
    t.board = s.board ∧
    t.moves.take (s.last_move_index + 1) = s.moves.take (s.last_move_index + 1) ∧
    t.moves.length = s.moves.length ∧ Handled s.board d mv

/-- The state `t` in the inner loop after the scan at the index of `s` is exhausted. -/
def BoardSolver.Exhausted (b0 : PegBoard) (d : Nat) (s t : BoardSolver) : Prop :=
  BoardSolver.Inv b0 t ∧ t.board_saver.Sound b0 ∧ t.last_move_index = s.last_move_index ∧
    t.board = s.board ∧ t.moves.take s.last_move_index = s.moves.take s.last_move_index ∧
    t.moves.length = s.moves.length ∧
    (∃ mv', t.moves[t.last_move_index]? = some mv' ∧ (t.find_next_move mv').1 = false) ∧
    ¬ Solvable (d + 1) s.board

/-- Trying one move either ends in a solution or comes back to the inner loop. -/
def BoardSolver.TrySpec (b0 : PegBoard) (d : Nat) : Prop :=
  ∀ s mv, BoardSolver.Ready b0 d s mv →
    (∃ s', BoardSolver.Returns BoardSolver.Phase.try_move s true s') ∨
    ∃ t, BoardSolver.Run BoardSolver.Phase.try_move s BoardSolver.Phase.next_move t ∧
      BoardSolver.AfterTry b0 d s t mv

/-- Scanning the moves from `mv` on either ends in a solution or exhausts the scan. -/
def BoardSolver.ExploreSpec (b0 : PegBoard) (d : Nat) : Prop :=
  ∀ (w : Nat) s mv, BoardSolver.Ready b0 d s mv →
    mv.rank b0.n_cols + w = 4 * (b0.n_rows * b0.n_cols) →
    (∀ m' : Move, m'.InGrid b0.n_rows b0.n_cols → m'.rank b0.n_cols < mv.rank b0.n_cols →
      Handled s.board d m') →
    (∃ s', BoardSolver.Returns BoardSolver.Phase.try_move s true s') ∨
    ∃ t, BoardSolver.Run BoardSolver.Phase.try_move s BoardSolver.Phase.next_move t ∧
      BoardSolver.Exhausted b0 d s t

/-! ## Auxiliary definitions: the scan of the moves -/

/-- The move reached by `n` calls of `find_next_move` that each return true, every call made on
the move the call before it found, starting from `m`; `none` when one of the calls returns
false. -/
def BoardSolver.scan (s : BoardSolver) : Nat → Move → Option Move
  | 0, m => some m
  | n + 1, m =>
    if (s.find_next_move m).1 then BoardSolver.scan s n (s.find_next_move m).2 else none

/-- The lexicographic order of the moves: by row, then by column, then by direction in the
order Up, Right, Down, Left. -/
def Move.lex_lt (m m' : Move) : Prop :=
  m.pos.row < m'.pos.row ∨
    (m.pos.row = m'.pos.row ∧
      (m.pos.col < m'.pos.col ∨ (m.pos.col = m'.pos.col ∧ m.dir.index < m'.dir.index)))

/-- A solver on the board `"110"`, as its constructor leaves it. -/
def solver_110 : BoardSolver :=
  { moves := [first_move]
    last_move_index := 0
    input_board := board_110
    board := board_110
    board_saver :=
      { mode := SolverBoardSaving.None, boards_hashmap := [], boards_bitfield := []
        bitfield_size := 0 }
    solve_board_completed := false
    solve_board_status := false }

/-- The solver `solver_110` after `solve_board` has returned true: the jump of the leftmost
peg to the right is in the move stack and has been made on the board. -/
def solved_110 : BoardSolver :=
  { moves := [move_110]
    last_move_index := 0
    input_board := board_110
    board :=
      { n_positions := 3, n_rows := 1, n_cols := 3
        pieces := [[Piece.Hole, Piece.Hole, Piece.Peg]]
        flattened_pos := [[0, 1, 2]]
        flattened_board := 4 }
    board_saver :=
      { mode := SolverBoardSaving.None, boards_hashmap := [], boards_bitfield := []
        bitfield_size := 0 }
    solve_board_completed := true
    solve_board_status := true }

/-- The board of the layout `"0"`: one hole. -/
def board_0 : PegBoard :=
  { n_positions := 1, n_rows := 1, n_cols := 1
    pieces := [[Piece.Hole]]
    flattened_pos := [[0]]
    flattened_board := 0 }

/-- The board of the layout `"1"`: one peg. -/
def board_1 : PegBoard :=
  { n_positions := 1, n_rows := 1, n_cols := 1
    pieces := [[Piece.Peg]]
    flattened_pos := [[0]]
    flattened_board := 1 }

/-- No two pegs of the board are next to each other in a row or in a column. -/
def PegBoard.no_adjacent_pegs (b : PegBoard) : Prop :=
  ∀ r, r < b.n_rows → ∀ c, c < b.n_cols →
    b.get { row := (r : Int), col := (c : Int) } = some Piece.Peg →
      b.get { row := (r : Int), col := (c : Int) + 1 } ≠ some Piece.Peg ∧
      b.get { row := (r : Int) + 1, col := (c : Int) } ≠ some Piece.Peg

/-- A state of the search at index 0 on a board `b` without a legal move: the working board
is `b`, nothing is saved in the store, and slot 0 holds the move `mv` of the grid. -/
def BoardSolver.Stuck (b : PegBoard) (s : BoardSolver) (mv : Move) : Prop :=
  s.last_move_index = 0 ∧ s.board = b ∧
    s.board_saver.checkBoardSaved b.flattened_board = some false ∧
    s.moves[0]? = some mv ∧ mv.InGrid b.n_rows b.n_cols

instance (b : PegBoard) : Decidable b.no_adjacent_pegs := by
  unfold PegBoard.no_adjacent_pegs
  infer_instance

/-- The board of the layout of four rows `"1111"`: sixteen pegs and no hole. -/
def board_16 : PegBoard :=
  { n_positions := 16, n_rows := 4, n_cols := 4
    pieces := List.replicate 4 (List.replicate 4 Piece.Peg)
    flattened_pos := [[0, 1, 2, 3], [4, 5, 6, 7], [8, 9, 10, 11], [12, 13, 14, 15]]
    flattened_board := 65535 }

/-- The board of the layout `"01010101010"`: holes and pegs in turn. -/
def board_alternating : PegBoard :=
  { n_positions := 11, n_rows := 1, n_cols := 11
    pieces := [[Piece.Hole, Piece.Peg, Piece.Hole, Piece.Peg, Piece.Hole, Piece.Peg, Piece.Hole,
      Piece.Peg, Piece.Hole, Piece.Peg, Piece.Hole]]
    flattened_pos := [[0, 1, 2, 3, 4, 5, 6, 7, 8, 9, 10]]
    flattened_board := 682 }

/-- The store the constructor of `BoardSaver` gives in the modes None and Hashmap. -/
def saver_of (mode : SolverBoardSaving) : BoardSaver :=
  { mode := mode, boards_hashmap := [], boards_bitfield := [], bitfield_size := 0 }

/-- The solver the constructor of `BoardSolver` gives for a board with a peg in the modes None
and Hashmap. -/
def solver_of (b : PegBoard) (mode : SolverBoardSaving) : BoardSolver :=
  { moves := List.replicate (b.count_pieces Piece.Peg - 1) first_move
    last_move_index := 0
    input_board := b
    board := b
    board_saver := saver_of mode
    solve_board_completed := false
    solve_board_status := false }

/-! ## Auxiliary definitions: the course of the search on any board -/

/-- What a run of the solver keeps: the working board has `R` rows and `C` columns, the move
stack has `L` slots, and in mode Bitfield the state satisfies the invariant `Inv` for some input
board, so that the bitfield has a bit for every board the run looks up or saves. -/
def BoardSolver.Dims (R C L : Nat) (s : BoardSolver) : Prop :=
  s.board.n_rows = R ∧ s.board.n_cols = C ∧ s.moves.length = L ∧
    (s.board_saver.mode = SolverBoardSaving.Bitfield → ∃ b0, BoardSolver.Inv b0 s)

/-- A state in which `d` slots of the move stack lie above the index and the slot of the index
holds the move `mv` of the grid. -/
def BoardSolver.Slot (R C L d : Nat) (s : BoardSolver) (mv : Move) : Prop :=
  BoardSolver.Dims R C L s ∧ s.last_move_index + 1 + d = L ∧
    s.moves[s.last_move_index]? = some mv ∧ mv.InGrid R C

/-- The scan at the index of `s` is exhausted in the state `t`: the index and the slots below
it are those of `s`, and `find_next_move` returns false on the move in the slot of the index. -/
def BoardSolver.ScanEnd (R C L : Nat) (s t : BoardSolver) : Prop :=
  BoardSolver.Dims R C L t ∧ t.last_move_index = s.last_move_index ∧
    t.moves.take s.last_move_index = s.moves.take s.last_move_index ∧
    ∃ mv', t.moves[t.last_move_index]? = some mv' ∧ (t.find_next_move mv').1 = false

/-- With `d` slots above the index, trying the move of the slot ends the run or comes to the
inner loop with the same index and the same slots up to the index. -/
def BoardSolver.TermTry (R C L d : Nat) : Prop :=
  ∀ s mv, BoardSolver.Slot R C L d s mv →
    (∃ r s', BoardSolver.Returns BoardSolver.Phase.try_move s r s') ∨
    ∃ t, BoardSolver.Run BoardSolver.Phase.try_move s BoardSolver.Phase.next_move t ∧
      BoardSolver.Dims R C L t ∧ t.last_move_index = s.last_move_index ∧
      t.moves.take (s.last_move_index + 1) = s.moves.take (s.last_move_index + 1)

/-- With `d` slots above the index, the search from the head of the outer loop ends the run or
exhausts the scan at the index. -/
def BoardSolver.TermExplore (R C L d : Nat) : Prop :=
  ∀ s mv, BoardSolver.Slot R C L d s mv →
    (∃ r s', BoardSolver.Returns BoardSolver.Phase.try_move s r s') ∨
    ∃ t, BoardSolver.Run BoardSolver.Phase.try_move s BoardSolver.Phase.next_move t ∧
      BoardSolver.ScanEnd R C L s t

/-- The state of the loops of `solve_board` after `n` passes: the phase and the solver; `none`
when the run ended before. -/
def BoardSolver.solve_trace : Nat → BoardSolver.Phase → BoardSolver →
    Option (BoardSolver.Phase × BoardSolver)
  | 0, ph, s => some (ph, s)
  | n + 1, ph, s =>
    match BoardSolver.solve_step ph s with
    | BoardSolver.Step.next ph' s' => BoardSolver.solve_trace n ph' s'
    | BoardSolver.Step.done _ _ => none
    | BoardSolver.Step.fault => none

/-- The state `n` passes into the call of `solve_board` on the solver constructed for the board
of a layout: the phase, the index, whether the moves below the index are legal one after the
other from the input board, and whether they give the working board. -/
def trace_outcome (n : Nat) (layout : String) (mode : SolverBoardSaving) :
    Option (BoardSolver.Phase × Nat × Bool × Bool) :=
  match PegBoard.new layout with
  | .error _ => none
  | .ok b =>
    match BoardSolver.new b mode with
    | .error _ => none
    | .ok s =>
      match BoardSolver.solve_trace n BoardSolver.Phase.try_move
          { s with solve_board_completed := true } with
      | none => none
      | some (ph, t) =>
        some (ph, t.last_move_index,
          (replay_moves b (t.moves.take t.last_move_index)).1,
          decide ((replay_moves b (t.moves.take t.last_move_index)).2 = t.board))

/-! ## Auxiliary definitions: the cells of the board in scan order -/

/-- A board from which some sequence of legal forward moves reaches a board with exactly one
peg. -/
def Winnable (c : PegBoard) : Prop :=
  ∃ ms : List Move, (replay_moves c ms).1 = true ∧
    (replay_moves c ms).2.count_pieces Piece.Peg = 1

/-- A flattened value that is held in the store: an element of the `std::unordered_set` or an
index of the `std::vector<bool>` that holds `true`. -/
def BoardSaver.holds (sv : BoardSaver) (v : Nat) : Prop :=
  v ∈ sv.boards_hashmap ∨ v ∈ sv.boards_bitfield

/-- Only the container of the mode of the store is in use. -/
def BoardSaver.Clean (sv : BoardSaver) : Prop :=
  (sv.mode ≠ SolverBoardSaving.Hashmap → sv.boards_hashmap = []) ∧
    (sv.mode ≠ SolverBoardSaving.Bitfield → sv.boards_bitfield = [])

/-- Every flattened value held in the store is the flattened value of a board of the shape of
`b0` that is not winnable, and no winnable board of the shape of `b0` has its flattened value
in the store. -/
def BoardSaver.OnlyUnwinnable (b0 : PegBoard) (sv : BoardSaver) : Prop :=
  (∀ v, sv.holds v →
    ∃ c : PegBoard, c.SameShape b0 ∧ c.Consistent ∧ c.get_flattened_value = v ∧ ¬ Winnable c) ∧
  ∀ c : PegBoard, c.SameShape b0 → c.Consistent → sv.holds c.get_flattened_value → ¬ Winnable c

/-- How far the scan of the slot `j` has come: the moves of a rank below this number have been
tried. In the inner loop the move in the slot of the index has been tried as well. -/
def BoardSolver.scan_limit (C : Nat) (ph : BoardSolver.Phase) (index j : Nat) (mv : Move) : Nat :=
  mv.rank C + (if j = index ∧ ph = BoardSolver.Phase.next_move then 1 else 0)

/-- The invariant of the search on a board `b0` of at most 64 positions, pass by pass: the
invariant of the move stack holds, the store holds only flattened values of unwinnable boards
of the shape of `b0`, the moves in the slots up to the index are moves of the grid, and every
move that the scan of a slot has passed does not start a solution from the board of that
slot. -/
structure BoardSolver.Searched (b0 : PegBoard) (ph : BoardSolver.Phase) (s : BoardSolver) :
    Prop where
  inv : BoardSolver.Inv b0 s
  sound : s.board_saver.Sound b0
  origin : ∀ v, s.board_saver.check v = true →
    ∃ c : PegBoard, c.SameShape b0 ∧ c.Consistent ∧ c.flattened_board = v
  clean : s.board_saver.Clean
  ingrid : ∀ (j : Nat) (mv : Move), j ≤ s.last_move_index → s.moves[j]? = some mv →
    mv.InGrid b0.n_rows b0.n_cols
  handled : ∀ (j : Nat) (mv m' : Move), j ≤ s.last_move_index → s.moves[j]? = some mv →
    m'.InGrid b0.n_rows b0.n_cols →
    m'.rank b0.n_cols < BoardSolver.scan_limit b0.n_cols ph s.last_move_index j mv →
    Handled (replay_moves b0 (s.moves.take j)).2 (s.moves.length - 1 - j) m'

/-- The head of the outer loop in the words of section 4.4 of the specification: the move of
the slot is attempted; if the move succeeds and the resulting flattened value is marked dead,
the move is reversed and the attempt counts as failed; if it succeeds and is not dead, the
search is solved at the last slot and goes one slot up otherwise; if it fails, the inner loop
advances the slot. -/
def BoardSolver.try_move_spec (s : BoardSolver) : BoardSolver.Step :=
  match s.moves[s.last_move_index]? with
  | none => BoardSolver.Step.fault
  | some move =>
    let r := s.board.make_move move false
    if r.1 && s.board_saver.check r.2.get_flattened_value then
      BoardSolver.Step.next BoardSolver.Phase.next_move
        { s with board := (r.2.make_move move true).2 }
    else if r.1 then
      if s.last_move_index = s.moves.length - 1 then
        BoardSolver.Step.done true { s with board := r.2, solve_board_status := true }
      else
        BoardSolver.Step.next BoardSolver.Phase.try_move
          { s with board := r.2
                   last_move_index := s.last_move_index + 1
                   moves := s.moves.set (s.last_move_index + 1) first_move }
    else BoardSolver.Step.next BoardSolver.Phase.next_move { s with board := r.2 }

/-- The board of the layout `"1110"`: three pegs and a hole. -/
def board_1110 : PegBoard :=
  { n_positions := 4, n_rows := 1, n_cols := 4
    pieces := [[Piece.Peg, Piece.Peg, Piece.Peg, Piece.Hole]]
    flattened_pos := [[0, 1, 2, 3]]
    flattened_board := 7 }

/-- The solver for `board_1110` in mode Hashmap after `solve_board` has returned false: the
scan of slot 0 is at its end, the board is the input board, and the store holds the flattened
value 9 of the board Peg, Hole, Hole, Peg. -/
def searched_1110 : BoardSolver :=
  { moves := [{ pos := { row := 0, col := 3 }, dir := Direction.Left },
              { pos := { row := 0, col := 3 }, dir := Direction.Left }]
    last_move_index := 0
    input_board := board_1110
    board := board_1110
    board_saver :=
      { mode := SolverBoardSaving.Hashmap, boards_hashmap := [9], boards_bitfield := []
        bitfield_size := 0 }
    solve_board_completed := true
    solve_board_status := false }

/-- The solver for `board_1110` in mode Hashmap after 44 passes of the loops of `solve_board`:
at the head of the outer loop with index 0, the move ((0,1), Down) in slot 0, the input board as
working board, and the flattened value 9 in the store. -/
def trial_1110 : BoardSolver :=
  { moves := [{ pos := { row := 0, col := 1 }, dir := Direction.Down },
              { pos := { row := 0, col := 3 }, dir := Direction.Left }]
    last_move_index := 0
    input_board := board_1110
    board := board_1110
    board_saver :=
      { mode := SolverBoardSaving.Hashmap, boards_hashmap := [9], boards_bitfield := []
        bitfield_size := 0 }
    solve_board_completed := true
    solve_board_status := false }

/-- A layout of 96 cells, three rows of 32, with two pegs in its first row and two pegs in its
third row. -/
def layout_unrestored : String :=
  "01100000000000000000000000000000\n00000000000000000000000000000000\n11000000000000000000000000000000"

/-! ## Auxiliary definitions: boards of 63 and 64 positions for the mode Bitfield -/

/-- A layout of 64 cells in one row: 60 Holes, then Peg, Hole, Peg, Hole. No two pegs are next
to each other. -/
def layout_64_apart : String :=
  "0000000000000000000000000000000000000000000000000000000000001010"

/-- A layout of 64 cells in one row: 61 Holes, then Peg, Peg, Hole. -/
def layout_64_pair : String :=
  "0000000000000000000000000000000000000000000000000000000000000110"

/-- A layout of 63 cells in one row: 60 Holes, then Peg, Peg, Hole. -/
def layout_63_pair : String :=
  "000000000000000000000000000000000000000000000000000000000000110"

/-- A layout of 64 cells in one row: 60 Holes, then Peg, Peg, Hole, Hole. -/
def layout_64_inner : String :=
  "0000000000000000000000000000000000000000000000000000000000001100"

/-- What the constructors give for a layout in mode Bitfield: the number of positions, the
number of pegs and the flattened value of the board, whether no two of its pegs are next to
each other, what the forward `make_move` of the first move of the scan returns, and the size
of the bitfield of the solver or the error that its constructor throws. -/
structure BitfieldOutcome where
  n_positions : Nat
  n_pegs : Nat
  flattened : Nat
  apart : Bool
  first_trial : Bool
  bitfield : Except SolverError Nat
deriving DecidableEq

/-- The board of a layout and the solver constructed for it in mode Bitfield. -/
def bitfield_outcome (layout : String) : Option BitfieldOutcome :=
  match PegBoard.new layout with
  | .error _ => none
  | .ok b =>
    some { n_positions := b.get_n_positions
           n_pegs := b.count_pieces Piece.Peg
           flattened := b.get_flattened_value
           apart := decide b.no_adjacent_pegs
           first_trial := (b.make_move first_move false).1
           bitfield :=
             match BoardSolver.new b SolverBoardSaving.Bitfield with
             | .error e => .error e
             | .ok s => .ok s.board_saver.bitfield_size }

/-! ## Lemmas on two-dimensional indexing -/

theorem Position.ext_iff' (p q : Position) : p = q ↔ p.row = q.row ∧ p.col = q.col := by
  cases p; cases q; simp

theorem index2_eq_some_iff {α : Type} (g : List (List α)) (p : Position) (x : α) :
    index2 g p = some x ↔
      0 ≤ p.row ∧ 0 ≤ p.col ∧ ∃ r, g[p.row.toNat]? = some r ∧ r[p.col.toNat]? = some x := by
  unfold index2
  by_cases hp : 0 ≤ p.row ∧ 0 ≤ p.col
  · rw [if_pos hp]
    cases hr : g[p.row.toNat]? with
    | none => simp
    | some r => simp [hp.1, hp.2]
  · rw [if_neg hp]
    constructor
    · intro h; cases h
    · rintro ⟨h1, h2, _⟩; exact absurd ⟨h1, h2⟩ hp

theorem index2_assign2 {α : Type} (g : List (List α)) (p q : Position) (x : α) :
    index2 (assign2 g p x) q =
      if q = p ∧ (index2 g p).isSome = true then some x else index2 g q := by
  unfold assign2
  by_cases hp : 0 ≤ p.row ∧ 0 ≤ p.col
  · rw [if_pos hp]
    cases hr : g[p.row.toNat]? with
    | none =>
      have : index2 g p = none := by unfold index2; rw [if_pos hp, hr]
      simp [this]
    | some r =>
      have hpi : index2 g p = r[p.col.toNat]? := by unfold index2; rw [if_pos hp, hr]
      have hlt : p.row.toNat < g.length := by
        rcases List.getElem?_eq_some.mp hr with ⟨h, _⟩; exact h
      by_cases hq : 0 ≤ q.row ∧ 0 ≤ q.col
      · by_cases hrow : q.row = p.row
        · have e1 : index2 (g.set p.row.toNat (r.set p.col.toNat x)) q
              = (r.set p.col.toNat x)[q.col.toNat]? := by
            unfold index2; rw [if_pos hq, hrow, List.getElem?_set_self hlt]
          have e2 : index2 g q = r[q.col.toNat]? := by
            unfold index2; rw [if_pos hq, hrow, hr]
          rw [e1, e2, hpi]
          by_cases hcol : q.col = p.col
          · have hqp : q = p := (Position.ext_iff' q p).mpr ⟨hrow, hcol⟩
            rw [hcol]
            by_cases hl : p.col.toNat < r.length
            · rw [List.getElem?_set_self hl]; simp [hqp, hl]
            · have hl' : r.length ≤ p.col.toNat := Nat.le_of_not_lt hl
              rw [List.set_eq_of_length_le hl', List.getElem?_eq_none hl']; simp
          · have hne : p.col.toNat ≠ q.col.toNat := by
              have := hp.2; have := hq.2; omega
            have hqp : ¬ q = p := fun h => hcol (by rw [h])
            rw [List.getElem?_set_ne hne]; simp [hqp]
        · have hne : p.row.toNat ≠ q.row.toNat := by
            have := hp.1; have := hq.1; omega
          have hqp : ¬ q = p := fun h => hrow (by rw [h])
          have e1 : index2 (g.set p.row.toNat (r.set p.col.toNat x)) q = index2 g q := by
            unfold index2; rw [if_pos hq, if_pos hq, List.getElem?_set_ne hne]
          rw [e1]; simp [hqp]
      · have hqp : ¬ q = p := fun h => hq (by rw [h]; exact hp)
        have e1 : ∀ g' : List (List α), index2 g' q = none := by
          intro g'; unfold index2; rw [if_neg hq]
        rw [e1, e1]; simp [hqp]
  · rw [if_neg hp]
    have : index2 g p = none := by unfold index2; rw [if_neg hp]
    simp [this]

theorem assign2_length {α : Type} (g : List (List α)) (p : Position) (x : α) :
    (assign2 g p x).length = g.length := by
  unfold assign2
  split
  · split <;> simp
  · rfl

namespace PegBoard

theorem get_set (b : PegBoard) (p q : Position) (x : Piece) :
    (b.set p x).get q = if q = p ∧ (b.get p).isSome = true then some x else b.get q := by
  unfold get set
  exact index2_assign2 b.pieces p q x

theorem set_flattened_pos (b : PegBoard) (p : Position) (x : Piece) :
    (b.set p x).flattened_pos = b.flattened_pos := rfl

theorem set_n_rows (b : PegBoard) (p : Position) (x : Piece) : (b.set p x).n_rows = b.n_rows := rfl

theorem set_n_cols (b : PegBoard) (p : Position) (x : Piece) : (b.set p x).n_cols = b.n_cols := rfl

theorem set_n_positions (b : PegBoard) (p : Position) (x : Piece) :
    (b.set p x).n_positions = b.n_positions := rfl

theorem move_positions_ne (m : Move) :
    (get_move_positions m).1 ≠ m.pos ∧ (get_move_positions m).2 ≠ m.pos ∧
      (get_move_positions m).2 ≠ (get_move_positions m).1 := by
  unfold get_move_positions
  cases m.dir <;> simp [Position.ext_iff']

theorem make_move_eq (b : PegBoard) (m : Move) (reversed : Bool) :
    b.make_move m reversed =
      if b.position_on_board m.pos = true ∧ b.position_on_board (get_move_positions m).1 = true ∧
          b.get m.pos = some (piece_other reversed) ∧
          b.get (get_move_positions m).2 = some (piece_other reversed) ∧
          b.get (get_move_positions m).1 = some (piece_target reversed)
      then (true, ((b.set (get_move_positions m).1 (piece_other reversed)).set m.pos
              (piece_target reversed)).set (get_move_positions m).2 (piece_target reversed))
      else (false, b) := by
  unfold make_move piece_other piece_target
  by_cases h1 : b.position_on_board m.pos = true <;>
  by_cases h2 : b.position_on_board (get_move_positions m).1 = true <;>
  by_cases h3 : b.get m.pos = some (if reversed = true then Piece.Hole else Piece.Peg) <;>
  by_cases h4 : b.get (get_move_positions m).2 = some (if reversed = true then Piece.Hole else Piece.Peg) <;>
  by_cases h5 : b.get (get_move_positions m).1 = some (if reversed = true then Piece.Peg else Piece.Hole) <;>
  simp [h1, h2, h3, h4, h5]

theorem make_move_true_iff (b : PegBoard) (m : Move) (reversed : Bool) :
    (b.make_move m reversed).1 = true ↔
      b.position_on_board m.pos = true ∧ b.position_on_board (get_move_positions m).1 = true ∧
        b.get m.pos = some (piece_other reversed) ∧
        b.get (get_move_positions m).2 = some (piece_other reversed) ∧
        b.get (get_move_positions m).1 = some (piece_target reversed) := by
  rw [make_move_eq]
  split <;> simp_all

theorem make_move_false (b : PegBoard) (m : Move) (reversed : Bool)
    (h : (b.make_move m reversed).1 = false) : (b.make_move m reversed).2 = b := by
  rw [make_move_eq] at h ⊢
  split at h
  · cases h
  · rename_i hc; rw [if_neg hc]

theorem make_move_get (b : PegBoard) (m : Move) (reversed : Bool)
    (h : (b.make_move m reversed).1 = true) (q : Position) :
    (b.make_move m reversed).2.get q =
      if q = m.pos ∨ q = (get_move_positions m).2 then some (piece_target reversed)
      else if q = (get_move_positions m).1 then some (piece_other reversed)
      else b.get q := by
  have hc := (make_move_true_iff b m reversed).mp h
  rw [make_move_eq, if_pos hc]
  obtain ⟨_, _, h3, h4, h5⟩ := hc
  obtain ⟨n1, n2, n3⟩ := move_positions_ne m
  simp only [get_set, h3, h4, h5]
  by_cases q1 : q = m.pos
  · subst q1; simp [Ne.symm n2]
  · by_cases q2 : q = (get_move_positions m).2
    · subst q2; simp [n2, n3]
    · by_cases q3 : q = (get_move_positions m).1
      · subst q3; simp [n1, Ne.symm n3]
      · simp [q1, q2, q3]

theorem make_move_shape (b : PegBoard) (m : Move) (reversed : Bool) :
    (b.make_move m reversed).2.n_rows = b.n_rows ∧ (b.make_move m reversed).2.n_cols = b.n_cols ∧
      (b.make_move m reversed).2.n_positions = b.n_positions ∧
      (b.make_move m reversed).2.flattened_pos = b.flattened_pos := by
  rw [make_move_eq]
  split <;> simp [set]

end PegBoard


/-! ## Claims on `make_move` -/

theorem board_110_new : PegBoard.new "110" = .ok board_110 := by decide

/-- C4: forward move semantics. `make_move(move, false)` returns true exactly when the origin and
the target (two cells from the origin in the direction of the move) are inside the grid, the
origin and the middle cell hold a Peg and the target holds a Hole; when it returns true the
origin and the middle hold a Hole afterwards, the target holds a Peg, and every other cell of
the grid reads as before. -/
theorem make_move_forward (b : PegBoard) (move : Move) :
    ((b.make_move move false).1 = true ↔
      b.position_on_board move.pos = true ∧
      b.position_on_board (PegBoard.get_move_positions move).1 = true ∧
      b.get move.pos = some Piece.Peg ∧
      b.get (PegBoard.get_move_positions move).2 = some Piece.Peg ∧
      b.get (PegBoard.get_move_positions move).1 = some Piece.Hole) ∧
    ((b.make_move move false).1 = true →
      (b.make_move move false).2.get move.pos = some Piece.Hole ∧
      (b.make_move move false).2.get (PegBoard.get_move_positions move).2 = some Piece.Hole ∧
      (b.make_move move false).2.get (PegBoard.get_move_positions move).1 = some Piece.Peg ∧
      ∀ q : Position, q ≠ move.pos → q ≠ (PegBoard.get_move_positions move).2 →
        q ≠ (PegBoard.get_move_positions move).1 →
        (b.make_move move false).2.get q = b.get q) := by
  refine ⟨PegBoard.make_move_true_iff b move false, fun h => ?_⟩
  obtain ⟨n1, n2, n3⟩ := PegBoard.move_positions_ne move
  refine ⟨?_, ?_, ?_, ?_⟩
  · rw [PegBoard.make_move_get b move false h]; simp [PegBoard.piece_target]
  · rw [PegBoard.make_move_get b move false h]; simp [PegBoard.piece_target]
  · rw [PegBoard.make_move_get b move false h]; simp [PegBoard.piece_other, n1, Ne.symm n3]
  · intro q q1 q2 q3
    rw [PegBoard.make_move_get b move false h]; simp [q1, q2, q3]

/-- Witness of C4 on the board `"110"`: the jump of the leftmost peg to the right succeeds and
leaves the row as Hole, Hole, Peg. -/
theorem make_move_forward_witness :
    (board_110.make_move move_110 false).1 = true ∧
      (board_110.make_move move_110 false).2.get move_110.pos = some Piece.Hole ∧
      (board_110.make_move move_110 false).2.get (PegBoard.get_move_positions move_110).2
        = some Piece.Hole ∧
      (board_110.make_move move_110 false).2.get (PegBoard.get_move_positions move_110).1
        = some Piece.Peg :=
  have h : (board_110.make_move move_110 false).1 = true := by decide
  ⟨h, ((make_move_forward board_110 move_110).2 h).1,
    ((make_move_forward board_110 move_110).2 h).2.1,
    ((make_move_forward board_110 move_110).2 h).2.2.1⟩

/-- C5, as the specification words it, fails on the board `"110"`: the forward jump of the
leftmost peg returns true although the origin and the middle do not hold `from_state` (a Hole)
and the target does not hold `to_state` (a Peg); afterwards the origin does not hold
`to_state` and the target does not hold `from_state`. -/
theorem make_move_spec_states_counterexample :
    PegBoard.new "110" = .ok board_110 ∧
      (board_110.make_move move_110 false).1 = true ∧
      board_110.get move_110.pos ≠ some (spec_from_state false) ∧
      board_110.get (PegBoard.get_move_positions move_110).2 ≠ some (spec_from_state false) ∧
      board_110.get (PegBoard.get_move_positions move_110).1 ≠ some (spec_to_state false) ∧
      (board_110.make_move move_110 false).2.get move_110.pos ≠ some (spec_to_state false) ∧
      (board_110.make_move move_110 false).2.get (PegBoard.get_move_positions move_110).1
        ≠ some (spec_from_state false) := by
  decide

/-- C5 amended: with `piece_other = (reversed ? Hole : Peg)` and
`piece_target = (reversed ? Peg : Hole)`, as the code names them, `make_move(move, reversed)`
returns false and leaves the board as it is unless origin and target are inside the grid, the
origin and the middle hold `piece_other` and the target holds `piece_target`; on success the
origin and the middle hold `piece_target` and the target holds `piece_other`. -/
theorem make_move_states (b : PegBoard) (move : Move) (reversed : Bool) :
    ((b.make_move move reversed).1 = true ↔
      b.position_on_board move.pos = true ∧
      b.position_on_board (PegBoard.get_move_positions move).1 = true ∧
      b.get move.pos = some (PegBoard.piece_other reversed) ∧
      b.get (PegBoard.get_move_positions move).2 = some (PegBoard.piece_other reversed) ∧
      b.get (PegBoard.get_move_positions move).1 = some (PegBoard.piece_target reversed)) ∧
    ((b.make_move move reversed).1 = false → (b.make_move move reversed).2 = b) ∧
    ((b.make_move move reversed).1 = true →
      (b.make_move move reversed).2.get move.pos = some (PegBoard.piece_target reversed) ∧
      (b.make_move move reversed).2.get (PegBoard.get_move_positions move).2
        = some (PegBoard.piece_target reversed) ∧
      (b.make_move move reversed).2.get (PegBoard.get_move_positions move).1
        = some (PegBoard.piece_other reversed)) := by
  refine ⟨PegBoard.make_move_true_iff b move reversed, PegBoard.make_move_false b move reversed,
    fun h => ?_⟩
  obtain ⟨n1, n2, n3⟩ := PegBoard.move_positions_ne move
  refine ⟨?_, ?_, ?_⟩
  · rw [PegBoard.make_move_get b move reversed h]; simp
  · rw [PegBoard.make_move_get b move reversed h]; simp
  · rw [PegBoard.make_move_get b move reversed h]; simp [n1, Ne.symm n3]

/-- Witness of the amended C5 on the board `"110"`: the forward jump succeeds from
Peg, Peg, Hole and leaves Hole at the origin and Peg at the target. -/
theorem make_move_states_witness :
    (board_110.make_move move_110 false).1 = true ∧
      (board_110.make_move move_110 false).2.get move_110.pos = some Piece.Hole ∧
      (board_110.make_move move_110 false).2.get (PegBoard.get_move_positions move_110).1
        = some Piece.Peg :=
  have h : (board_110.make_move move_110 false).1 = true := by decide
  ⟨h, ((make_move_states board_110 move_110 false).2.2 h).1,
    ((make_move_states board_110 move_110 false).2.2 h).2.2⟩

/-- C7: a rejected move changes nothing. Whenever `make_move` returns false the grid, the
flattened value, `n_rows`, `n_cols` and `n_positions` are as before the call; and `make_move`
returns false whenever the origin or the target is outside the grid or one of origin, middle
and target is a `None` cell. -/
theorem make_move_rejected (b : PegBoard) (move : Move) (reversed : Bool) :
    ((b.make_move move reversed).1 = false →
      (b.make_move move reversed).2.pieces = b.pieces ∧
      (b.make_move move reversed).2.get_flattened_value = b.get_flattened_value ∧
      (b.make_move move reversed).2.get_n_rows = b.get_n_rows ∧
      (b.make_move move reversed).2.get_n_cols = b.get_n_cols ∧
      (b.make_move move reversed).2.get_n_positions = b.get_n_positions) ∧
    ((b.position_on_board move.pos = false ∨
        b.position_on_board (PegBoard.get_move_positions move).1 = false ∨
        b.get move.pos = some Piece.None ∨
        b.get (PegBoard.get_move_positions move).2 = some Piece.None ∨
        b.get (PegBoard.get_move_positions move).1 = some Piece.None) →
      (b.make_move move reversed).1 = false) := by
  constructor
  · intro h
    rw [PegBoard.make_move_false b move reversed h]
    exact ⟨rfl, rfl, rfl, rfl, rfl⟩
  · intro h
    cases hm : (b.make_move move reversed).1 with
    | false => rfl
    | true =>
      obtain ⟨h1, h2, h3, h4, h5⟩ := (PegBoard.make_move_true_iff b move reversed).mp hm
      rcases h with h | h | h | h | h
      · rw [h1] at h; cases h
      · rw [h2] at h; cases h
      · rw [h3] at h; cases reversed <;> simp [PegBoard.piece_other] at h
      · rw [h4] at h; cases reversed <;> simp [PegBoard.piece_other] at h
      · rw [h5] at h; cases reversed <;> simp [PegBoard.piece_target] at h

/-- Witness of C7 on the board `"110"`: the jump of the leftmost peg upwards leaves the grid
and is rejected, and the board is unchanged. -/
theorem make_move_rejected_witness :
    (board_110.make_move { pos := { row := 0, col := 0 }, dir := Direction.Up } false).1 = false ∧
      (board_110.make_move { pos := { row := 0, col := 0 }, dir := Direction.Up } false).2.pieces
        = board_110.pieces :=
  have h := (make_move_rejected board_110
    { pos := { row := 0, col := 0 }, dir := Direction.Up } false).2 (Or.inr (Or.inl (by decide)))
  ⟨h, ((make_move_rejected board_110
    { pos := { row := 0, col := 0 }, dir := Direction.Up } false).1 h).1⟩

/-! ## Lemmas on the constructor -/

theorem mem_getlines (s : List Char) (c : Char) :
    (∃ row ∈ getlines s, c ∈ row) ↔ c ∈ s ∧ c ≠ '\n' := by
  induction s with
  | nil => simp [getlines]
  | cons d ds ih =>
    unfold getlines
    by_cases hd : d = '\n'
    · rw [if_pos hd]
      constructor
      · rintro ⟨row, hrow, hc⟩
        rcases List.mem_cons.mp hrow with h | h
        · subst h; cases hc
        · have := ih.mp ⟨row, h, hc⟩
          exact ⟨List.mem_cons_of_mem _ this.1, this.2⟩
      · rintro ⟨hc, hne⟩
        rcases List.mem_cons.mp hc with h | h
        · exact absurd (h.trans hd) hne
        · obtain ⟨row, hrow, hc'⟩ := ih.mpr ⟨h, hne⟩
          exact ⟨row, List.mem_cons_of_mem _ hrow, hc'⟩
    · rw [if_neg hd]
      cases hg : getlines ds with
      | nil =>
        rw [hg] at ih
        constructor
        · rintro ⟨row, hrow, hc⟩
          simp at hrow; subst hrow
          simp at hc; subst hc
          exact ⟨List.mem_cons_self _ _, hd⟩
        · rintro ⟨hc, hne⟩
          rcases List.mem_cons.mp hc with h | h
          · exact ⟨[d], by simp, by simp [h]⟩
          · obtain ⟨row, hrow, _⟩ := ih.mpr ⟨h, hne⟩
            cases hrow
      | cons l ls =>
        rw [hg] at ih
        constructor
        · rintro ⟨row, hrow, hc⟩
          rcases List.mem_cons.mp hrow with h | h
          · subst h
            rcases List.mem_cons.mp hc with h' | h'
            · subst h'; exact ⟨List.mem_cons_self _ _, hd⟩
            · have := ih.mp ⟨l, List.mem_cons_self _ _, h'⟩
              exact ⟨List.mem_cons_of_mem _ this.1, this.2⟩
          · have := ih.mp ⟨row, List.mem_cons_of_mem _ h, hc⟩
            exact ⟨List.mem_cons_of_mem _ this.1, this.2⟩
        · rintro ⟨hc, hne⟩
          rcases List.mem_cons.mp hc with h | h
          · exact ⟨d :: l, List.mem_cons_self _ _, by simp [h]⟩
          · obtain ⟨row, hrow, hc'⟩ := ih.mpr ⟨h, hne⟩
            rcases List.mem_cons.mp hrow with h' | h'
            · subst h'; exact ⟨d :: row, List.mem_cons_self _ _, List.mem_cons_of_mem _ hc'⟩
            · exact ⟨row, List.mem_cons_of_mem _ h', hc'⟩

theorem parse_line_ok (cs : List Char) :
    ∀ (fi fb : Nat) (ps : List Piece) (fs : List Nat) (fi' fb' : Nat),
      parse_line cs fi fb = .ok (ps, fs, fi', fb') →
      (∀ c ∈ cs, c = ' ' ∨ c = '1' ∨ c = '0') ∧ ps = cs.map char_piece ∧
        fs.length = cs.length ∧ fi' = fi + active_count cs := by
  induction cs with
  | nil =>
    intro fi fb ps fs fi' fb' h
    simp [parse_line] at h
    obtain ⟨rfl, rfl, rfl, rfl⟩ := h
    simp [active_count]
  | cons c cs ih =>
    intro fi fb ps fs fi' fb' h
    unfold parse_line at h
    by_cases h1 : c = ' '
    · rw [if_pos h1] at h
      cases hp : parse_line cs fi fb with
      | error e => rw [hp] at h; cases h
      | ok r =>
        obtain ⟨ps0, fs0, fi0, fb0⟩ := r
        rw [hp] at h
        simp at h
        obtain ⟨rfl, rfl, rfl, rfl⟩ := h
        obtain ⟨a, b, c', d⟩ := ih _ _ _ _ _ _ hp
        subst h1
        refine ⟨?_, ?_, ?_, ?_⟩
        · intro x hx
          rcases List.mem_cons.mp hx with hx | hx
          · exact Or.inl hx
          · exact a x hx
        · simp [b, char_piece]
        · simp [c']
        · simp [d, active_count]
    · rw [if_neg h1] at h
      by_cases h2 : c = '1'
      · rw [if_pos h2] at h
        by_cases h63 : fi = 63
        · rw [if_pos h63] at h; cases h
        · rw [if_neg h63] at h
          cases hp : parse_line cs (fi + 1) ((fb ||| shl1 fi) % 2 ^ 64) with
          | error e => rw [hp] at h; cases h
          | ok r =>
            obtain ⟨ps0, fs0, fi0, fb0⟩ := r
            rw [hp] at h
            simp at h
            obtain ⟨rfl, rfl, rfl, rfl⟩ := h
            obtain ⟨a, b, c', d⟩ := ih _ _ _ _ _ _ hp
            subst h2
            refine ⟨?_, ?_, ?_, ?_⟩
            · intro x hx
              rcases List.mem_cons.mp hx with hx | hx
              · exact Or.inr (Or.inl hx)
              · exact a x hx
            · simp [b, char_piece]
            · simp [c']
            · simp [d, active_count]; omega
      · rw [if_neg h2] at h
        by_cases h3 : c = '0'
        · rw [if_pos h3] at h
          cases hp : parse_line cs (fi + 1) fb with
          | error e => rw [hp] at h; cases h
          | ok r =>
            obtain ⟨ps0, fs0, fi0, fb0⟩ := r
            rw [hp] at h
            simp at h
            obtain ⟨rfl, rfl, rfl, rfl⟩ := h
            obtain ⟨a, b, c', d⟩ := ih _ _ _ _ _ _ hp
            subst h3
            refine ⟨?_, ?_, ?_, ?_⟩
            · intro x hx
              rcases List.mem_cons.mp hx with hx | hx
              · exact Or.inr (Or.inr hx)
              · exact a x hx
            · simp [b, char_piece]
            · simp [c']
            · simp [d, active_count]; omega
        · rw [if_neg h3] at h; cases h

theorem parse_lines_ok (rows : List (List Char)) :
    ∀ (fi fb : Nat) (pieces : List (List Piece)) (fpos : List (List Nat)) (fi' fb' : Nat),
      parse_lines rows fi fb = .ok (pieces, fpos, fi', fb') →
      (∀ row ∈ rows, ∀ c ∈ row, c = ' ' ∨ c = '1' ∨ c = '0') ∧
        pieces = rows.map (fun row => row.map char_piece) ∧
        fpos.map List.length = rows.map List.length ∧
        fi' = fi + (rows.map active_count).sum := by
  induction rows with
  | nil =>
    intro fi fb pieces fpos fi' fb' h
    simp [parse_lines] at h
    obtain ⟨rfl, rfl, rfl, rfl⟩ := h
    simp
  | cons row rest ih =>
    intro fi fb pieces fpos fi' fb' h
    unfold parse_lines at h
    cases hp : parse_line row fi fb with
    | error e => rw [hp] at h; cases h
    | ok r =>
      obtain ⟨ps0, fs0, fi0, fb0⟩ := r
      rw [hp] at h
      simp only at h
      cases hq : parse_lines rest fi0 fb0 with
      | error e => rw [hq] at h; cases h
      | ok r2 =>
        obtain ⟨pss, fss, fi1, fb1⟩ := r2
        rw [hq] at h
        simp at h
        obtain ⟨rfl, rfl, rfl, rfl⟩ := h
        obtain ⟨a, b, c, d⟩ := parse_line_ok row _ _ _ _ _ _ hp
        obtain ⟨a', b', c', d'⟩ := ih _ _ _ _ _ _ hq
        refine ⟨?_, ?_, ?_, ?_⟩
        · intro x hx
          rcases List.mem_cons.mp hx with hx | hx
          · subst hx; exact a
          · exact a' x hx
        · simp [b, b']
        · simp [c, c']
        · simp [d, d']; omega

/-! ## Claims on the constructor -/

theorem active_count_eq_zero (cs : List Char) (h : ∀ c ∈ cs, c ≠ '0' ∧ c ≠ '1') :
    active_count cs = 0 := by
  unfold active_count
  rw [List.countP_eq_zero]
  intro c hc
  have := h c hc
  simp [this.1, this.2]

theorem sum_active_count_eq_zero (rows : List (List Char))
    (h : ∀ row ∈ rows, ∀ c ∈ row, c ≠ '0' ∧ c ≠ '1') : (rows.map active_count).sum = 0 := by
  induction rows with
  | nil => rfl
  | cons row rest ih =>
    simp only [List.map_cons, List.sum_cons]
    rw [active_count_eq_zero row (h row (List.mem_cons_self _ _)),
      ih (fun r hr => h r (List.mem_cons_of_mem _ hr))]

/-- C8: malformed layouts are rejected. The constructor throws for every layout that has a
character other than `' '`, `'0'`, `'1'` inside a row, or a row whose length is not that of
the first row, or no row, or a first row without columns, or no `'0'` and no `'1'` at all. -/
theorem new_rejects_malformed (board_string : String)
    (h : (∃ c ∈ board_string.data, c ≠ '\n' ∧ c ≠ ' ' ∧ c ≠ '0' ∧ c ≠ '1') ∨
      (∃ row ∈ getlines board_string.data,
        row.length ≠ ((getlines board_string.data).headD []).length) ∨
      getlines board_string.data = [] ∨
      ((getlines board_string.data).headD []).length = 0 ∨
      (∀ c ∈ board_string.data, c ≠ '0' ∧ c ≠ '1')) :
    ∃ e, PegBoard.new board_string = .error e := by
  unfold PegBoard.new
  cases hp : parse_lines (getlines board_string.data) 0 0 with
  | error e => exact ⟨e, rfl⟩
  | ok r =>
    obtain ⟨pieces, fpos, fi, fb⟩ := r
    obtain ⟨a, b, _, d⟩ := parse_lines_ok _ _ _ _ _ _ _ hp
    have hhead : (pieces.headD []).length = ((getlines board_string.data).headD []).length := by
      rw [b]; cases getlines board_string.data <;> simp
    simp only
    by_cases c1 : pieces.length = 0
    · rw [if_pos c1]; exact ⟨_, rfl⟩
    · rw [if_neg c1]
      by_cases c2 : (pieces.headD []).length = 0 ∨ fi = 0
      · rw [if_pos c2]; exact ⟨_, rfl⟩
      · rw [if_neg c2]
        by_cases c3 : (pieces.any fun row => row.length != (pieces.headD []).length) = true
        · rw [if_pos c3]; exact ⟨_, rfl⟩
        · exfalso
          rcases h with ⟨c, hc, hn, h1, h2, h3⟩ | ⟨row, hrow, hlen⟩ | h | h | h
          · obtain ⟨row, hrow, hcr⟩ := (mem_getlines _ c).mpr ⟨hc, hn⟩
            rcases a row hrow c hcr with h | h | h
            · exact h1 h
            · exact h3 h
            · exact h2 h
          · apply c3
            rw [List.any_eq_true]
            refine ⟨row.map char_piece, ?_, ?_⟩
            · rw [b]; exact List.mem_map_of_mem _ hrow
            · rw [hhead]; simpa using hlen
          · apply c1; rw [b, h]; rfl
          · exact c2 (Or.inl (hhead.trans h))
          · apply c2; right
            rw [d, sum_active_count_eq_zero]
            · intro row hrow c hc
              exact h c ((mem_getlines _ c).mp ⟨row, hrow, hc⟩).1

/-- Witness of C8: the six malformed layouts of the test are rejected. -/
theorem new_rejects_malformed_witness :
    (∃ e, PegBoard.new "123" = .error e) ∧ (∃ e, PegBoard.new "   " = .error e) ∧
      (∃ e, PegBoard.new "  123  " = .error e) ∧ (∃ e, PegBoard.new "\n \n\n" = .error e) ∧
      (∃ e, PegBoard.new "111\n101\n11" = .error e) ∧
      (∃ e, PegBoard.new "1111\n111\n1111\n1111" = .error e) :=
  ⟨new_rejects_malformed "123" (Or.inl (by decide)),
    new_rejects_malformed "   " (Or.inr (Or.inr (Or.inr (Or.inr (by decide))))),
    new_rejects_malformed "  123  " (Or.inl (by decide)),
    new_rejects_malformed "\n \n\n" (Or.inr (Or.inr (Or.inr (Or.inl (by decide))))),
    new_rejects_malformed "111\n101\n11" (Or.inr (Or.inl (by decide))),
    new_rejects_malformed "1111\n111\n1111\n1111" (Or.inr (Or.inl (by decide)))⟩

/-- C9 fails on the code: the layout `layout_65` has 65 cells that are not blocked (63 pegs and
2 holes) and the constructor accepts it, with `get_n_positions() = 65`. The bound is tested only
when a peg is read, and only against the index 63. -/
theorem new_accepts_65_positions :
    (layout_65.data.filter (fun c => c = '0' ∨ c = '1')).length = 65 ∧
      ∃ b, PegBoard.new layout_65 = .ok b ∧ b.get_n_positions = 65 := by
  refine ⟨by decide, ?_⟩
  have h : (PegBoard.new layout_65).toOption.map PegBoard.get_n_positions = some 65 := by
    decide
  revert h
  cases PegBoard.new layout_65 with
  | error e => intro h; simp [Except.toOption] at h
  | ok b => intro h; exact ⟨b, rfl, by simpa [Except.toOption] using h⟩

/-- C10 fails on the code: the layout `layout_64` has eight rows of eight pegs, 64 cells in all,
and the constructor throws the error of a board with more than 64 positions. -/
theorem new_rejects_64_pegs :
    (layout_64.data.filter (fun c => c = '0' ∨ c = '1')).length = 64 ∧
      PegBoard.new layout_64 = .error BoardError.too_many_positions := by
  decide

/-! ## Layouts of at most 63 positions are accepted -/

theorem parse_line_succeeds (cs : List Char) :
    ∀ (fi fb : Nat), (∀ c ∈ cs, c = ' ' ∨ c = '1' ∨ c = '0') → fi + active_count cs ≤ 63 →
      ∃ ps fs fb', parse_line cs fi fb = .ok (ps, fs, fi + active_count cs, fb') := by
  induction cs with
  | nil => intro fi fb _ _; exact ⟨[], [], fb, by simp [parse_line, active_count]⟩
  | cons c cs ih =>
    intro fi fb hc hb
    have hcs : ∀ c ∈ cs, c = ' ' ∨ c = '1' ∨ c = '0' := fun x hx => hc x (List.mem_cons_of_mem _ hx)
    unfold parse_line
    rcases hc c (List.mem_cons_self _ _) with h | h | h
    · subst h
      have e : active_count (' ' :: cs) = active_count cs := by simp [active_count]
      rw [e] at hb ⊢
      obtain ⟨ps, fs, fb', hp⟩ := ih fi fb hcs hb
      rw [if_pos rfl, hp]
      exact ⟨_, _, _, rfl⟩
    · subst h
      have e : active_count ('1' :: cs) = active_count cs + 1 := by simp [active_count]
      rw [e] at hb ⊢
      obtain ⟨ps, fs, fb', hp⟩ := ih (fi + 1) ((fb ||| shl1 fi) % 2 ^ 64) hcs (by omega)
      rw [if_neg (by decide), if_pos rfl, if_neg (by omega), hp]
      exact ⟨_, _, _, by rw [show fi + 1 + active_count cs = fi + (active_count cs + 1) by omega]⟩
    · subst h
      have e : active_count ('0' :: cs) = active_count cs + 1 := by simp [active_count]
      rw [e] at hb ⊢
      obtain ⟨ps, fs, fb', hp⟩ := ih (fi + 1) fb hcs (by omega)
      rw [if_neg (by decide), if_neg (by decide), if_pos rfl, hp]
      exact ⟨_, _, _, by rw [show fi + 1 + active_count cs = fi + (active_count cs + 1) by omega]⟩

theorem parse_lines_succeeds (rows : List (List Char)) :
    ∀ (fi fb : Nat), (∀ row ∈ rows, ∀ c ∈ row, c = ' ' ∨ c = '1' ∨ c = '0') →
      fi + (rows.map active_count).sum ≤ 63 →
      ∃ pieces fpos fb',
        parse_lines rows fi fb = .ok (pieces, fpos, fi + (rows.map active_count).sum, fb') := by
  induction rows with
  | nil => intro fi fb _ _; exact ⟨[], [], fb, by simp [parse_lines]⟩
  | cons row rest ih =>
    intro fi fb hc hb
    simp only [List.map_cons, List.sum_cons] at hb ⊢
    obtain ⟨ps, fs, fb1, hp⟩ :=
      parse_line_succeeds row fi fb (hc row (List.mem_cons_self _ _)) (by omega)
    obtain ⟨pss, fss, fb2, hq⟩ := ih (fi + active_count row) fb1
      (fun r hr => hc r (List.mem_cons_of_mem _ hr)) (by omega)
    unfold parse_lines
    rw [hp]
    simp only
    rw [hq]
    exact ⟨_, _, _, by rw [Nat.add_assoc]⟩

/-- The part of C10 that holds: a layout whose rows are non-empty, of equal length and made of
`' '`, `'0'`, `'1'`, with between 1 and 63 characters `'0'` and `'1'`, is accepted; the board
has that many positions, as many rows as the layout, the columns of its first row, and the
cell of every character is the piece the character stands for. -/
theorem new_accepts_up_to_63 (board_string : String)
    (hrows : getlines board_string.data ≠ [])
    (hcols : ((getlines board_string.data).headD []).length ≠ 0)
    (hlen : ∀ row ∈ getlines board_string.data,
      row.length = ((getlines board_string.data).headD []).length)
    (hchars : ∀ row ∈ getlines board_string.data, ∀ c ∈ row, c = ' ' ∨ c = '1' ∨ c = '0')
    (h1 : 1 ≤ ((getlines board_string.data).map active_count).sum)
    (h63 : ((getlines board_string.data).map active_count).sum ≤ 63) :
    ∃ b, PegBoard.new board_string = .ok b ∧
      b.get_n_positions = ((getlines board_string.data).map active_count).sum ∧
      b.get_n_rows = (getlines board_string.data).length ∧
      b.get_n_cols = ((getlines board_string.data).headD []).length ∧
      b.pieces = (getlines board_string.data).map (fun row => row.map char_piece) := by
  obtain ⟨pieces, fpos, fb, hp⟩ :=
    parse_lines_succeeds (getlines board_string.data) 0 0 hchars (by omega)
  obtain ⟨_, hb, _, _⟩ := parse_lines_ok _ _ _ _ _ _ _ hp
  have hhead : (pieces.headD []).length = ((getlines board_string.data).headD []).length := by
    rw [hb]; cases getlines board_string.data <;> simp
  have hplen : pieces.length = (getlines board_string.data).length := by rw [hb]; simp
  unfold PegBoard.new
  rw [hp]
  simp only [Nat.zero_add]
  have c1 : ¬ pieces.length = 0 := by
    rw [hplen]; intro h; exact hrows (List.length_eq_zero.mp h)
  have c2 : ¬ ((pieces.headD []).length = 0 ∨
      ((getlines board_string.data).map active_count).sum = 0) := by
    rw [hhead]; intro h; rcases h with h | h
    · exact hcols h
    · omega
  have c3 : ¬ (pieces.any fun row => row.length != (pieces.headD []).length) = true := by
    rw [List.any_eq_true]
    rintro ⟨row, hrow, hne⟩
    rw [hb] at hrow
    obtain ⟨row', hrow', rfl⟩ := List.mem_map.mp hrow
    rw [hhead] at hne
    simp [hlen row' hrow'] at hne
  rw [if_neg c1, if_neg c2, if_neg c3]
  exact ⟨_, rfl, rfl, hplen, hhead, hb⟩

theorem new_accepts_up_to_63_example :
    ∃ b, PegBoard.new "11010101010" = .ok b ∧ b.get_n_positions = 11 := by
  obtain ⟨b, h1, h2, _⟩ := new_accepts_up_to_63 "11010101010" (by decide) (by decide) (by decide)
    (by decide) (by decide) (by decide)
  exact ⟨b, h1, by rw [h2]; decide⟩

/-! ## The flattened positions and the flattened board after construction -/

theorem shl1_eq (k : Nat) (h : k < 64) : shl1 k = 2 ^ k := by
  unfold shl1
  rw [Nat.one_shiftLeft]
  exact Nat.mod_eq_of_lt (Nat.pow_lt_pow_right (by decide) h)

theorem testBit_or_shl1 (fb fi k : Nat) (hfi : fi < 64) (hfb : fb < 2 ^ 64) :
    ((fb ||| shl1 fi) % 2 ^ 64).testBit k = (fb.testBit k || decide (fi = k)) := by
  rw [shl1_eq fi hfi]
  have h2 : 2 ^ fi < 2 ^ 64 := Nat.pow_lt_pow_right (by decide) hfi
  have h3 : fb ||| 2 ^ fi < 2 ^ 64 := Nat.or_lt_two_pow hfb h2
  rw [Nat.mod_eq_of_lt h3, Nat.testBit_or, Nat.testBit_two_pow]

theorem or_shl1_lt (fb fi : Nat) : (fb ||| shl1 fi) % 2 ^ 64 < 2 ^ 64 :=
  Nat.mod_lt _ (by decide)

theorem RowSpec_nil (lo fb : Nat) : RowSpec [] [] lo lo fb fb := by
  refine ⟨Nat.le_refl _, ?_, ?_, ?_⟩
  · intro j x h; simp at h
  · intro j1 j2 x1 x2 k h; simp at h
  · intro _ h; exact ⟨h, fun k => by simp⟩

theorem RowSpec_cons_none (ps : List Piece) (fs : List Nat) (lo hi fb fb' f : Nat)
    (h : RowSpec ps fs lo hi fb fb') : RowSpec (Piece.None :: ps) (f :: fs) lo hi fb fb' := by
  obtain ⟨h0, h1, h2, h3⟩ := h
  refine ⟨h0, ?_, ?_, ?_⟩
  · intro j x hj hx
    cases j with
    | zero => simp at hj; exact absurd hj.symm hx
    | succ j => simpa using h1 j x (by simpa using hj) hx
  · intro j1 j2 x1 x2 k a1 b1 a2 b2 c1 c2
    cases j1 with
    | zero => simp at a1; exact absurd a1.symm b1
    | succ j1 =>
      cases j2 with
      | zero => simp at a2; exact absurd a2.symm b2
      | succ j2 =>
        have := h2 j1 j2 x1 x2 k (by simpa using a1) b1 (by simpa using a2) b2
          (by simpa using c1) (by simpa using c2)
        rw [this]
  · intro hh hfb
    obtain ⟨a, b⟩ := h3 hh hfb
    refine ⟨a, fun k => ?_⟩
    rw [b k]
    constructor
    · rintro (h | ⟨j, hj1, hj2⟩)
      · exact Or.inl h
      · exact Or.inr ⟨j + 1, by simpa using hj1, by simpa using hj2⟩
    · rintro (h | ⟨j, hj1, hj2⟩)
      · exact Or.inl h
      · cases j with
        | zero => simp at hj1
        | succ j => exact Or.inr ⟨j, by simpa using hj1, by simpa using hj2⟩

theorem RowSpec_cons_active (ps : List Piece) (fs : List Nat) (lo hi fb fb1 fb' : Nat) (x : Piece)
    (hfb : lo < 64 → fb < 2 ^ 64 → fb1 < 2 ^ 64 ∧
      ∀ k, fb1.testBit k = (fb.testBit k || (decide (x = Piece.Peg) && decide (lo = k))))
    (h : RowSpec ps fs (lo + 1) hi fb1 fb') : RowSpec (x :: ps) (lo :: fs) lo hi fb fb' := by
  obtain ⟨h0, h1, h2, h3⟩ := h
  refine ⟨by omega, ?_, ?_, ?_⟩
  · intro j y hj hy
    cases j with
    | zero => exact ⟨lo, by simp, Nat.le_refl _, by omega⟩
    | succ j =>
      obtain ⟨k, hk, hk1, hk2⟩ := h1 j y (by simpa using hj) hy
      exact ⟨k, by simpa using hk, by omega, hk2⟩
  · intro j1 j2 x1 x2 k a1 b1 a2 b2 c1 c2
    cases j1 with
    | zero =>
      cases j2 with
      | zero => rfl
      | succ j2 =>
        obtain ⟨k', hk, hk1, _⟩ := h1 j2 x2 (by simpa using a2) b2
        simp at c1 c2
        rw [c2] at hk; cases hk; omega
    | succ j1 =>
      cases j2 with
      | zero =>
        obtain ⟨k', hk, hk1, _⟩ := h1 j1 x1 (by simpa using a1) b1
        simp at c1 c2
        rw [c1] at hk; cases hk; omega
      | succ j2 =>
        have := h2 j1 j2 x1 x2 k (by simpa using a1) b1 (by simpa using a2) b2
          (by simpa using c1) (by simpa using c2)
        rw [this]
  · intro hh hfb0
    obtain ⟨a1, b1⟩ := hfb (by omega) hfb0
    obtain ⟨a, b⟩ := h3 hh a1
    refine ⟨a, fun k => ?_⟩
    rw [b k, b1 k]
    constructor
    · rintro (h | ⟨j, hj1, hj2⟩)
      · simp only [Bool.or_eq_true, Bool.and_eq_true, decide_eq_true_eq] at h
        rcases h with h | ⟨hp, hk⟩
        · exact Or.inl h
        · exact Or.inr ⟨0, by simp [hp], by simp [hk]⟩
      · exact Or.inr ⟨j + 1, by simpa using hj1, by simpa using hj2⟩
    · rintro (h | ⟨j, hj1, hj2⟩)
      · left; simp [h]
      · cases j with
        | zero =>
          simp at hj1 hj2
          left; simp [hj1, hj2]
        | succ j => exact Or.inr ⟨j, by simpa using hj1, by simpa using hj2⟩

theorem parse_line_spec (cs : List Char) :
    ∀ (fi fb : Nat) (ps : List Piece) (fs : List Nat) (fi' fb' : Nat),
      parse_line cs fi fb = .ok (ps, fs, fi', fb') → RowSpec ps fs fi fi' fb fb' := by
  induction cs with
  | nil =>
    intro fi fb ps fs fi' fb' h
    simp [parse_line] at h
    obtain ⟨rfl, rfl, rfl, rfl⟩ := h
    exact RowSpec_nil _ _
  | cons c cs ih =>
    intro fi fb ps fs fi' fb' h
    unfold parse_line at h
    by_cases h1 : c = ' '
    · rw [if_pos h1] at h
      cases hp : parse_line cs fi fb with
      | error e => rw [hp] at h; cases h
      | ok r =>
        obtain ⟨ps0, fs0, fi0, fb0⟩ := r
        rw [hp] at h
        simp at h
        obtain ⟨rfl, rfl, rfl, rfl⟩ := h
        exact RowSpec_cons_none _ _ _ _ _ _ _ (ih _ _ _ _ _ _ hp)
    · rw [if_neg h1] at h
      by_cases h2 : c = '1'
      · rw [if_pos h2] at h
        by_cases h63 : fi = 63
        · rw [if_pos h63] at h; cases h
        · rw [if_neg h63] at h
          cases hp : parse_line cs (fi + 1) ((fb ||| shl1 fi) % 2 ^ 64) with
          | error e => rw [hp] at h; cases h
          | ok r =>
            obtain ⟨ps0, fs0, fi0, fb0⟩ := r
            rw [hp] at h
            simp at h
            obtain ⟨rfl, rfl, rfl, rfl⟩ := h
            refine RowSpec_cons_active _ _ _ _ _ _ _ _ ?_ (ih _ _ _ _ _ _ hp)
            intro hlo hfb
            refine ⟨or_shl1_lt _ _, fun k => ?_⟩
            rw [testBit_or_shl1 fb fi k hlo hfb]; simp
      · rw [if_neg h2] at h
        by_cases h3 : c = '0'
        · rw [if_pos h3] at h
          cases hp : parse_line cs (fi + 1) fb with
          | error e => rw [hp] at h; cases h
          | ok r =>
            obtain ⟨ps0, fs0, fi0, fb0⟩ := r
            rw [hp] at h
            simp at h
            obtain ⟨rfl, rfl, rfl, rfl⟩ := h
            refine RowSpec_cons_active _ _ _ _ _ _ _ _ ?_ (ih _ _ _ _ _ _ hp)
            intro _ hfb
            exact ⟨hfb, fun k => by simp⟩
        · rw [if_neg h3] at h; cases h

theorem cell?_cons_zero {α : Type} (row : List α) (g : List (List α)) (j : Nat) :
    cell? (row :: g) 0 j = row[j]? := by
  simp [cell?]

theorem cell?_cons_succ {α : Type} (row : List α) (g : List (List α)) (r j : Nat) :
    cell? (row :: g) (r + 1) j = cell? g r j := by
  simp [cell?]

theorem cell?_nil {α : Type} (r j : Nat) : cell? ([] : List (List α)) r j = none := by
  simp [cell?]

theorem GridSpec_nil (lo fb : Nat) : GridSpec [] [] lo lo fb fb := by
  refine ⟨Nat.le_refl _, ?_, ?_, ?_⟩
  · intro r j x h; simp [cell?_nil] at h
  · intro r1 j1 r2 j2 x1 x2 k h; simp [cell?_nil] at h
  · intro _ h; exact ⟨h, fun k => by simp [cell?_nil]⟩

theorem GridSpec_cons (ps : List Piece) (fs : List Nat) (pss : List (List Piece))
    (fss : List (List Nat)) (lo mid hi fb fb1 fb' : Nat)
    (hr : RowSpec ps fs lo mid fb fb1) (hg : GridSpec pss fss mid hi fb1 fb') :
    GridSpec (ps :: pss) (fs :: fss) lo hi fb fb' := by
  obtain ⟨r0, r1, r2, r3⟩ := hr
  obtain ⟨g0, g1, g2, g3⟩ := hg
  refine ⟨by omega, ?_, ?_, ?_⟩
  · intro r j x hx hn
    cases r with
    | zero =>
      obtain ⟨k, hk, a, b⟩ := r1 j x (by simpa [cell?_cons_zero] using hx) hn
      exact ⟨k, by simpa [cell?_cons_zero] using hk, a, by omega⟩
    | succ r =>
      obtain ⟨k, hk, a, b⟩ := g1 r j x (by simpa [cell?_cons_succ] using hx) hn
      exact ⟨k, by simpa [cell?_cons_succ] using hk, by omega, b⟩
  · intro ra ja rb jb x1 x2 k a1 b1 a2 b2 c1 c2
    cases ra with
    | zero =>
      cases rb with
      | zero =>
        exact ⟨rfl, r2 ja jb x1 x2 k (by simpa [cell?_cons_zero] using a1) b1
          (by simpa [cell?_cons_zero] using a2) b2 (by simpa [cell?_cons_zero] using c1)
          (by simpa [cell?_cons_zero] using c2)⟩
      | succ rb =>
        obtain ⟨k1, hk1, _, u1⟩ := r1 ja x1 (by simpa [cell?_cons_zero] using a1) b1
        obtain ⟨k2, hk2, l2, _⟩ := g1 rb jb x2 (by simpa [cell?_cons_succ] using a2) b2
        rw [cell?_cons_zero] at c1
        rw [cell?_cons_succ] at c2
        rw [c1] at hk1; rw [c2] at hk2
        cases hk1; cases hk2; omega
    | succ ra =>
      cases rb with
      | zero =>
        obtain ⟨k1, hk1, l1, _⟩ := g1 ra ja x1 (by simpa [cell?_cons_succ] using a1) b1
        obtain ⟨k2, hk2, _, u2⟩ := r1 jb x2 (by simpa [cell?_cons_zero] using a2) b2
        rw [cell?_cons_succ] at c1
        rw [cell?_cons_zero] at c2
        rw [c1] at hk1; rw [c2] at hk2
        cases hk1; cases hk2; omega
      | succ rb =>
        obtain ⟨e1, e2⟩ := g2 ra ja rb jb x1 x2 k (by simpa [cell?_cons_succ] using a1) b1
          (by simpa [cell?_cons_succ] using a2) b2 (by simpa [cell?_cons_succ] using c1)
          (by simpa [cell?_cons_succ] using c2)
        exact ⟨by rw [e1], e2⟩
  · intro hh hfb
    obtain ⟨a1, b1⟩ := r3 (by omega) hfb
    obtain ⟨a, b⟩ := g3 hh a1
    refine ⟨a, fun k => ?_⟩
    rw [b k, b1 k]
    constructor
    · rintro ((h | ⟨j, hj1, hj2⟩) | ⟨r, j, hj1, hj2⟩)
      · exact Or.inl h
      · exact Or.inr ⟨0, j, by simpa [cell?_cons_zero] using hj1,
          by simpa [cell?_cons_zero] using hj2⟩
      · exact Or.inr ⟨r + 1, j, by simpa [cell?_cons_succ] using hj1,
          by simpa [cell?_cons_succ] using hj2⟩
    · rintro (h | ⟨r, j, hj1, hj2⟩)
      · exact Or.inl (Or.inl h)
      · cases r with
        | zero =>
          exact Or.inl (Or.inr ⟨j, by simpa [cell?_cons_zero] using hj1,
            by simpa [cell?_cons_zero] using hj2⟩)
        | succ r =>
          exact Or.inr ⟨r, j, by simpa [cell?_cons_succ] using hj1,
            by simpa [cell?_cons_succ] using hj2⟩

theorem parse_lines_spec (rows : List (List Char)) :
    ∀ (fi fb : Nat) (pieces : List (List Piece)) (fpos : List (List Nat)) (fi' fb' : Nat),
      parse_lines rows fi fb = .ok (pieces, fpos, fi', fb') →
      GridSpec pieces fpos fi fi' fb fb' := by
  induction rows with
  | nil =>
    intro fi fb pieces fpos fi' fb' h
    simp [parse_lines] at h
    obtain ⟨rfl, rfl, rfl, rfl⟩ := h
    exact GridSpec_nil _ _
  | cons row rest ih =>
    intro fi fb pieces fpos fi' fb' h
    unfold parse_lines at h
    cases hp : parse_line row fi fb with
    | error e => rw [hp] at h; cases h
    | ok r =>
      obtain ⟨ps0, fs0, fi0, fb0⟩ := r
      rw [hp] at h
      simp only at h
      cases hq : parse_lines rest fi0 fb0 with
      | error e => rw [hq] at h; cases h
      | ok r2 =>
        obtain ⟨pss, fss, fi1, fb1⟩ := r2
        rw [hq] at h
        simp at h
        obtain ⟨rfl, rfl, rfl, rfl⟩ := h
        exact GridSpec_cons _ _ _ _ _ _ _ _ _ _ (parse_line_spec row _ _ _ _ _ _ hp)
          (ih _ _ _ _ _ _ hq)

theorem index2_eq_cell? {α : Type} (g : List (List α)) (p : Position)
    (h : 0 ≤ p.row ∧ 0 ≤ p.col) : index2 g p = cell? g p.row.toNat p.col.toNat := by
  unfold index2 cell?
  rw [if_pos h]

theorem index2_nonneg {α : Type} (g : List (List α)) (p : Position) (x : α)
    (h : index2 g p = some x) : 0 ≤ p.row ∧ 0 ≤ p.col := by
  unfold index2 at h
  by_cases hp : 0 ≤ p.row ∧ 0 ≤ p.col
  · exact hp
  · rw [if_neg hp] at h; cases h

theorem cell?_eq_index2 {α : Type} (g : List (List α)) (r j : Nat) :
    cell? g r j = index2 g { row := (r : Int), col := (j : Int) } := by
  rw [index2_eq_cell? g _ ⟨Int.ofNat_nonneg r, Int.ofNat_nonneg j⟩]
  simp

theorem new_eq_ok (board_string : String) (b : PegBoard) (h : PegBoard.new board_string = .ok b) :
    ∃ fi fb, parse_lines (getlines board_string.data) 0 0
        = .ok (b.pieces, b.flattened_pos, fi, fb) ∧
      b.n_positions = fi ∧ b.flattened_board = fb ∧ b.n_rows = b.pieces.length ∧
      b.n_cols = (b.pieces.headD []).length ∧ b.pieces.length ≠ 0 ∧ b.n_cols ≠ 0 ∧
      b.n_positions ≠ 0 ∧ ∀ row ∈ b.pieces, row.length = b.n_cols := by
  unfold PegBoard.new at h
  cases hp : parse_lines (getlines board_string.data) 0 0 with
  | error e => rw [hp] at h; cases h
  | ok r =>
    obtain ⟨pieces, fpos, fi, fb⟩ := r
    rw [hp] at h
    simp only at h
    by_cases c1 : pieces.length = 0
    · rw [if_pos c1] at h; cases h
    · rw [if_neg c1] at h
      by_cases c2 : (pieces.headD []).length = 0 ∨ fi = 0
      · rw [if_pos c2] at h; cases h
      · rw [if_neg c2] at h
        by_cases c3 : (pieces.any fun row => row.length != (pieces.headD []).length) = true
        · rw [if_pos c3] at h; cases h
        · rw [if_neg c3] at h
          cases h
          refine ⟨fi, fb, rfl, rfl, rfl, rfl, rfl, c1, fun h => c2 (Or.inl h),
            fun h => c2 (Or.inr h), ?_⟩
          intro row hrow
          by_contra hne
          apply c3
          rw [List.any_eq_true]
          exact ⟨row, hrow, by simpa using hne⟩

theorem active_iff (b : PegBoard) (p : Position) :
    b.active p ↔ ∃ x, b.get p = some x ∧ x ≠ Piece.None := by
  unfold PegBoard.active
  constructor
  · rintro (h | h)
    · exact ⟨_, h, by decide⟩
    · exact ⟨_, h, by decide⟩
  · rintro ⟨x, hx, hn⟩
    cases x with
    | Peg => exact Or.inl hx
    | Hole => exact Or.inr hx
    | None => exact absurd rfl hn

theorem Consistent_of_GridSpec (b : PegBoard)
    (hg : GridSpec b.pieces b.flattened_pos 0 b.n_positions 0 b.flattened_board)
    (h64 : b.n_positions ≤ 64) : b.Consistent := by
  obtain ⟨_, g1, g2, g3⟩ := hg
  obtain ⟨_, gb⟩ := g3 h64 (by decide)
  refine ⟨?_, ?_, ?_, h64⟩
  · intro p hp
    obtain ⟨x, hx, hn⟩ := (active_iff b p).mp hp
    have hnn := index2_nonneg _ _ _ hx
    unfold PegBoard.get at hx
    rw [index2_eq_cell? _ _ hnn] at hx
    obtain ⟨k, hk, _, hk2⟩ := g1 _ _ x hx hn
    exact ⟨k, by rw [index2_eq_cell? _ _ hnn]; exact hk, hk2⟩
  · intro p q k hp hq hpk hqk
    obtain ⟨x, hx, hn⟩ := (active_iff b p).mp hp
    obtain ⟨y, hy, hm⟩ := (active_iff b q).mp hq
    have hpn := index2_nonneg _ _ _ hx
    have hqn := index2_nonneg _ _ _ hy
    unfold PegBoard.get at hx hy
    rw [index2_eq_cell? _ _ hpn] at hx hpk
    rw [index2_eq_cell? _ _ hqn] at hy hqk
    obtain ⟨e1, e2⟩ := g2 _ _ _ _ x y k hx hn hy hm hpk hqk
    rw [Position.ext_iff']
    constructor
    · have := hpn.1; have := hqn.1; omega
    · have := hpn.2; have := hqn.2; omega
  · intro k
    rw [gb k]
    constructor
    · rintro (h | ⟨r, j, h1, h2⟩)
      · simp at h
      · exact ⟨⟨r, j⟩, by unfold PegBoard.get; rw [← cell?_eq_index2]; exact h1,
          by rw [← cell?_eq_index2]; exact h2⟩
    · rintro ⟨p, h1, h2⟩
      have hpn := index2_nonneg _ _ _ h1
      unfold PegBoard.get at h1
      rw [index2_eq_cell? _ _ hpn] at h1 h2
      exact Or.inr ⟨_, _, h1, h2⟩

theorem new_Consistent (board_string : String) (b : PegBoard)
    (h : PegBoard.new board_string = .ok b) (h64 : b.n_positions ≤ 64) : b.Consistent := by
  obtain ⟨fi, fb, hp, h1, h2, _⟩ := new_eq_ok board_string b h
  apply Consistent_of_GridSpec b _ h64
  rw [h1, h2]
  exact parse_lines_spec _ _ _ _ _ _ _ hp

/-! ## The round trip of a move -/

theorem grid_ext {α : Type} (g1 g2 : List (List α)) (hl : g1.length = g2.length)
    (h : ∀ r j, cell? g1 r j = cell? g2 r j) : g1 = g2 := by
  apply List.ext_getElem? 
  intro r
  cases h1 : g1[r]? with
  | none =>
    have : g1.length ≤ r := List.getElem?_eq_none_iff.mp h1
    rw [List.getElem?_eq_none (by omega)]
  | some row1 =>
    have hr : r < g1.length := (List.getElem?_eq_some.mp h1).1
    have hr2 : r < g2.length := by omega
    cases h2 : g2[r]? with
    | none =>
      have : g2.length ≤ r := List.getElem?_eq_none_iff.mp h2
      omega
    | some row2 =>
      congr 1
      apply List.ext_getElem?
      intro j
      have := h r j
      simpa [cell?, h1, h2] using this

namespace PegBoard

theorem position_on_board_congr (b c : PegBoard) (hr : c.n_rows = b.n_rows)
    (hc : c.n_cols = b.n_cols) (p : Position) : c.position_on_board p = b.position_on_board p := by
  unfold position_on_board
  rw [hr, hc]

theorem make_move_pieces_length (b : PegBoard) (m : Move) (reversed : Bool) :
    (b.make_move m reversed).2.pieces.length = b.pieces.length := by
  rw [make_move_eq]
  split
  · simp [PegBoard.set, assign2_length]
  · rfl

theorem pieces_ext (b c : PegBoard) (hl : c.pieces.length = b.pieces.length)
    (h : ∀ q, c.get q = b.get q) : c.pieces = b.pieces := by
  apply grid_ext _ _ hl
  intro r j
  rw [cell?_eq_index2, cell?_eq_index2]
  exact h _

/-- After a successful forward move the same move reversed succeeds and restores every cell. -/
theorem make_move_undo (b : PegBoard) (m : Move) (h : (b.make_move m false).1 = true) :
    ((b.make_move m false).2.make_move m true).1 = true ∧
      ∀ q, ((b.make_move m false).2.make_move m true).2.get q = b.get q := by
  obtain ⟨h1, h2, h3, h4, h5⟩ := (make_move_true_iff b m false).mp h
  obtain ⟨s1, s2, _, _⟩ := make_move_shape b m false
  obtain ⟨n1, n2, n3⟩ := move_positions_ne m
  have hrev : ((b.make_move m false).2.make_move m true).1 = true := by
    rw [make_move_true_iff]
    refine ⟨?_, ?_, ?_, ?_, ?_⟩
    · rw [position_on_board_congr b _ s1 s2]; exact h1
    · rw [position_on_board_congr b _ s1 s2]; exact h2
    · rw [make_move_get b m false h]; simp [piece_target, piece_other]
    · rw [make_move_get b m false h]; simp [piece_target, piece_other]
    · rw [make_move_get b m false h]; simp [piece_target, piece_other, n1, Ne.symm n3]
  refine ⟨hrev, fun q => ?_⟩
  rw [make_move_get _ m true hrev, make_move_get b m false h]
  by_cases q1 : q = m.pos
  · subst q1; simp [piece_target, piece_other] at h3 ⊢; exact h3.symm
  · by_cases q2 : q = (get_move_positions m).2
    · subst q2; simp [piece_target, piece_other] at h4 ⊢; exact h4.symm
    · by_cases q3 : q = (get_move_positions m).1
      · subst q3; simp [piece_target, piece_other, n1, Ne.symm n3] at h5 ⊢; exact h5.symm
      · simp [q1, q2, q3]

end PegBoard

/-! ## The invariants are kept by `set` and `make_move` -/

theorem testBit_not64_shl1 (k0 k : Nat) (h : k0 < 64) :
    (not64 (shl1 k0)).testBit k = (decide (k < 64) && !decide (k0 = k)) := by
  unfold not64
  rw [shl1_eq k0 h]
  have h2 : 2 ^ k0 < 2 ^ 64 := Nat.pow_lt_pow_right (by decide) h
  rw [Nat.mod_eq_of_lt h2]
  have e : 2 ^ 64 - 1 - 2 ^ k0 = 2 ^ 64 - (2 ^ k0 + 1) := by omega
  rw [e, Nat.testBit_two_pow_sub_succ h2, Nat.testBit_two_pow]

namespace PegBoard

theorem set_active_iff (b : PegBoard) (p : Position) (x : Piece) (hp : b.active p)
    (hx : x ≠ Piece.None) (q : Position) : (b.set p x).active q ↔ b.active q := by
  rw [active_iff, active_iff, get_set]
  obtain ⟨y, hy, hn⟩ := (active_iff b p).mp hp
  by_cases hq : q = p
  · subst hq
    simp only [hy, Option.isSome_some, and_self, if_true]
    constructor
    · intro _; exact ⟨y, rfl, hn⟩
    · intro _; exact ⟨x, rfl, hx⟩
  · simp [hq]

theorem set_get_peg_iff (b : PegBoard) (p : Position) (x : Piece) (hp : b.active p)
    (q : Position) :
    (b.set p x).get q = some Piece.Peg ↔
      (q = p ∧ x = Piece.Peg) ∨ (q ≠ p ∧ b.get q = some Piece.Peg) := by
  rw [get_set]
  obtain ⟨y, hy, _⟩ := (active_iff b p).mp hp
  by_cases hq : q = p
  · subst hq; simp [hy]
  · simp [hq]

theorem Consistent_set (b : PegBoard) (p : Position) (x : Piece) (hc : b.Consistent)
    (hp : b.active p) (hx : x ≠ Piece.None) : (b.set p x).Consistent := by
  obtain ⟨k0, hk0, hlt⟩ := hc.index p hp
  have hk64 : k0 < 64 := Nat.lt_of_lt_of_le hlt hc.bound
  refine ⟨?_, ?_, ?_, hc.bound⟩
  · intro q hq
    exact hc.index q ((set_active_iff b p x hp hx q).mp hq)
  · intro q1 q2 k h1 h2
    exact hc.inj q1 q2 k ((set_active_iff b p x hp hx q1).mp h1)
      ((set_active_iff b p x hp hx q2).mp h2)
  · intro k
    have hfb : (b.set p x).flattened_board =
        if x = Piece.Peg then b.flattened_board ||| shl1 k0
        else b.flattened_board &&& not64 (shl1 k0) := by
      simp [PegBoard.set, hk0]
    rw [hfb]
    simp only [set_flattened_pos, set_get_peg_iff b p x hp]
    by_cases hxp : x = Piece.Peg
    · rw [if_pos hxp, Nat.testBit_or, shl1_eq k0 hk64, Nat.testBit_two_pow]
      simp only [Bool.or_eq_true, decide_eq_true_eq]
      rw [hc.bits k]
      constructor
      · rintro (⟨q, hq1, hq2⟩ | hk)
        · by_cases hqp : q = p
          · exact ⟨q, Or.inl ⟨hqp, hxp⟩, hq2⟩
          · exact ⟨q, Or.inr ⟨hqp, hq1⟩, hq2⟩
        · exact ⟨p, Or.inl ⟨rfl, hxp⟩, by rw [← hk]; exact hk0⟩
      · rintro ⟨q, (⟨hqp, _⟩ | ⟨_, hq1⟩), hq2⟩
        · right
          rw [hqp, hk0] at hq2
          exact Option.some.inj hq2
        · exact Or.inl ⟨q, hq1, hq2⟩
    · rw [if_neg hxp, Nat.testBit_and, testBit_not64_shl1 k0 k hk64]
      simp only [Bool.and_eq_true, decide_eq_true_eq, Bool.not_eq_true', decide_eq_false_iff_not]
      rw [hc.bits k]
      constructor
      · rintro ⟨⟨q, hq1, hq2⟩, _, hne⟩
        refine ⟨q, Or.inr ⟨?_, hq1⟩, hq2⟩
        intro hqp
        rw [hqp, hk0] at hq2
        exact hne (Option.some.inj hq2)
      · rintro ⟨q, (⟨_, hxp'⟩ | ⟨hqp, hq1⟩), hq2⟩
        · exact absurd hxp' hxp
        · have hqa : b.active q := Or.inl hq1
          obtain ⟨k', hk', hlt'⟩ := hc.index q hqa
          rw [hq2] at hk'
          have hkk : k = k' := Option.some.inj hk'
          have hb64 := hc.bound
          refine ⟨⟨q, hq1, hq2⟩, by omega, ?_⟩
          intro hkk0
          apply hqp
          exact hc.inj q p k hqa hp hq2 (by rw [← hkk0]; exact hk0)

theorem piece_other_ne (reversed : Bool) : piece_other reversed ≠ Piece.None := by
  cases reversed <;> decide

theorem piece_target_ne (reversed : Bool) : piece_target reversed ≠ Piece.None := by
  cases reversed <;> decide

theorem Consistent_make_move (b : PegBoard) (m : Move) (reversed : Bool) (hc : b.Consistent) :
    (b.make_move m reversed).2.Consistent := by
  rw [make_move_eq]
  split
  · rename_i h
    obtain ⟨_, _, h3, h4, h5⟩ := h
    have a1 : b.active (get_move_positions m).1 :=
      (active_iff b _).mpr ⟨_, h5, piece_target_ne reversed⟩
    have a2 : b.active m.pos := (active_iff b _).mpr ⟨_, h3, piece_other_ne reversed⟩
    have a3 : b.active (get_move_positions m).2 :=
      (active_iff b _).mpr ⟨_, h4, piece_other_ne reversed⟩
    have c1 := Consistent_set b _ (piece_other reversed) hc a1 (piece_other_ne reversed)
    have a2' := (set_active_iff b _ (piece_other reversed) a1 (piece_other_ne reversed) _).mpr a2
    have a3' := (set_active_iff b _ (piece_other reversed) a1 (piece_other_ne reversed) _).mpr a3
    have c2 := Consistent_set _ _ (piece_target reversed) c1 a2' (piece_target_ne reversed)
    have a3'' := (set_active_iff _ _ (piece_target reversed) a2' (piece_target_ne reversed) _).mpr a3'
    exact Consistent_set _ _ (piece_target reversed) c2 a3'' (piece_target_ne reversed)
  · exact hc

theorem Reachable_Consistent (b : PegBoard) (h : b.Reachable) (h64 : b.n_positions ≤ 64) :
    b.Consistent := by
  induction h with
  | construct s b hb => exact new_Consistent s b hb h64
  | make_move b m r _ ih =>
    rw [(make_move_shape b m r).2.2.1] at h64
    exact Consistent_make_move b m r (ih h64)

/-- Two boards with the same grid, the same table of positions and consistent flattened boards
have the same flattened board. -/
theorem Consistent_flattened_eq (b c : PegBoard) (hb : b.Consistent) (hc : c.Consistent)
    (hg : ∀ q, b.get q = c.get q) (hf : b.flattened_pos = c.flattened_pos) :
    b.flattened_board = c.flattened_board := by
  apply Nat.eq_of_testBit_eq
  intro k
  have e : b.flattened_board.testBit k = true ↔ c.flattened_board.testBit k = true := by
    rw [hb.bits k, hc.bits k]
    constructor
    · rintro ⟨p, h1, h2⟩; exact ⟨p, by rw [← hg]; exact h1, by rw [← hf]; exact h2⟩
    · rintro ⟨p, h1, h2⟩; exact ⟨p, by rw [hg]; exact h1, by rw [hf]; exact h2⟩
  cases h1 : b.flattened_board.testBit k <;> cases h2 : c.flattened_board.testBit k <;> simp_all

end PegBoard

/-! ## Boards of one shape, and the flattened value as a fingerprint -/

namespace PegBoard

theorem SameShape_refl (b : PegBoard) : b.SameShape b :=
  ⟨rfl, rfl, rfl, rfl, rfl, fun _ => Iff.rfl, fun _ => Iff.rfl⟩

theorem SameShape_trans (a b c : PegBoard) (h1 : a.SameShape b) (h2 : b.SameShape c) :
    a.SameShape c :=
  ⟨h1.n_rows.trans h2.n_rows, h1.n_cols.trans h2.n_cols, h1.n_positions.trans h2.n_positions,
    h1.flattened_pos.trans h2.flattened_pos, h1.length.trans h2.length,
    fun q => (h1.cells q).trans (h2.cells q), fun q => (h1.outside q).trans (h2.outside q)⟩

theorem SameShape_symm (a b : PegBoard) (h : a.SameShape b) : b.SameShape a :=
  ⟨h.n_rows.symm, h.n_cols.symm, h.n_positions.symm, h.flattened_pos.symm, h.length.symm,
    fun q => (h.cells q).symm, fun q => (h.outside q).symm⟩

theorem SameShape_make_move (b : PegBoard) (m : Move) (reversed : Bool) :
    (b.make_move m reversed).2.SameShape b := by
  obtain ⟨a1, a2, a3, a4⟩ := make_move_shape b m reversed
  refine ⟨a1, a2, a3, a4, make_move_pieces_length b m reversed, ?_, ?_⟩
  · intro q
    cases hm : (b.make_move m reversed).1 with
    | false => rw [make_move_false b m reversed hm]
    | true =>
      obtain ⟨_, _, h3, h4, h5⟩ := (make_move_true_iff b m reversed).mp hm
      rw [active_iff, active_iff, make_move_get b m reversed hm]
      by_cases q1 : q = m.pos ∨ q = (get_move_positions m).2
      · rw [if_pos q1]
        constructor
        · intro _
          rcases q1 with q1 | q1
          · rw [q1]; exact ⟨_, h3, piece_other_ne reversed⟩
          · rw [q1]; exact ⟨_, h4, piece_other_ne reversed⟩
        · intro _; exact ⟨_, rfl, piece_target_ne reversed⟩
      · rw [if_neg q1]
        by_cases q3 : q = (get_move_positions m).1
        · rw [if_pos q3]
          constructor
          · intro _; rw [q3]; exact ⟨_, h5, piece_target_ne reversed⟩
          · intro _; exact ⟨_, rfl, piece_other_ne reversed⟩
        · rw [if_neg q3]
  · intro q
    cases hm : (b.make_move m reversed).1 with
    | false => rw [make_move_false b m reversed hm]
    | true =>
      obtain ⟨_, _, h3, h4, h5⟩ := (make_move_true_iff b m reversed).mp hm
      rw [make_move_get b m reversed hm]
      by_cases q1 : q = m.pos ∨ q = (get_move_positions m).2
      · rw [if_pos q1]
        rcases q1 with q1 | q1
        · rw [q1, h3]; simp
        · rw [q1, h4]; simp
      · rw [if_neg q1]
        by_cases q3 : q = (get_move_positions m).1
        · rw [if_pos q3, q3, h5]; simp
        · rw [if_neg q3]

theorem get_cases (b : PegBoard) (q : Position) :
    b.get q = none ∨ b.get q = some Piece.None ∨ b.active q := by
  unfold active
  cases h : b.get q with
  | none => exact Or.inl rfl
  | some x =>
    cases x with
    | Peg => exact Or.inr (Or.inr (Or.inl rfl))
    | Hole => exact Or.inr (Or.inr (Or.inr rfl))
    | None => exact Or.inr (Or.inl rfl)

theorem peg_of_flattened_eq (c b : PegBoard) (hs : c.SameShape b) (hc : c.Consistent)
    (hb : b.Consistent) (hf : c.flattened_board = b.flattened_board) (q : Position)
    (h : b.get q = some Piece.Peg) : c.get q = some Piece.Peg := by
  obtain ⟨k, hk, _⟩ := hb.index q (Or.inl h)
  have hbit : b.flattened_board.testBit k = true := (hb.bits k).mpr ⟨q, h, hk⟩
  rw [← hf] at hbit
  obtain ⟨p, hp1, hp2⟩ := (hc.bits k).mp hbit
  have hqa : c.active q := (hs.cells q).mpr (Or.inl h)
  have hkc : index2 c.flattened_pos q = some k := by rw [hs.flattened_pos]; exact hk
  have := hc.inj p q k (Or.inl hp1) hqa hp2 hkc
  rw [← this]; exact hp1

/-- The flattened value identifies the grid among the consistent boards of one shape. -/
theorem get_eq_of_flattened_eq (c b : PegBoard) (hs : c.SameShape b) (hc : c.Consistent)
    (hb : b.Consistent) (hf : c.flattened_board = b.flattened_board) (q : Position) :
    c.get q = b.get q := by
  rcases get_cases b q with h | h | h
  · rw [h]; exact (hs.outside q).mpr h
  · rcases get_cases c q with h' | h' | h'
    · have := (hs.outside q).mp h'; rw [h] at this; cases this
    · rw [h, h']
    · have := (hs.cells q).mp h'
      rcases this with t | t <;> rw [h] at t <;> cases t
  · rcases h with h | h
    · rw [h]; exact peg_of_flattened_eq c b hs hc hb hf q h
    · have hqa : c.active q := (hs.cells q).mpr (Or.inr h)
      rcases hqa with t | t
      · have := peg_of_flattened_eq b c (SameShape_symm _ _ hs) hb hc hf.symm q t
        rw [h] at this; cases this
      · rw [h, t]

theorem eq_of_get_eq (c b : PegBoard) (hs : c.SameShape b) (hg : ∀ q, c.get q = b.get q)
    (hf : c.flattened_board = b.flattened_board) : c = b := by
  have hp : c.pieces = b.pieces := pieces_ext b c hs.length hg
  obtain ⟨a1, a2, a3, a4, _, _, _⟩ := hs
  cases c; cases b
  simp only at hp hf a1 a2 a3 a4
  simp only [PegBoard.mk.injEq]
  exact ⟨a3, a1, a2, hp, a4, hf⟩

theorem count_pieces_congr (c b : PegBoard) (h : c.pieces = b.pieces) (x : Piece) :
    c.count_pieces x = b.count_pieces x := by
  unfold count_pieces; rw [h]

end PegBoard

/-! ## The round trip on consistent boards -/

namespace PegBoard

/-- On a consistent board a successful forward move followed by the same move reversed gives
the board back. -/
theorem make_move_undo_eq (b : PegBoard) (hc : b.Consistent) (m : Move)
    (h : (b.make_move m false).1 = true) :
    ((b.make_move m false).2.make_move m true).2 = b := by
  obtain ⟨_, hget⟩ := make_move_undo b m h
  have hc2 := Consistent_make_move _ m true (Consistent_make_move b m false hc)
  have hs : ((b.make_move m false).2.make_move m true).2.SameShape b :=
    SameShape_trans _ _ _ (SameShape_make_move _ m true) (SameShape_make_move b m false)
  exact eq_of_get_eq _ _ hs hget (Consistent_flattened_eq _ _ hc2 hc hget hs.flattened_pos)

end PegBoard

/-- C6: move round trip. On a board with at most 64 cells that are not blocked, after a call
`make_move(m)` that returned true the call `make_move(m, true)` returns true as well and leaves
the board as it was before the first call: the same grid, the same flattened value, and the
same board altogether. -/
theorem make_move_round_trip (b : PegBoard) (hr : b.Reachable) (h64 : b.get_n_positions ≤ 64)
    (m : Move) (h : (b.make_move m false).1 = true) :
    ((b.make_move m false).2.make_move m true).1 = true ∧
      ((b.make_move m false).2.make_move m true).2.pieces = b.pieces ∧
      ((b.make_move m false).2.make_move m true).2.get_flattened_value
        = b.get_flattened_value ∧
      ((b.make_move m false).2.make_move m true).2 = b := by
  have he := PegBoard.make_move_undo_eq b (PegBoard.Reachable_Consistent b hr h64) m h
  exact ⟨(PegBoard.make_move_undo b m h).1, by rw [he], by rw [he], he⟩

/-- Witness of C6 on the board `"110"`: the jump of the leftmost peg and its reversal. -/
theorem make_move_round_trip_witness :
    ((board_110.make_move move_110 false).2.make_move move_110 true).1 = true ∧
      ((board_110.make_move move_110 false).2.make_move move_110 true).2 = board_110 :=
  have h := make_move_round_trip board_110 (PegBoard.Reachable.construct "110" _ board_110_new)
    (by decide) move_110 (by decide)
  ⟨h.1, h.2.2.2⟩

/-! ## Runs of the solver -/

namespace BoardSolver

/-- More fuel does not change what a run returns. -/
theorem solve_loop_fuel_mono (fuel : Nat) :
    ∀ (ph : Phase) (s : BoardSolver) (r : Bool × BoardSolver) (k : Nat),
      solve_loop fuel ph s = .ok r → solve_loop (fuel + k) ph s = .ok r := by
  induction fuel with
  | zero => intro ph s r k h; simp [solve_loop] at h
  | succ n ih =>
    intro ph s r k h
    have e : n + 1 + k = (n + k) + 1 := by omega
    rw [e]
    unfold solve_loop at h ⊢
    cases hs : solve_step ph s with
    | next ph' s' => rw [hs] at h; exact ih _ _ _ _ h
    | done st s' => rw [hs] at h; exact h
    | fault => rw [hs] at h; cases h

theorem solve_board_fuel_mono (fuel : Nat) (s : BoardSolver) (r : Bool × BoardSolver) (k : Nat)
    (h : s.solve_board fuel = .ok r) : s.solve_board (fuel + k) = .ok r := by
  unfold solve_board at h ⊢
  split
  · rename_i c; rw [if_pos c] at h; exact h
  · rename_i c; rw [if_neg c] at h; exact solve_loop_fuel_mono _ _ _ _ _ h

end BoardSolver

theorem solver_outcome_some (fuel : Nat) (layout : String) (mode : SolverBoardSaving)
    (r rp : Bool) (n : Nat) (h : solver_outcome fuel layout mode = some (r, rp, n)) :
    ∃ b s s', PegBoard.new layout = .ok b ∧ BoardSolver.new b mode = .ok s ∧
      s.solve_board fuel = .ok (r, s') ∧ (replay_moves b s'.get_moves).1 = rp ∧
      s'.get_current_board.count_pieces Piece.Peg = n := by
  unfold solver_outcome at h
  cases hb : PegBoard.new layout with
  | error e => rw [hb] at h; cases h
  | ok b =>
    rw [hb] at h
    simp only at h
    cases hs : BoardSolver.new b mode with
    | error e => rw [hs] at h; cases h
    | ok s =>
      rw [hs] at h
      simp only at h
      cases hr : s.solve_board fuel with
      | error e => rw [hr] at h; cases h
      | ok res =>
        obtain ⟨r', s'⟩ := res
        rw [hr] at h
        simp only [Option.some.injEq, Prod.mk.injEq] at h
        obtain ⟨h1, h2, h3⟩ := h
        exact ⟨b, s, s', rfl, hs, by rw [← h1]; exact hr, h2, h3⟩

theorem replay_outcome_some (layout : String) (moves : List Move) (n : Nat) (rp : Bool)
    (h : replay_outcome layout moves = some (n, rp)) :
    ∃ b, PegBoard.new layout = .ok b ∧ b.count_pieces Piece.Peg = n ∧
      (replay_moves b moves).1 = rp := by
  unfold replay_outcome at h
  cases hb : PegBoard.new layout with
  | error e => rw [hb] at h; cases h
  | ok b =>
    rw [hb] at h
    simp only [Option.some.injEq, Prod.mk.injEq] at h
    exact ⟨b, rfl, h.1, h.2⟩

theorem new_unique (layout : String) (b c : PegBoard) (hb : PegBoard.new layout = .ok b)
    (hc : PegBoard.new layout = .ok c) : b = c := by
  rw [hb] at hc
  exact Except.ok.inj hc


/-! ## Counting pieces -/

theorem count_set_list (l : List Piece) (i : Nat) (y old x : Piece) (h : l[i]? = some old) :
    (l.set i y).count x + (if old = x then 1 else 0) = l.count x + (if y = x then 1 else 0) := by
  induction l generalizing i with
  | nil => simp at h
  | cons a l ih =>
    cases i with
    | zero =>
      simp at h
      subst h
      simp only [List.set_cons_zero, List.count_cons]
      by_cases h1 : a = x <;> by_cases h2 : y = x <;> simp [h1, h2]
    | succ i =>
      simp at h
      have := ih i h
      simp only [List.set_cons_succ, List.count_cons]
      omega

theorem count_assign2 (g : List (List Piece)) (p : Position) (y old x : Piece)
    (h : index2 g p = some old) :
    ((assign2 g p y).map (fun row => row.count x)).sum + (if old = x then 1 else 0)
      = (g.map (fun row => row.count x)).sum + (if y = x then 1 else 0) := by
  obtain ⟨h1, h2, r, hr, hc⟩ := (index2_eq_some_iff g p old).mp h
  unfold assign2
  rw [if_pos ⟨h1, h2⟩, hr]
  simp only
  generalize p.row.toNat = i at hr
  generalize p.col.toNat = j at hc
  clear h h1 h2
  induction g generalizing i with
  | nil => simp at hr
  | cons a g ih =>
    cases i with
    | zero =>
      simp at hr
      subst hr
      simp only [List.set_cons_zero, List.map_cons, List.sum_cons]
      have := count_set_list a j y old x hc
      omega
    | succ i =>
      simp at hr
      have := ih i hr
      simp only [List.set_cons_succ, List.map_cons, List.sum_cons]
      omega

namespace PegBoard

theorem count_pieces_set (b : PegBoard) (p : Position) (y old x : Piece)
    (h : b.get p = some old) :
    (b.set p y).count_pieces x + (if old = x then 1 else 0)
      = b.count_pieces x + (if y = x then 1 else 0) :=
  count_assign2 b.pieces p y old x h

/-- A successful forward move takes one peg from the board. -/
theorem count_pegs_make_move (b : PegBoard) (m : Move) (h : (b.make_move m false).1 = true) :
    (b.make_move m false).2.count_pieces Piece.Peg + 1 = b.count_pieces Piece.Peg := by
  have hc := (make_move_true_iff b m false).mp h
  rw [make_move_eq, if_pos hc]
  obtain ⟨_, _, h3, h4, h5⟩ := hc
  obtain ⟨n1, n2, n3⟩ := move_positions_ne m
  have hpo : piece_other false = Piece.Peg := rfl
  have hpt : piece_target false = Piece.Hole := rfl
  rw [hpo] at h3 h4 ⊢
  rw [hpt] at h5 ⊢
  have e1 := count_pieces_set b (get_move_positions m).1 Piece.Peg Piece.Hole Piece.Peg h5
  have g2 : (b.set (get_move_positions m).1 Piece.Peg).get m.pos = some Piece.Peg := by
    rw [get_set, if_neg (fun hh => n1 hh.1.symm)]; exact h3
  have e2 := count_pieces_set _ m.pos Piece.Hole Piece.Peg Piece.Peg g2
  have g3 : ((b.set (get_move_positions m).1 Piece.Peg).set m.pos Piece.Hole).get
      (get_move_positions m).2 = some Piece.Peg := by
    rw [get_set, if_neg (fun hh => n2 hh.1), get_set, if_neg (fun hh => n3 hh.1)]; exact h4
  have e3 := count_pieces_set _ (get_move_positions m).2 Piece.Hole Piece.Peg Piece.Peg g3
  simp at e1 e2 e3
  show (((b.set (get_move_positions m).1 Piece.Peg).set m.pos Piece.Hole).set
    (get_move_positions m).2 Piece.Hole).count_pieces Piece.Peg + 1 = b.count_pieces Piece.Peg
  omega

end PegBoard

/-! ## Replaying moves -/

theorem replay_moves_append (b : PegBoard) (ms : List Move) (m : Move) :
    replay_moves b (ms ++ [m]) =
      ((replay_moves b ms).1 && ((replay_moves b ms).2.make_move m false).1,
        ((replay_moves b ms).2.make_move m false).2) := by
  induction ms generalizing b with
  | nil => simp [replay_moves]
  | cons a ms ih =>
    have e : replay_moves b (a :: ms ++ [m]) =
        ((b.make_move a false).1 && (replay_moves (b.make_move a false).2 (ms ++ [m])).1,
          (replay_moves (b.make_move a false).2 (ms ++ [m])).2) := rfl
    rw [e, ih]
    simp [replay_moves, Bool.and_assoc]

theorem replay_moves_SameShape (b : PegBoard) (ms : List Move) :
    (replay_moves b ms).2.SameShape b := by
  induction ms generalizing b with
  | nil => exact PegBoard.SameShape_refl b
  | cons a ms ih =>
    simp only [replay_moves]
    exact PegBoard.SameShape_trans _ _ _ (ih _) (PegBoard.SameShape_make_move b a false)

theorem replay_moves_Consistent (b : PegBoard) (ms : List Move) (hb : b.Consistent) :
    (replay_moves b ms).2.Consistent := by
  induction ms generalizing b with
  | nil => exact hb
  | cons a ms ih =>
    simp only [replay_moves]
    exact ih _ (PegBoard.Consistent_make_move b a false hb)

theorem replay_moves_count (b : PegBoard) (ms : List Move) (h : (replay_moves b ms).1 = true) :
    (replay_moves b ms).2.count_pieces Piece.Peg + ms.length = b.count_pieces Piece.Peg := by
  induction ms generalizing b with
  | nil => rfl
  | cons a ms ih =>
    simp only [replay_moves, Bool.and_eq_true] at h ⊢
    have h1 := PegBoard.count_pegs_make_move b a h.1
    have h2 := ih _ h.2
    simp only [List.length_cons]
    omega

theorem replay_moves_take (b : PegBoard) (ms : List Move) (j : Nat)
    (h : (replay_moves b ms).1 = true) : (replay_moves b (ms.take j)).1 = true := by
  induction ms generalizing b j with
  | nil => simp [replay_moves]
  | cons a ms ih =>
    cases j with
    | zero => simp [replay_moves]
    | succ j =>
      simp only [replay_moves, Bool.and_eq_true, List.take_succ_cons] at h ⊢
      exact ⟨h.1, ih _ _ h.2⟩

theorem take_succ_eq (ms : List Move) (j : Nat) (m : Move) (h : ms[j]? = some m) :
    ms.take (j + 1) = ms.take j ++ [m] := by
  rw [List.take_succ, h]; rfl

/-- The flattened values of two boards on one legal path differ when their depths differ. -/
theorem replay_flattened_ne (b : PegBoard) (hb : b.Consistent) (ms : List Move) (i j : Nat)
    (h : (replay_moves b (ms.take i)).1 = true) (hij : j < i) (hi : i ≤ ms.length) :
    (replay_moves b (ms.take j)).2.flattened_board
      ≠ (replay_moves b (ms.take i)).2.flattened_board := by
  intro hf
  have hj : (replay_moves b (ms.take j)).1 = true := by
    have := replay_moves_take b (ms.take i) j h
    rwa [List.take_take, Nat.min_eq_left (Nat.le_of_lt hij)] at this
  have c1 := replay_moves_count b _ h
  have c2 := replay_moves_count b _ hj
  have s1 := replay_moves_SameShape b (ms.take i)
  have s2 := replay_moves_SameShape b (ms.take j)
  have hs := PegBoard.SameShape_trans _ _ _ s2 (PegBoard.SameShape_symm _ _ s1)
  have hg := PegBoard.get_eq_of_flattened_eq _ _ hs (replay_moves_Consistent b _ hb)
    (replay_moves_Consistent b _ hb) hf
  have hp := PegBoard.pieces_ext _ _ hs.length hg
  have hc := PegBoard.count_pieces_congr _ _ hp Piece.Peg
  simp only [List.length_take] at c1 c2
  omega

theorem take_set_of_le {α : Type} (l : List α) (i j : Nat) (x : α) (h : j ≤ i) :
    (l.set i x).take j = l.take j := by
  induction l generalizing i j with
  | nil => simp
  | cons a l ih =>
    cases j with
    | zero => simp
    | succ j =>
      cases i with
      | zero => omega
      | succ i => simp [ih i j (by omega)]

/-! ## The invariant of the solver on boards of at most 64 positions -/

namespace BoardSaver

theorem check_save (sv : BoardSaver) (v w : Nat) :
    (sv.save v).check w = true ↔
      (sv.mode ≠ SolverBoardSaving.None ∧ w = v) ∨ sv.check w = true := by
  unfold save check
  cases hm : sv.mode <;> simp [hm]

theorem save_mode (sv : BoardSaver) (v : Nat) : (sv.save v).mode = sv.mode := by
  unfold save
  cases hm : sv.mode <;> simp [hm]

theorem save_bitfield_size (sv : BoardSaver) (v : Nat) :
    (sv.save v).bitfield_size = sv.bitfield_size := by
  unfold save
  cases hm : sv.mode <;> simp [hm]

theorem checkBoardSaved_eq (sv : BoardSaver) (v : Nat) (h : sv.in_range v) :
    sv.checkBoardSaved v = some (sv.check v) := by
  unfold in_range at h
  unfold checkBoardSaved check
  cases hm : sv.mode <;> simp [hm] at h ⊢
  exact h

theorem saveBoard_eq (sv : BoardSaver) (v : Nat) (h : sv.in_range v) :
    sv.saveBoard v = some (sv.save v) := by
  unfold in_range at h
  unfold saveBoard save
  cases hm : sv.mode <;> simp [hm] at h ⊢
  exact h

theorem checkBoardSaved_none (sv : BoardSaver) (v : Nat) (h : ¬ sv.in_range v) :
    sv.checkBoardSaved v = none := by
  unfold in_range at h
  unfold checkBoardSaved
  cases hm : sv.mode <;> simp [hm] at h ⊢
  exact h

theorem saveBoard_none (sv : BoardSaver) (v : Nat) (h : ¬ sv.in_range v) :
    sv.saveBoard v = none := by
  unfold in_range at h
  unfold saveBoard
  cases hm : sv.mode <;> simp [hm] at h ⊢
  exact h

/-- A read of the store that gives a result is in range and gives the saved bit. -/
theorem checkBoardSaved_some (sv : BoardSaver) (v : Nat) (r : Bool)
    (h : sv.checkBoardSaved v = some r) : sv.in_range v ∧ sv.check v = r := by
  by_cases hin : sv.in_range v
  · rw [checkBoardSaved_eq sv v hin] at h
    exact ⟨hin, Option.some.inj h⟩
  · rw [checkBoardSaved_none sv v hin] at h
    cases h

theorem in_range_of_mode (sv : BoardSaver) (v : Nat)
    (h : sv.mode ≠ SolverBoardSaving.Bitfield) : sv.in_range v :=
  fun e => absurd e h

/-- What the constructor leaves: empty containers, and in mode Bitfield a bitfield of
`uint64_t(1) << capacity` bits, which is at most `max_size()`; the mode is the requested one,
or Hashmap after a failed allocation of a bitfield. -/
theorem construct_ok (bad_alloc : Bool) (capacity : Nat) (mode : SolverBoardSaving)
    (sv : BoardSaver) (h : BoardSaver.construct bad_alloc capacity mode = .ok sv) :
    sv.boards_hashmap = [] ∧ sv.boards_bitfield = [] ∧
      (sv.mode = SolverBoardSaving.Bitfield →
        mode = SolverBoardSaving.Bitfield ∧ sv.bitfield_size = shl1 capacity) ∧
      (sv.mode = mode ∨ (mode = SolverBoardSaving.Bitfield ∧ bad_alloc = true ∧
        sv.mode = SolverBoardSaving.Hashmap)) := by
  unfold BoardSaver.construct at h
  by_cases hm : mode = SolverBoardSaving.Bitfield
  · rw [if_pos hm] at h
    simp only at h
    by_cases hsz : shl1 capacity > vector_bool_max_size
    · rw [if_pos hsz] at h; cases h
    · rw [if_neg hsz] at h
      by_cases hb : (bad_alloc && decide (shl1 capacity ≠ 0)) = true
      · rw [if_pos hb] at h
        cases h
        simp only [Bool.and_eq_true] at hb
        exact ⟨rfl, rfl, fun e => absurd e (by decide), Or.inr ⟨hm, hb.1, rfl⟩⟩
      · rw [if_neg hb] at h
        cases h
        exact ⟨rfl, rfl, fun _ => ⟨hm, rfl⟩, Or.inl hm.symm⟩
  · rw [if_neg hm] at h
    cases h
    exact ⟨rfl, rfl, fun e => absurd e hm, Or.inl rfl⟩

theorem check_of_empty (sv : BoardSaver) (h1 : sv.boards_hashmap = [])
    (h2 : sv.boards_bitfield = []) (w : Nat) : sv.check w = false := by
  unfold check
  cases hm : sv.mode <;> simp [h1, h2]

theorem check_construct (bad_alloc : Bool) (capacity : Nat) (mode : SolverBoardSaving)
    (sv : BoardSaver) (h : BoardSaver.construct bad_alloc capacity mode = .ok sv) (w : Nat) :
    sv.check w = false := by
  obtain ⟨h1, h2, _⟩ := construct_ok bad_alloc capacity mode sv h
  exact check_of_empty sv h1 h2 w

theorem shl1_eq_pow (k : Nat) (h : k < 64) : shl1 k = 2 ^ k := by
  unfold shl1
  rw [Nat.shiftLeft_eq, Nat.one_mul]
  exact Nat.mod_eq_of_lt (Nat.pow_lt_pow_right (by decide) h)

/-- The store constructed for a board of fewer than 64 positions covers its flattened
values. -/
theorem Covers_construct (bad_alloc : Bool) (capacity : Nat) (mode : SolverBoardSaving)
    (sv : BoardSaver) (h : BoardSaver.construct bad_alloc capacity mode = .ok sv)
    (hfit : store_fits mode capacity) : sv.Covers capacity := by
  intro hb
  obtain ⟨_, _, h3, _⟩ := construct_ok bad_alloc capacity mode sv h
  obtain ⟨hm, hsz⟩ := h3 hb
  rw [hsz, shl1_eq_pow capacity (hfit hm)]

end BoardSaver

namespace PegBoard

/-- The flattened value of a consistent board is below `2 ^ n_positions`. -/
theorem Consistent_flattened_lt (b : PegBoard) (hc : b.Consistent) :
    b.flattened_board < 2 ^ b.n_positions := by
  apply Nat.lt_pow_two_of_testBit
  intro k hk
  cases ht : b.flattened_board.testBit k with
  | false => rfl
  | true =>
    exfalso
    obtain ⟨p, hp, hi⟩ := (hc.bits k).mp ht
    obtain ⟨k', hk', hlt⟩ := hc.index p (Or.inl hp)
    rw [hi] at hk'
    cases hk'
    omega

end PegBoard

namespace BoardSolver

/-- A store that covers the positions of a board accesses the flattened value of every
consistent board of that many positions in range. -/
theorem in_range_of_Covers (sv : BoardSaver) (c : PegBoard) (n : Nat) (hcov : sv.Covers n)
    (hn : c.n_positions = n) (hc : c.Consistent) : sv.in_range c.flattened_board := by
  intro hb
  have h1 := PegBoard.Consistent_flattened_lt c hc
  have h2 := hcov hb
  rw [hn] at h1
  omega

theorem Covers_save (sv : BoardSaver) (v n : Nat) (h : sv.Covers n) : (sv.save v).Covers n := by
  intro hb
  rw [BoardSaver.save_mode] at hb
  rw [BoardSaver.save_bitfield_size]
  exact h hb

/-- The state in which the constructor leaves a solver for a board with a peg. -/
theorem construct_eq (bad_alloc : Bool) (b : PegBoard) (mode : SolverBoardSaving)
    (s : BoardSolver) (hp : 1 ≤ b.count_pieces Piece.Peg)
    (hs : BoardSolver.construct bad_alloc b mode = .ok s) :
    ∃ sv, BoardSaver.construct bad_alloc b.get_n_positions mode = .ok sv ∧
      s = { moves := List.replicate (b.count_pieces Piece.Peg - 1) first_move
            last_move_index := 0
            input_board := b
            board := b
            board_saver := sv
            solve_board_completed := false
            solve_board_status := false } := by
  unfold BoardSolver.construct at hs
  cases hsv : BoardSaver.construct bad_alloc b.get_n_positions mode with
  | error e => rw [hsv] at hs; cases hs
  | ok sv =>
    rw [hsv] at hs
    simp only at hs
    rw [if_neg (by omega)] at hs
    cases hs
    exact ⟨sv, rfl, rfl⟩

theorem solve_step_try (s : BoardSolver) (move : Move)
    (hm : s.moves[s.last_move_index]? = some move)
    (hin : s.board_saver.in_range (s.board.make_move move false).2.flattened_board) :
    solve_step Phase.try_move s =
      if s.board_saver.check (s.board.make_move move false).2.flattened_board = true
      then Step.next Phase.next_move
        { s with board := ((s.board.make_move move false).2.make_move move true).2 }
      else if (s.board.make_move move false).1 = true then
        if s.last_move_index = s.moves.length - 1 then
          Step.done true
            { s with board := (s.board.make_move move false).2, solve_board_status := true }
        else
          Step.next Phase.try_move
            { s with board := (s.board.make_move move false).2
                     last_move_index := s.last_move_index + 1
                     moves := s.moves.set (s.last_move_index + 1) first_move }
      else Step.next Phase.next_move { s with board := (s.board.make_move move false).2 } := by
  simp only [solve_step, hm, PegBoard.get_flattened_value,
    BoardSaver.checkBoardSaved_eq _ _ hin]
  by_cases c1 :
      s.board_saver.check (s.board.make_move move false).2.flattened_board = true
  · simp [c1]
  · by_cases c2 : (s.board.make_move move false).1 = true
    · by_cases c3 : s.last_move_index = s.moves.length - 1 <;> simp [c1, c2, c3]
    · simp [c1, c2]

/-- A trial whose read of the store is out of range ends the run. -/
theorem solve_step_try_out (s : BoardSolver) (move : Move)
    (hm : s.moves[s.last_move_index]? = some move)
    (hout : ¬ s.board_saver.in_range (s.board.make_move move false).2.flattened_board) :
    solve_step Phase.try_move s = Step.fault := by
  simp only [solve_step, hm, PegBoard.get_flattened_value,
    BoardSaver.checkBoardSaved_none _ _ hout]

theorem solve_step_next (s : BoardSolver) (move : Move)
    (hm : s.moves[s.last_move_index]? = some move)
    (hin : s.board_saver.in_range s.board.flattened_board) :
    solve_step Phase.next_move s =
      if (s.find_next_move move).1 = true then
        Step.next Phase.try_move
          { s with moves := s.moves.set s.last_move_index (s.find_next_move move).2 }
      else if s.last_move_index = 0 then
        Step.done false { s with solve_board_status := false }
      else
        match s.moves[s.last_move_index - 1]? with
        | none => Step.fault
        | some prev =>
          Step.next Phase.next_move
            { s with board_saver := s.board_saver.save s.board.flattened_board
                     board := (s.board.make_move prev true).2
                     last_move_index := s.last_move_index - 1 } := by
  simp only [solve_step, hm, PegBoard.get_flattened_value, BoardSaver.saveBoard_eq _ _ hin]

/-- A pass of the inner loop whose write to the store would be out of range. -/
theorem solve_step_next_out (s : BoardSolver) (move : Move)
    (hm : s.moves[s.last_move_index]? = some move)
    (hout : ¬ s.board_saver.in_range s.board.flattened_board) :
    solve_step Phase.next_move s =
      if (s.find_next_move move).1 = true then
        Step.next Phase.try_move
          { s with moves := s.moves.set s.last_move_index (s.find_next_move move).2 }
      else if s.last_move_index = 0 then
        Step.done false { s with solve_board_status := false }
      else Step.fault := by
  simp only [solve_step, hm, PegBoard.get_flattened_value, BoardSaver.saveBoard_none _ _ hout]

theorem Inv_try (b0 : PegBoard) (s : BoardSolver) (hi : Inv b0 s) :
    (∃ s', solve_step Phase.try_move s = Step.next Phase.try_move s' ∧ Inv b0 s') ∨
    (∃ s', solve_step Phase.try_move s = Step.next Phase.next_move s' ∧ Inv b0 s') ∨
    (∃ s', solve_step Phase.try_move s = Step.done true s' ∧ s'.input_board = b0 ∧
      replay_moves b0 s'.moves = (true, s'.board) ∧ s'.board.count_pieces Piece.Peg = 1 ∧
      s'.moves.length + 1 = b0.count_pieces Piece.Peg) := by
  obtain ⟨h1, h2, h3, h4, h5, h6, h7⟩ := hi
  have hm : s.moves[s.last_move_index]? = some s.moves[s.last_move_index] :=
    List.getElem?_eq_getElem h3
  generalize s.moves[s.last_move_index] = move at hm
  have hcb : s.board.Consistent := by
    have := replay_moves_Consistent b0 (s.moves.take s.last_move_index) h2
    rwa [h5] at this
  have hnb : s.board.n_positions = b0.n_positions := by
    have := (replay_moves_SameShape b0 (s.moves.take s.last_move_index)).n_positions
    rwa [h5] at this
  have hin : s.board_saver.in_range (s.board.make_move move false).2.flattened_board :=
    in_range_of_Covers _ _ _ h7
      (by rw [(PegBoard.make_move_shape s.board move false).2.2.1]; exact hnb)
      (PegBoard.Consistent_make_move s.board move false hcb)
  have hfresh : s.board_saver.check s.board.flattened_board = false := by
    have := h6 s.last_move_index (Nat.le_refl _)
    rwa [h5] at this
  have htake := take_succ_eq s.moves s.last_move_index move hm
  have hpath' : replay_moves b0 (s.moves.take (s.last_move_index + 1)) =
      ((s.board.make_move move false).1, (s.board.make_move move false).2) := by
    rw [htake, replay_moves_append, h5]; simp
  rw [solve_step_try s move hm hin]
  by_cases c1 :
      s.board_saver.check (s.board.make_move move false).2.flattened_board = true
  · rw [if_pos c1]
    right; left
    refine ⟨_, rfl, ?_⟩
    have hsucc : (s.board.make_move move false).1 = true := by
      cases hs : (s.board.make_move move false).1 with
      | true => rfl
      | false =>
        rw [PegBoard.make_move_false s.board move false hs, hfresh] at c1
        cases c1
    have hb : ((s.board.make_move move false).2.make_move move true).2 = s.board :=
      PegBoard.make_move_undo_eq s.board hcb move hsucc
    exact ⟨h1, h2, h3, h4, by simp only [hb]; exact h5, h6, h7⟩
  · rw [if_neg c1]
    by_cases c2 : (s.board.make_move move false).1 = true
    · rw [if_pos c2]
      rw [c2] at hpath'
      by_cases c3 : s.last_move_index = s.moves.length - 1
      · rw [if_pos c3]
        right; right
        refine ⟨_, rfl, h1, ?_, ?_, h4⟩
        · have hall : s.moves.take (s.last_move_index + 1) = s.moves :=
            List.take_of_length_le (by omega)
          rw [hall] at hpath'
          exact hpath'
        · have hc := replay_moves_count b0 (s.moves.take (s.last_move_index + 1))
            (by rw [hpath'])
          rw [hpath'] at hc
          simp only [List.length_take] at hc
          show (s.board.make_move move false).2.count_pieces Piece.Peg = 1
          omega
      · rw [if_neg c3]
        left
        refine ⟨_, rfl, ?_⟩
        have hlt : s.last_move_index + 1 < s.moves.length := by omega
        have hts : ∀ j, j ≤ s.last_move_index + 1 →
            (s.moves.set (s.last_move_index + 1) first_move).take j = s.moves.take j := by
          intro j hj
          exact take_set_of_le _ _ _ _ hj
        refine ⟨h1, h2, ?_, ?_, ?_, ?_, h7⟩
        · simp only [List.length_set]; exact hlt
        · simp only [List.length_set]; exact h4
        · simp only
          rw [hts _ (Nat.le_refl _)]
          exact hpath'
        · intro j hj
          simp only at hj ⊢
          rw [hts j hj]
          by_cases hj' : j ≤ s.last_move_index
          · exact h6 j hj'
          · have : j = s.last_move_index + 1 := by omega
            rw [this, hpath']
            simpa using c1
    · rw [if_neg c2]
      right; left
      refine ⟨_, rfl, ?_⟩
      have hs : (s.board.make_move move false).1 = false := by simpa using c2
      have hb := PegBoard.make_move_false s.board move false hs
      exact ⟨h1, h2, h3, h4, by simp only [hb]; exact h5, h6, h7⟩

theorem Inv_next (b0 : PegBoard) (s : BoardSolver) (hi : Inv b0 s) :
    (∃ s', solve_step Phase.next_move s = Step.next Phase.try_move s' ∧ Inv b0 s') ∨
    (∃ s', solve_step Phase.next_move s = Step.next Phase.next_move s' ∧ Inv b0 s') ∨
    (∃ s', solve_step Phase.next_move s = Step.done false s' ∧ s'.input_board = b0 ∧
      s'.board = s.board ∧ s.last_move_index = 0) := by
  obtain ⟨h1, h2, h3, h4, h5, h6, h7⟩ := hi
  have hm : s.moves[s.last_move_index]? = some s.moves[s.last_move_index] :=
    List.getElem?_eq_getElem h3
  generalize s.moves[s.last_move_index] = move at hm
  have hcb : s.board.Consistent := by
    have := replay_moves_Consistent b0 (s.moves.take s.last_move_index) h2
    rwa [h5] at this
  have hnb : s.board.n_positions = b0.n_positions := by
    have := (replay_moves_SameShape b0 (s.moves.take s.last_move_index)).n_positions
    rwa [h5] at this
  have hin : s.board_saver.in_range s.board.flattened_board :=
    in_range_of_Covers _ _ _ h7 hnb hcb
  rw [solve_step_next s move hm hin]
  by_cases c1 : (s.find_next_move move).1 = true
  · rw [if_pos c1]
    left
    refine ⟨_, rfl, h1, h2, ?_, ?_, ?_, ?_, h7⟩
    · simp only [List.length_set]; exact h3
    · simp only [List.length_set]; exact h4
    · simp only
      rw [take_set_of_le _ _ _ _ (Nat.le_refl _)]
      exact h5
    · intro j hj
      simp only at hj ⊢
      rw [take_set_of_le _ _ _ _ hj]
      exact h6 j hj
  · rw [if_neg c1]
    by_cases c2 : s.last_move_index = 0
    · rw [if_pos c2]
      right; right
      exact ⟨_, rfl, h1, rfl, c2⟩
    · rw [if_neg c2]
      right; left
      have hlt : s.last_move_index - 1 < s.moves.length := by omega
      have hp : s.moves[s.last_move_index - 1]? = some s.moves[s.last_move_index - 1] :=
        List.getElem?_eq_getElem hlt
      generalize s.moves[s.last_move_index - 1] = prev at hp
      rw [hp]
      refine ⟨_, rfl, ?_⟩
      have hidx : s.last_move_index - 1 + 1 = s.last_move_index := by omega
      have htake := take_succ_eq s.moves (s.last_move_index - 1) prev hp
      rw [hidx] at htake
      have hrep := h5
      rw [htake, replay_moves_append] at hrep
      have hr1 : (replay_moves b0 (s.moves.take (s.last_move_index - 1))).1 = true := by
        have := congrArg Prod.fst hrep
        simp only [Bool.and_eq_true] at this
        exact this.1
      have hr2 : ((replay_moves b0 (s.moves.take (s.last_move_index - 1))).2.make_move
          prev false).1 = true := by
        have := congrArg Prod.fst hrep
        simp only [Bool.and_eq_true] at this
        exact this.2
      have hr3 : ((replay_moves b0 (s.moves.take (s.last_move_index - 1))).2.make_move
          prev false).2 = s.board := congrArg Prod.snd hrep
      have hcp := replay_moves_Consistent b0 (s.moves.take (s.last_move_index - 1)) h2
      have hundo := PegBoard.make_move_undo_eq _ hcp prev hr2
      rw [hr3] at hundo
      refine ⟨h1, h2, hlt, h4, ?_, ?_, Covers_save _ _ _ h7⟩
      · simp only
        rw [hundo]
        exact Prod.ext hr1 rfl
      · intro j hj
        simp only at hj ⊢
        cases hc : (s.board_saver.save s.board.flattened_board).check
            (replay_moves b0 (s.moves.take j)).2.flattened_board with
        | false => rfl
        | true =>
          exfalso
          rcases (BoardSaver.check_save _ _ _).mp hc with ⟨_, he⟩ | he
          · have hne := replay_flattened_ne b0 h2 s.moves s.last_move_index j
              (by rw [h5]) (by omega) (Nat.le_of_lt h3)
            rw [h5] at hne
            exact hne he
          · rw [h6 j (by omega)] at he
            cases he

theorem Inv_new (bad_alloc : Bool) (b : PegBoard) (mode : SolverBoardSaving) (s : BoardSolver)
    (hc : b.Consistent) (hfit : store_fits mode b.n_positions)
    (hp : 2 ≤ b.count_pieces Piece.Peg)
    (hs : BoardSolver.construct bad_alloc b mode = .ok s) :
    Inv b { s with solve_board_completed := true } ∧ s.solve_board_completed = false := by
  obtain ⟨sv, hsv, rfl⟩ := construct_eq bad_alloc b mode s (by omega) hs
  refine ⟨⟨rfl, hc, ?_, ?_, ?_, ?_, ?_⟩, rfl⟩
  · simp only [List.length_replicate]; omega
  · simp only [List.length_replicate]; omega
  · simp [replay_moves]
  · intro j _
    exact BoardSaver.check_construct bad_alloc b.get_n_positions mode sv hsv _
  · exact BoardSaver.Covers_construct bad_alloc b.get_n_positions mode sv hsv hfit

/-- On a board of at most 64 positions a run that returns true ends with a move stack that
replays from the input board to the working board, which holds exactly one peg. -/
theorem solve_loop_sound (b0 : PegBoard) (fuel : Nat) :
    ∀ (ph : Phase) (s s' : BoardSolver), Inv b0 s → solve_loop fuel ph s = .ok (true, s') →
      s'.input_board = b0 ∧ replay_moves b0 s'.moves = (true, s'.board) ∧
        s'.board.count_pieces Piece.Peg = 1 ∧
        s'.moves.length + 1 = b0.count_pieces Piece.Peg := by
  induction fuel with
  | zero => intro ph s s' _ h; simp [solve_loop] at h
  | succ n ih =>
    intro ph s s' hi h
    unfold solve_loop at h
    cases ph with
    | try_move =>
      rcases Inv_try b0 s hi with ⟨t, ht, hinv⟩ | ⟨t, ht, hinv⟩ | ⟨t, ht, a, b, c, d⟩
      · rw [ht] at h; exact ih _ _ _ hinv h
      · rw [ht] at h; exact ih _ _ _ hinv h
      · rw [ht] at h
        simp only [Except.ok.injEq, Prod.mk.injEq, true_and] at h
        subst h
        exact ⟨a, b, c, d⟩
    | next_move =>
      rcases Inv_next b0 s hi with ⟨t, ht, hinv⟩ | ⟨t, ht, hinv⟩ | ⟨t, ht, _⟩
      · rw [ht] at h; exact ih _ _ _ hinv h
      · rw [ht] at h; exact ih _ _ _ hinv h
      · rw [ht] at h
        simp at h

end BoardSolver

theorem store_fits_of_ne (mode : SolverBoardSaving) (n : Nat)
    (h : mode ≠ SolverBoardSaving.Bitfield) : store_fits mode n :=
  fun e => absurd e h

theorem store_fits_of_lt (mode : SolverBoardSaving) (n : Nat) (h : n < 64) :
    store_fits mode n :=
  fun _ => h

/-- Soundness of the solver where the bounds hold: on a board of at most 64 positions (fewer
than 64 in mode Bitfield) and at least two pegs, in every saving mode and whether or not the
allocation of the bitfield fails, when `solve_board()` returns true the moves of `get_moves()`
are legal one after the other from the input board, they give `get_current_board()`, and that
board holds exactly one peg. -/
theorem solve_board_sound_of_le_64 (bad_alloc : Bool) (layout : String) (b : PegBoard)
    (mode : SolverBoardSaving) (s s' : BoardSolver) (fuel : Nat)
    (hb : PegBoard.new layout = .ok b) (h64 : b.get_n_positions ≤ 64)
    (hfit : store_fits mode b.get_n_positions) (hp : 2 ≤ b.count_pieces Piece.Peg)
    (hs : BoardSolver.construct bad_alloc b mode = .ok s)
    (hr : s.solve_board fuel = .ok (true, s')) :
    replay_moves b s'.get_moves = (true, s'.get_current_board) ∧
      s'.get_current_board.count_pieces Piece.Peg = 1 := by
  obtain ⟨hinv, hcompl⟩ :=
    BoardSolver.Inv_new bad_alloc b mode s (new_Consistent layout b hb h64) hfit hp hs
  unfold BoardSolver.solve_board at hr
  rw [hcompl] at hr
  simp only [Bool.false_eq_true, if_false] at hr
  obtain ⟨_, h1, h2, _⟩ := BoardSolver.solve_loop_sound b fuel _ _ _ hinv hr
  exact ⟨h1, h2⟩

theorem outcome_solvable_hashmap :
    solver_outcome 200 "110" SolverBoardSaving.Hashmap = some (true, true, 1) := by
  decide!

/-- An instance of `solve_board_sound_of_le_64`: the board `"110"` in mode Hashmap. -/
theorem solve_board_sound_of_le_64_example :
    ∃ b s s', PegBoard.new "110" = .ok b ∧
      BoardSolver.new b SolverBoardSaving.Hashmap = .ok s ∧
      s.solve_board 200 = .ok (true, s') ∧
      replay_moves b s'.get_moves = (true, s'.get_current_board) ∧
      s'.get_current_board.count_pieces Piece.Peg = 1 := by
  obtain ⟨b, s, s', h1, h2, h3, _, _⟩ := solver_outcome_some _ _ _ _ _ _ outcome_solvable_hashmap
  have e : b = board_110 := new_unique _ _ _ h1 board_110_new
  have h := solve_board_sound_of_le_64 false "110" b SolverBoardSaving.Hashmap s s' 200 h1
    (by rw [e]; decide) (store_fits_of_ne _ _ (by decide)) (by rw [e]; decide) h2 h3
  exact ⟨b, s, s', h1, h2, h3, h.1, h.2⟩

/-! ## The scan of `find_next_move` -/

theorem rank_lt (R C : Nat) (m : Move) (h : m.InGrid R C) : m.rank C < 4 * (R * C) := by
  obtain ⟨h1, h2, h3, h4⟩ := h
  unfold Move.rank
  have hr : m.pos.row.toNat + 1 ≤ R := by omega
  have hc : m.pos.col.toNat < C := by omega
  have hd : m.dir.index < 4 := by cases m.dir <;> decide
  have hm : (m.pos.row.toNat + 1) * C ≤ R * C := Nat.mul_le_mul_right C hr
  rw [Nat.add_mul, Nat.one_mul] at hm
  omega

theorem rank_inj (R C : Nat) (m m' : Move) (h : m.InGrid R C) (h' : m'.InGrid R C)
    (e : m.rank C = m'.rank C) : m = m' := by
  obtain ⟨h1, h2, h3, h4⟩ := h
  obtain ⟨g1, g2, g3, g4⟩ := h'
  unfold Move.rank at e
  have hd : m.dir.index < 4 := by cases m.dir <;> decide
  have hd' : m'.dir.index < 4 := by cases m'.dir <;> decide
  have hc : m.pos.col.toNat < C := by omega
  have hc' : m'.pos.col.toNat < C := by omega
  have e1 : m.dir.index = m'.dir.index := by omega
  have e2 : m.pos.row.toNat * C + m.pos.col.toNat = m'.pos.row.toNat * C + m'.pos.col.toNat := by
    omega
  have e3 : m.pos.row.toNat = m'.pos.row.toNat := by
    have a := congrArg (· / C) e2
    simp only at a
    rw [Nat.mul_comm, Nat.mul_add_div (by omega), Nat.div_eq_of_lt hc, Nat.mul_comm,
      Nat.mul_add_div (by omega), Nat.div_eq_of_lt hc'] at a
    simpa using a
  have e4 : m.pos.col.toNat = m'.pos.col.toNat := by
    rw [e3] at e2; omega
  have ed : m.dir = m'.dir := by
    revert e1; cases m.dir <;> cases m'.dir <;> simp [Direction.index]
  cases m with
  | mk pos dir =>
    cases m' with
    | mk pos' dir' =>
      cases pos; cases pos'
      simp only at h1 h3 g1 g3 e3 e4 ed
      simp only [Move.mk.injEq, Position.mk.injEq]
      exact ⟨⟨by omega, by omega⟩, ed⟩

theorem first_move_InGrid (R C : Nat) (hR : 0 < R) (hC : 0 < C) : first_move.InGrid R C := by
  unfold Move.InGrid first_move
  simp only
  omega

theorem first_move_rank (C : Nat) : first_move.rank C = 0 := by
  simp [Move.rank, first_move, Direction.index]

namespace BoardSolver

theorem find_next_move_true (s : BoardSolver) (m : Move)
    (h : m.InGrid s.board.n_rows s.board.n_cols) (hn : (s.find_next_move m).1 = true) :
    (s.find_next_move m).2.InGrid s.board.n_rows s.board.n_cols ∧
      (s.find_next_move m).2.rank s.board.n_cols = m.rank s.board.n_cols + 1 := by
  obtain ⟨h1, h2, h3, h4⟩ := h
  cases m with
  | mk pos dir =>
    cases pos with
    | mk row col =>
      simp only at h1 h2 h3 h4
      cases dir with
      | Up =>
        simp only [find_next_move, Move.InGrid, Move.rank, Direction.index]
        exact ⟨⟨h1, h2, h3, h4⟩, trivial⟩
      | Right =>
        simp only [find_next_move, Move.InGrid, Move.rank, Direction.index]
        exact ⟨⟨h1, h2, h3, h4⟩, trivial⟩
      | Down =>
        simp only [find_next_move, Move.InGrid, Move.rank, Direction.index]
        exact ⟨⟨h1, h2, h3, h4⟩, trivial⟩
      | Left =>
        simp only [find_next_move, PegBoard.get_n_cols, PegBoard.get_n_rows] at hn ⊢
        by_cases c1 : col = (s.board.n_cols : Int) - 1
        · rw [if_pos c1] at hn ⊢
          by_cases c2 : row = (s.board.n_rows : Int) - 1
          · rw [if_pos c2] at hn; simp at hn
          · rw [if_neg c2]
            simp only [Move.InGrid, Move.rank, Direction.index]
            refine ⟨⟨by omega, by omega, by omega, by omega⟩, ?_⟩
            have e1 : (row + 1).toNat = row.toNat + 1 := by omega
            have e2 : col.toNat + 1 = s.board.n_cols := by omega
            have e3 : (row.toNat + 1) * s.board.n_cols = row.toNat * s.board.n_cols
                + s.board.n_cols := by rw [Nat.add_mul, Nat.one_mul]
            have e4 : (0 : Int).toNat = 0 := rfl
            rw [e1, e3, e4]
            omega
        · rw [if_neg c1]
          simp only [Move.InGrid, Move.rank, Direction.index]
          refine ⟨⟨h1, h2, by omega, by omega⟩, ?_⟩
          have e1 : (col + 1).toNat = col.toNat + 1 := by omega
          rw [e1]
          omega

theorem find_next_move_false (s : BoardSolver) (m : Move)
    (h : m.InGrid s.board.n_rows s.board.n_cols) (hn : (s.find_next_move m).1 = false) :
    m.rank s.board.n_cols + 1 = 4 * (s.board.n_rows * s.board.n_cols) := by
  obtain ⟨h1, h2, h3, h4⟩ := h
  unfold find_next_move at hn
  unfold Move.rank PegBoard.get_n_cols PegBoard.get_n_rows at *
  cases hd : m.dir with
  | Up => simp [hd] at hn
  | Right => simp [hd] at hn
  | Down => simp [hd] at hn
  | Left =>
    simp only [hd] at hn
    by_cases c1 : m.pos.col = (s.board.n_cols : Int) - 1
    · rw [if_pos c1] at hn
      by_cases c2 : m.pos.row = (s.board.n_rows : Int) - 1
      · have e1 : m.pos.row.toNat + 1 = s.board.n_rows := by omega
        have e2 : m.pos.col.toNat + 1 = s.board.n_cols := by omega
        have e3 : (m.pos.row.toNat + 1) * s.board.n_cols = s.board.n_rows * s.board.n_cols := by
          rw [e1]
        rw [Nat.add_mul, Nat.one_mul] at e3
        simp only [Direction.index]
        omega
      · rw [if_neg c2] at hn; simp at hn
    · rw [if_neg c1] at hn; simp at hn

theorem find_next_move_of_rank (s : BoardSolver) (m : Move)
    (h : m.InGrid s.board.n_rows s.board.n_cols)
    (hr : m.rank s.board.n_cols + 1 < 4 * (s.board.n_rows * s.board.n_cols)) :
    (s.find_next_move m).1 = true := by
  cases hn : (s.find_next_move m).1 with
  | true => rfl
  | false =>
    have := find_next_move_false s m h hn
    omega

end BoardSolver

/-! ## Runs of the loops, and solvable boards -/

namespace BoardSolver

theorem Run_trans (ph1 ph2 ph3 : Phase) (s1 s2 s3 : BoardSolver) (h1 : Run ph1 s1 ph2 s2)
    (h2 : Run ph2 s2 ph3 s3) : Run ph1 s1 ph3 s3 := by
  induction h1 with
  | refl ph s => exact h2
  | step ph pha phb s sa sb hs _ ih => exact Run.step ph pha ph3 s sa s3 hs (ih h2)

theorem Run_one (ph ph1 : Phase) (s s1 : BoardSolver) (h : solve_step ph s = Step.next ph1 s1) :
    Run ph s ph1 s1 :=
  Run.step ph ph1 ph1 s s1 s1 h (Run.refl ph1 s1)

theorem Returns_of_Run (ph ph1 : Phase) (s s1 s' : BoardSolver) (r : Bool)
    (h1 : Run ph s ph1 s1) (h2 : Returns ph1 s1 r s') : Returns ph s r s' := by
  obtain ⟨ph2, s2, hr, hd⟩ := h2
  exact ⟨ph2, s2, Run_trans _ _ _ _ _ _ h1 hr, hd⟩

theorem Run_solve_loop (ph ph1 : Phase) (s s1 : BoardSolver) (h : Run ph s ph1 s1) :
    ∃ n, ∀ k, solve_loop (n + k) ph s = solve_loop k ph1 s1 := by
  induction h with
  | refl ph s => exact ⟨0, fun k => by rw [Nat.zero_add]⟩
  | step ph pha phb s sa sb hs _ ih =>
    obtain ⟨n, hn⟩ := ih
    refine ⟨n + 1, fun k => ?_⟩
    have e : n + 1 + k = (n + k) + 1 := by omega
    rw [e]
    conv => lhs; unfold solve_loop
    rw [hs]
    exact hn k

/-- A run that returns gives a result of `solve_loop` for some fuel. -/
theorem Returns_solve_loop (ph : Phase) (s s' : BoardSolver) (r : Bool)
    (h : Returns ph s r s') : ∃ fuel, solve_loop fuel ph s = .ok (r, s') := by
  obtain ⟨ph1, s1, hr, hd⟩ := h
  obtain ⟨n, hn⟩ := Run_solve_loop _ _ _ _ hr
  refine ⟨n + 1, ?_⟩
  rw [hn 1]
  unfold solve_loop
  rw [hd]

theorem Inv_step (b0 : PegBoard) (ph ph' : Phase) (s s' : BoardSolver) (hi : Inv b0 s)
    (h : solve_step ph s = Step.next ph' s') : Inv b0 s' := by
  cases ph with
  | try_move =>
    rcases Inv_try b0 s hi with ⟨t, ht, hinv⟩ | ⟨t, ht, hinv⟩ | ⟨t, ht, _⟩
    · rw [ht] at h; cases h; exact hinv
    · rw [ht] at h; cases h; exact hinv
    · rw [ht] at h; cases h
  | next_move =>
    rcases Inv_next b0 s hi with ⟨t, ht, hinv⟩ | ⟨t, ht, hinv⟩ | ⟨t, ht, _⟩
    · rw [ht] at h; cases h; exact hinv
    · rw [ht] at h; cases h; exact hinv
    · rw [ht] at h; cases h

theorem Inv_board (b0 : PegBoard) (s : BoardSolver) (hi : Inv b0 s) :
    s.board.SameShape b0 ∧ s.board.Consistent ∧
      s.board.count_pieces Piece.Peg + s.last_move_index = b0.count_pieces Piece.Peg := by
  have h1 := replay_moves_SameShape b0 (s.moves.take s.last_move_index)
  have h2 := replay_moves_Consistent b0 (s.moves.take s.last_move_index) hi.consistent
  have h3 := replay_moves_count b0 (s.moves.take s.last_move_index) (by rw [hi.path])
  rw [hi.path] at h1 h2 h3
  simp only [List.length_take] at h3
  have := hi.index
  exact ⟨h1, h2, by omega⟩

theorem Inv_in_range (b0 : PegBoard) (s : BoardSolver) (hi : Inv b0 s) :
    s.board_saver.in_range s.board.flattened_board := by
  obtain ⟨hshape, hcons, _⟩ := Inv_board b0 s hi
  exact in_range_of_Covers _ _ _ hi.covers hshape.n_positions hcons

theorem Inv_in_range_try (b0 : PegBoard) (s : BoardSolver) (hi : Inv b0 s) (mv : Move) :
    s.board_saver.in_range (s.board.make_move mv false).2.flattened_board := by
  obtain ⟨hshape, hcons, _⟩ := Inv_board b0 s hi
  exact in_range_of_Covers _ _ _ hi.covers
    (by rw [(PegBoard.make_move_shape s.board mv false).2.2.1]; exact hshape.n_positions)
    (PegBoard.Consistent_make_move s.board mv false hcons)

end BoardSolver

theorem Solvable_zero (c : PegBoard) : Solvable 0 c := ⟨[], rfl, rfl⟩

theorem Solvable_succ (k : Nat) (c : PegBoard) :
    Solvable (k + 1) c ↔
      ∃ m, (c.make_move m false).1 = true ∧ Solvable k (c.make_move m false).2 := by
  constructor
  · rintro ⟨ms, hl, hr⟩
    cases ms with
    | nil => simp at hl
    | cons m ms =>
      simp only [replay_moves, Bool.and_eq_true] at hr
      exact ⟨m, hr.1, ms, by simpa using hl, hr.2⟩
  · rintro ⟨m, hm, ms, hl, hr⟩
    refine ⟨m :: ms, by simp [hl], ?_⟩
    simp only [replay_moves, Bool.and_eq_true]
    exact ⟨hm, hr⟩

theorem InGrid_of_legal (c : PegBoard) (m : Move) (reversed : Bool)
    (h : (c.make_move m reversed).1 = true) : m.InGrid c.n_rows c.n_cols := by
  have h1 := ((PegBoard.make_move_true_iff c m reversed).mp h).1
  unfold PegBoard.position_on_board at h1
  simp only [Bool.and_eq_true, decide_eq_true_eq] at h1
  unfold Move.InGrid
  omega

/-- When every move of the grid is handled, the board admits no `d + 1` legal moves. -/
theorem not_Solvable_of_Handled (c : PegBoard) (d : Nat)
    (h : ∀ m : Move, m.InGrid c.n_rows c.n_cols → Handled c d m) : ¬ Solvable (d + 1) c := by
  intro hs
  obtain ⟨m, hm, hsol⟩ := (Solvable_succ d c).mp hs
  exact h m (InGrid_of_legal c m false hm) hm hsol

/-! ## The search is exhaustive on boards of at most 64 positions -/

namespace BoardSolver

theorem getElem?_of_take_eq (l l' : List Move) (i : Nat)
    (h : l'.take (i + 1) = l.take (i + 1)) : l'[i]? = l[i]? := by
  have h1 : (l'.take (i + 1))[i]? = l'[i]? := by simp [List.getElem?_take]
  have h2 : (l.take (i + 1))[i]? = l[i]? := by simp [List.getElem?_take]
  rw [← h1, ← h2, h]

theorem take_of_take_succ_eq (l l' : List Move) (i : Nat)
    (h : l'.take (i + 1) = l.take (i + 1)) : l'.take i = l.take i := by
  have := congrArg (List.take i) h
  simpa [List.take_take] using this

theorem try_one (b0 : PegBoard) (d : Nat)
    (ih : d = 0 ∨ ∃ d', d = d' + 1 ∧ ExploreSpec b0 d') : TrySpec b0 d := by
  intro s mv hready
  obtain ⟨hinv, hsound, hlen, hmv, hgrid⟩ := hready
  obtain ⟨hshape, hcons, hcount⟩ := Inv_board b0 s hinv
  have hL := hinv.length
  have hfresh : s.board_saver.check s.board.flattened_board = false := by
    have := hinv.fresh s.last_move_index (Nat.le_refl _)
    rwa [hinv.path] at this
  have hstep := solve_step_try s mv hmv (Inv_in_range_try b0 s hinv mv)
  have hpegs : (s.board.make_move mv false).1 = true →
      (s.board.make_move mv false).2.count_pieces Piece.Peg - 1 = d := by
    intro hs
    have := PegBoard.count_pegs_make_move s.board mv hs
    omega
  have hshape' : (s.board.make_move mv false).2.SameShape b0 :=
    PegBoard.SameShape_trans _ _ _ (PegBoard.SameShape_make_move s.board mv false) hshape
  have hcons' : (s.board.make_move mv false).2.Consistent :=
    PegBoard.Consistent_make_move s.board mv false hcons
  by_cases c1 :
      s.board_saver.check (s.board.make_move mv false).2.flattened_board = true
  · rw [if_pos c1] at hstep
    right
    have hsucc : (s.board.make_move mv false).1 = true := by
      cases hs : (s.board.make_move mv false).1 with
      | true => rfl
      | false =>
        rw [PegBoard.make_move_false s.board mv false hs, hfresh] at c1
        cases c1
    refine ⟨_, Run_one _ _ _ _ hstep, Inv_step b0 _ _ _ _ hinv hstep, hsound, rfl,
      PegBoard.make_move_undo_eq s.board hcons mv hsucc, rfl, rfl, ?_⟩
    intro _
    have := hsound _ hshape' hcons' c1
    rwa [hpegs hsucc] at this
  · rw [if_neg c1] at hstep
    by_cases c2 : (s.board.make_move mv false).1 = true
    · rw [if_pos c2] at hstep
      by_cases c3 : s.last_move_index = s.moves.length - 1
      · rw [if_pos c3] at hstep
        left
        exact ⟨_, Phase.try_move, s, Run.refl _ _, hstep⟩
      · rw [if_neg c3] at hstep
        rcases ih with h0 | ⟨d', hd', hex⟩
        · omega
        · have hlt : s.last_move_index + 1 < s.moves.length := by omega
          have hR : 0 < b0.n_rows := by have := hgrid.1; have := hgrid.2.1; omega
          have hC : 0 < b0.n_cols := by have := hgrid.2.2.1; have := hgrid.2.2.2; omega
          have hinv1 := Inv_step b0 _ _ _ _ hinv hstep
          have hready1 : Ready b0 d'
              { s with board := (s.board.make_move mv false).2
                       last_move_index := s.last_move_index + 1
                       moves := s.moves.set (s.last_move_index + 1) first_move } first_move := by
            refine ⟨hinv1, hsound, ?_, ?_, first_move_InGrid _ _ hR hC⟩
            · simp only [List.length_set]; omega
            · simp only
              exact List.getElem?_set_self hlt
          rcases hex (4 * (b0.n_rows * b0.n_cols)) _ first_move hready1
              (by rw [first_move_rank]; omega)
              (by intro m' _ hm'; rw [first_move_rank] at hm'; omega) with
            ⟨s', hs'⟩ | ⟨t2, hrun2, hex2⟩
          · left
            exact ⟨s', Returns_of_Run _ _ _ _ _ _ (Run_one _ _ _ _ hstep) hs'⟩
          · right
            obtain ⟨hinv2, hsound2, hidx2, hboard2, htake2, hlen2, ⟨mv', hmv', hfn⟩, hns⟩ := hex2
            simp only at hidx2 hboard2 htake2 hlen2 hns
            rw [take_set_of_le _ _ _ _ (Nat.le_refl _)] at htake2
            have hprev : t2.moves[t2.last_move_index - 1]? = some mv := by
              rw [hidx2, Nat.add_sub_cancel, getElem?_of_take_eq _ _ _ htake2]
              exact hmv
            have hstep3 := solve_step_next t2 mv' hmv' (Inv_in_range b0 t2 hinv2)
            rw [if_neg (by rw [hfn]; decide), if_neg (by omega), hprev] at hstep3
            simp only at hstep3
            have hundo : (t2.board.make_move mv true).2 = s.board := by
              rw [hboard2]
              exact PegBoard.make_move_undo_eq s.board hcons mv c2
            rw [hd'] at hpegs
            refine ⟨_, Run_trans _ _ _ _ _ _ (Run_one _ _ _ _ hstep)
              (Run_trans _ _ _ _ _ _ hrun2 (Run_one _ _ _ _ hstep3)),
              Inv_step b0 _ _ _ _ hinv2 hstep3, ?_, ?_, hundo, htake2, ?_, ?_⟩
            · intro c hcs hcc hchk
              rcases (BoardSaver.check_save _ _ _).mp hchk with ⟨_, he⟩ | he
              · rw [hboard2] at he
                have hs2 : c.SameShape (s.board.make_move mv false).2 :=
                  PegBoard.SameShape_trans _ _ _ hcs (PegBoard.SameShape_symm _ _ hshape')
                have hg := PegBoard.get_eq_of_flattened_eq _ _ hs2 hcc hcons' he
                have hceq := PegBoard.eq_of_get_eq _ _ hs2 hg he
                rw [hceq, hpegs c2]
                exact hns
              · exact hsound2 c hcs hcc he
            · simp only; omega
            · simp only [List.length_set] at hlen2; exact hlen2
            · intro _; rw [hd']; exact hns
    · rw [if_neg c2] at hstep
      right
      have hs : (s.board.make_move mv false).1 = false := by simpa using c2
      refine ⟨_, Run_one _ _ _ _ hstep, Inv_step b0 _ _ _ _ hinv hstep, hsound, rfl,
        PegBoard.make_move_false s.board mv false hs, rfl, rfl, ?_⟩
      intro h; exact absurd h c2

/-- The inner loop on a board of at most 64 positions: entered after the move `mv` and all
moves before it in the scan have been handled, it ends in a solution or exhausts the scan, and
then no move of the grid starts a solution. -/
theorem sweep_next (b0 : PegBoard) (d : Nat) (ht : TrySpec b0 d) (w : Nat) :
    ∀ t mv, Ready b0 d t mv → mv.rank b0.n_cols + 1 + w = 4 * (b0.n_rows * b0.n_cols) →
      (∀ m' : Move, m'.InGrid b0.n_rows b0.n_cols → m'.rank b0.n_cols ≤ mv.rank b0.n_cols →
        Handled t.board d m') →
      (∃ s', Returns Phase.next_move t true s') ∨
      ∃ t', Run Phase.next_move t Phase.next_move t' ∧ Exhausted b0 d t t' := by
  induction w with
  | zero =>
    intro t mv hready hw hdone
    obtain ⟨hinv, hsound, hlen, hmv, hgrid⟩ := hready
    obtain ⟨hshape, _, _⟩ := Inv_board b0 t hinv
    right
    refine ⟨t, Run.refl _ _, hinv, hsound, rfl, rfl, rfl, rfl, ⟨mv, hmv, ?_⟩, ?_⟩
    · cases hn : (t.find_next_move mv).1 with
      | false => rfl
      | true =>
        have hg' : mv.InGrid t.board.n_rows t.board.n_cols := by
          rw [hshape.n_rows, hshape.n_cols]; exact hgrid
        obtain ⟨h1, h2⟩ := find_next_move_true t mv hg' hn
        have h3 := rank_lt _ _ _ h1
        rw [hshape.n_rows, hshape.n_cols] at h3
        rw [hshape.n_cols] at h2
        omega
    · apply not_Solvable_of_Handled
      intro m hm
      rw [hshape.n_rows, hshape.n_cols] at hm
      have := rank_lt _ _ m hm
      exact hdone m hm (by omega)
  | succ w ih =>
    intro t mv hready hw hdone
    obtain ⟨hinv, hsound, hlen, hmv, hgrid⟩ := hready
    obtain ⟨hshape, _, _⟩ := Inv_board b0 t hinv
    have hg' : mv.InGrid t.board.n_rows t.board.n_cols := by
      rw [hshape.n_rows, hshape.n_cols]; exact hgrid
    have hn : (t.find_next_move mv).1 = true := by
      apply find_next_move_of_rank t mv hg'
      rw [hshape.n_rows, hshape.n_cols]
      omega
    obtain ⟨h1, h2⟩ := find_next_move_true t mv hg' hn
    rw [hshape.n_rows, hshape.n_cols] at h1
    rw [hshape.n_cols] at h2
    have hstep := solve_step_next t mv hmv (Inv_in_range b0 t hinv)
    rw [if_pos hn] at hstep
    have hidx : t.last_move_index < t.moves.length := hinv.index
    have hready1 : Ready b0 d
        { t with moves := t.moves.set t.last_move_index (t.find_next_move mv).2 }
        (t.find_next_move mv).2 := by
      refine ⟨Inv_step b0 _ _ _ _ hinv hstep, hsound, ?_, ?_, h1⟩
      · simp only [List.length_set]; exact hlen
      · simp only
        exact List.getElem?_set_self hidx
    rcases ht _ _ hready1 with ⟨s', hs'⟩ | ⟨t2, hrun2, hinv2, hsound2, hi2, hb2, htake2, hlen2, hh2⟩
    · left
      exact ⟨s', Returns_of_Run _ _ _ _ _ _ (Run_one _ _ _ _ hstep) hs'⟩
    · simp only at hi2 hb2 htake2 hlen2 hh2
      have hmt : t2.moves[t2.last_move_index]? = some (t.find_next_move mv).2 := by
        rw [hi2, getElem?_of_take_eq _ _ _ htake2]
        exact List.getElem?_set_self hidx
      have hready2 : Ready b0 d t2 (t.find_next_move mv).2 :=
        ⟨hinv2, hsound2, by rw [hlen2, hi2, List.length_set]; exact hlen, hmt, h1⟩
      have hdone2 : ∀ m' : Move, m'.InGrid b0.n_rows b0.n_cols →
          m'.rank b0.n_cols ≤ (t.find_next_move mv).2.rank b0.n_cols → Handled t2.board d m' := by
        intro m' hm' hr'
        rw [hb2]
        by_cases e : m'.rank b0.n_cols ≤ mv.rank b0.n_cols
        · exact hdone m' hm' e
        · have : m' = (t.find_next_move mv).2 := rank_inj _ _ _ _ hm' h1 (by omega)
          rw [this]; exact hh2
      rcases ih t2 _ hready2 (by omega) hdone2 with ⟨s', hs'⟩ | ⟨t', hrun', hex⟩
      · left
        exact ⟨s', Returns_of_Run _ _ _ _ _ _
          (Run_trans _ _ _ _ _ _ (Run_one _ _ _ _ hstep) hrun2) hs'⟩
      · right
        obtain ⟨e1, e2, e3, e4, e5, e6, e7, e8⟩ := hex
        refine ⟨t', Run_trans _ _ _ _ _ _ (Run_one _ _ _ _ hstep)
          (Run_trans _ _ _ _ _ _ hrun2 hrun'), e1, e2, by omega, by rw [e4, hb2], ?_,
          by rw [e6, hlen2, List.length_set], e7, by rw [← hb2]; exact e8⟩
        rw [hi2] at e5
        rw [e5, take_of_take_succ_eq _ _ _ htake2]
        exact take_set_of_le _ _ _ _ (Nat.le_refl _)

/-- Trying a move and scanning on: `ExploreSpec` from `TrySpec`. -/
theorem explore_of_try (b0 : PegBoard) (d : Nat) (ht : TrySpec b0 d) : ExploreSpec b0 d := by
  intro w s mv hready _ hbefore
  have hgrid := hready.2.2.2.2
  have hmv := hready.2.2.2.1
  have hlen := hready.2.2.1
  rcases ht s mv hready with hret | ⟨t, hrun, hinv, hsound, hi, hb, htake, hlent, hh⟩
  · exact Or.inl hret
  · have hlt := rank_lt _ _ mv hgrid
    have hmt : t.moves[t.last_move_index]? = some mv := by
      rw [hi, getElem?_of_take_eq _ _ _ htake]; exact hmv
    have hdone : ∀ m' : Move, m'.InGrid b0.n_rows b0.n_cols →
        m'.rank b0.n_cols ≤ mv.rank b0.n_cols → Handled t.board d m' := by
      intro m' hm' hr'
      rw [hb]
      by_cases e : m'.rank b0.n_cols < mv.rank b0.n_cols
      · exact hbefore m' hm' e
      · have : m' = mv := rank_inj _ _ _ _ hm' hgrid (by omega)
        rw [this]; exact hh
    rcases sweep_next b0 d ht (4 * (b0.n_rows * b0.n_cols) - mv.rank b0.n_cols - 1) t mv
        ⟨hinv, hsound, by rw [hlent, hi]; exact hlen, hmt, hgrid⟩ (by omega) hdone with
      ⟨s', hs'⟩ | ⟨t', hrun', e1, e2, e3, e4, e5, e6, e7, e8⟩
    · exact Or.inl ⟨s', Returns_of_Run _ _ _ _ _ _ hrun hs'⟩
    · right
      refine ⟨t', Run_trans _ _ _ _ _ _ hrun hrun', e1, e2, by omega, by rw [e4, hb], ?_,
        by rw [e6, hlent], e7, by rw [← hb]; exact e8⟩
      rw [hi] at e5
      rw [e5, take_of_take_succ_eq _ _ _ htake]

/-- The search on a board of at most 64 positions ends in a solution or exhausts the scan,
whatever the number of slots above the index. -/
theorem explore (b0 : PegBoard) : ∀ d, ExploreSpec b0 d := by
  intro d
  induction d with
  | zero => exact explore_of_try b0 0 (try_one b0 0 (Or.inl rfl))
  | succ d ih => exact explore_of_try b0 (d + 1) (try_one b0 (d + 1) (Or.inr ⟨d, rfl, ih⟩))

end BoardSolver

/-! ## Claims on the number of pieces -/

namespace PegBoard

/-- A successful move, forward or reversed, puts one `piece_other` less and one `piece_target`
more on the board. -/
theorem count_pieces_make_move (b : PegBoard) (m : Move) (reversed : Bool) (x : Piece)
    (h : (b.make_move m reversed).1 = true) :
    (b.make_move m reversed).2.count_pieces x + (if piece_other reversed = x then 1 else 0)
      = b.count_pieces x + (if piece_target reversed = x then 1 else 0) := by
  have hc := (make_move_true_iff b m reversed).mp h
  rw [make_move_eq, if_pos hc]
  obtain ⟨_, _, h3, h4, h5⟩ := hc
  obtain ⟨n1, n2, n3⟩ := move_positions_ne m
  have e1 := count_pieces_set b (get_move_positions m).1 (piece_other reversed)
    (piece_target reversed) x h5
  have g2 : (b.set (get_move_positions m).1 (piece_other reversed)).get m.pos
      = some (piece_other reversed) := by
    rw [get_set, if_neg (fun hh => n1 hh.1.symm)]; exact h3
  have e2 := count_pieces_set _ m.pos (piece_target reversed) (piece_other reversed) x g2
  have g3 : ((b.set (get_move_positions m).1 (piece_other reversed)).set m.pos
      (piece_target reversed)).get (get_move_positions m).2 = some (piece_other reversed) := by
    rw [get_set, if_neg (fun hh => n2 hh.1), get_set, if_neg (fun hh => n3 hh.1)]; exact h4
  have e3 := count_pieces_set _ (get_move_positions m).2 (piece_target reversed)
    (piece_other reversed) x g3
  show (((b.set (get_move_positions m).1 (piece_other reversed)).set m.pos
    (piece_target reversed)).set (get_move_positions m).2 (piece_target reversed)).count_pieces x
      + (if piece_other reversed = x then 1 else 0)
      = b.count_pieces x + (if piece_target reversed = x then 1 else 0)
  omega

end PegBoard

/-- C20: each successful move changes the number of pegs by exactly one. A successful forward
move leaves one Peg less, one Hole more and as many `None` cells; a successful reversed move
leaves one Peg more, one Hole less and as many `None` cells. A board reached by `k` successful
forward moves from a board of `p` pegs has `p - k` pegs, so that, on a board with at least one
peg, `p - 1` moves have been applied exactly when one peg remains. -/
theorem make_move_count_pieces (b : PegBoard) (move : Move) :
    ((b.make_move move false).1 = true →
      (b.make_move move false).2.count_pieces Piece.Peg + 1 = b.count_pieces Piece.Peg ∧
      (b.make_move move false).2.count_pieces Piece.Hole = b.count_pieces Piece.Hole + 1 ∧
      (b.make_move move false).2.count_pieces Piece.None = b.count_pieces Piece.None) ∧
    ((b.make_move move true).1 = true →
      (b.make_move move true).2.count_pieces Piece.Peg = b.count_pieces Piece.Peg + 1 ∧
      (b.make_move move true).2.count_pieces Piece.Hole + 1 = b.count_pieces Piece.Hole ∧
      (b.make_move move true).2.count_pieces Piece.None = b.count_pieces Piece.None) ∧
    (∀ moves : List Move, (replay_moves b moves).1 = true →
      (replay_moves b moves).2.count_pieces Piece.Peg = b.count_pieces Piece.Peg - moves.length ∧
      moves.length ≤ b.count_pieces Piece.Peg ∧
      (1 ≤ b.count_pieces Piece.Peg →
        (moves.length = b.count_pieces Piece.Peg - 1 ↔
          (replay_moves b moves).2.count_pieces Piece.Peg = 1))) := by
  refine ⟨fun h => ?_, fun h => ?_, fun moves h => ?_⟩
  · have h1 := PegBoard.count_pieces_make_move b move false Piece.Peg h
    have h2 := PegBoard.count_pieces_make_move b move false Piece.Hole h
    have h3 := PegBoard.count_pieces_make_move b move false Piece.None h
    simp [PegBoard.piece_other, PegBoard.piece_target] at h1 h2 h3
    exact ⟨h1, h2, h3⟩
  · have h1 := PegBoard.count_pieces_make_move b move true Piece.Peg h
    have h2 := PegBoard.count_pieces_make_move b move true Piece.Hole h
    have h3 := PegBoard.count_pieces_make_move b move true Piece.None h
    simp [PegBoard.piece_other, PegBoard.piece_target] at h1 h2 h3
    exact ⟨h1, h2, h3⟩
  · have hc := replay_moves_count b moves h
    refine ⟨by omega, by omega, fun _ => by omega⟩

/-- Witness of C20 on the board `"110"`: the jump of the leftmost peg to the right succeeds and
leaves one peg and two holes; it is the one move of a board of two pegs. -/
theorem make_move_count_pieces_witness :
    (board_110.make_move move_110 false).1 = true ∧
      board_110.count_pieces Piece.Peg = 2 ∧
      (board_110.make_move move_110 false).2.count_pieces Piece.Peg + 1
        = board_110.count_pieces Piece.Peg ∧
      (board_110.make_move move_110 false).2.count_pieces Piece.Hole
        = board_110.count_pieces Piece.Hole + 1 ∧
      ([move_110].length = board_110.count_pieces Piece.Peg - 1 ↔
        (replay_moves board_110 [move_110]).2.count_pieces Piece.Peg = 1) :=
  have h : (board_110.make_move move_110 false).1 = true := by decide
  have hr : (replay_moves board_110 [move_110]).1 = true := by decide
  ⟨h, by decide, ((make_move_count_pieces board_110 move_110).1 h).1,
    ((make_move_count_pieces board_110 move_110).1 h).2.1,
    ((make_move_count_pieces board_110 move_110).2.2 [move_110] hr).2.2 (by decide)⟩

/-! ## The order of the scan -/

theorem lex_lt_rank (R C : Nat) (m m' : Move) (h : m.InGrid R C) (h' : m'.InGrid R C)
    (hl : m.lex_lt m') : m.rank C < m'.rank C := by
  obtain ⟨h1, h2, h3, h4⟩ := h
  obtain ⟨g1, g2, g3, g4⟩ := h'
  unfold Move.rank
  have hd : m.dir.index < 4 := by cases m.dir <;> decide
  have hd' : m'.dir.index < 4 := by cases m'.dir <;> decide
  rcases hl with hl | ⟨e, hl | ⟨e', hl⟩⟩
  · have hr : m.pos.row.toNat + 1 ≤ m'.pos.row.toNat := by omega
    have hm : (m.pos.row.toNat + 1) * C ≤ m'.pos.row.toNat * C := Nat.mul_le_mul_right C hr
    rw [Nat.add_mul, Nat.one_mul] at hm
    have hc : m.pos.col.toNat < C := by omega
    omega
  · rw [e]
    have hc : m.pos.col.toNat < m'.pos.col.toNat := by omega
    omega
  · rw [e, e']
    omega

theorem lex_lt_of_rank (R C : Nat) (m m' : Move) (h : m.InGrid R C) (h' : m'.InGrid R C)
    (hr : m.rank C < m'.rank C) : m.lex_lt m' := by
  by_cases hl : m.lex_lt m'
  · exact hl
  · exfalso
    by_cases e : m = m'
    · subst e; omega
    · have hl' : m'.lex_lt m := by
        unfold Move.lex_lt at hl ⊢
        have hne : ¬ (m.pos.row = m'.pos.row ∧ m.pos.col = m'.pos.col ∧
            m.dir.index = m'.dir.index) := by
          rintro ⟨a, b, c⟩
          apply e
          cases m with
          | mk pos dir =>
            cases m' with
            | mk pos' dir' =>
              cases pos; cases pos'
              simp only at a b c
              have ed : dir = dir' := by
                revert c; cases dir <;> cases dir' <;> simp [Direction.index]
              simp only [Move.mk.injEq, Position.mk.injEq]
              exact ⟨⟨a, b⟩, ed⟩
        omega
      have := lex_lt_rank R C m' m h' h hl'
      omega

namespace BoardSolver

theorem find_next_move_false_iff (s : BoardSolver) (m : Move) :
    (s.find_next_move m).1 = false ↔
      m = { pos := { row := (s.board.get_n_rows : Int) - 1, col := (s.board.get_n_cols : Int) - 1 }
            dir := Direction.Left } := by
  cases m with
  | mk pos dir =>
    cases pos with
    | mk row col =>
      cases dir with
      | Up => simp [find_next_move]
      | Right => simp [find_next_move]
      | Down => simp [find_next_move]
      | Left =>
        simp only [find_next_move, Move.mk.injEq, Position.mk.injEq, and_true]
        by_cases c1 : col = (s.board.get_n_cols : Int) - 1
        · rw [if_pos c1]
          by_cases c2 : row = (s.board.get_n_rows : Int) - 1
          · rw [if_pos c2]; simp [c1, c2]
          · rw [if_neg c2]; simp [c2]
        · rw [if_neg c1]; simp [c1]

/-- The scan from a move of the grid: `n` steps lead to the move whose rank is `n` more, as
long as this rank is in the grid. -/
theorem scan_rank (s : BoardSolver) (n : Nat) (m : Move)
    (h : m.InGrid s.board.n_rows s.board.n_cols)
    (hr : m.rank s.board.n_cols + n < 4 * (s.board.n_rows * s.board.n_cols)) :
    ∃ m', s.scan n m = some m' ∧ m'.InGrid s.board.n_rows s.board.n_cols ∧
      m'.rank s.board.n_cols = m.rank s.board.n_cols + n := by
  induction n generalizing m with
  | zero => exact ⟨m, rfl, h, rfl⟩
  | succ n ih =>
    have ht := find_next_move_of_rank s m h (by omega)
    obtain ⟨hg, hk⟩ := find_next_move_true s m h ht
    obtain ⟨m', e1, e2, e3⟩ := ih (s.find_next_move m).2 hg (by omega)
    refine ⟨m', ?_, e2, by omega⟩
    simp only [scan, ht, if_true]
    exact e1

/-- The scan ends: no move is reached by a number of steps that leaves the grid. -/
theorem scan_none (s : BoardSolver) (n : Nat) (m : Move)
    (h : m.InGrid s.board.n_rows s.board.n_cols)
    (hr : 4 * (s.board.n_rows * s.board.n_cols) ≤ m.rank s.board.n_cols + n) :
    s.scan n m = none := by
  induction n generalizing m with
  | zero =>
    have := rank_lt _ _ m h
    omega
  | succ n ih =>
    simp only [scan]
    cases ht : (s.find_next_move m).1 with
    | false => simp
    | true =>
      obtain ⟨hg, hk⟩ := find_next_move_true s m h ht
      simp only [if_true]
      exact ih _ hg (by omega)

theorem scan_some (s : BoardSolver) (n : Nat) (m m' : Move)
    (h : m.InGrid s.board.n_rows s.board.n_cols) (e : s.scan n m = some m') :
    m'.InGrid s.board.n_rows s.board.n_cols ∧
      m'.rank s.board.n_cols = m.rank s.board.n_cols + n := by
  by_cases hr : m.rank s.board.n_cols + n < 4 * (s.board.n_rows * s.board.n_cols)
  · obtain ⟨m'', e1, e2, e3⟩ := scan_rank s n m h hr
    rw [e1] at e
    cases e
    exact ⟨e2, e3⟩
  · rw [scan_none s n m h (by omega)] at e
    cases e

end BoardSolver

/-- C13: the move enumeration is a complete ordered sweep. On a board of `R > 0` rows and
`C > 0` columns, the moves reached from the initial move ((0,0), Up) by repeated calls of
`find_next_move` are: every move whose origin is in the grid, each at exactly one number of
steps; only such moves; in strictly increasing lexicographic order of (row, column,
direction); `find_next_move` returns false exactly on the move ((R-1, C-1), Left), which is
reached after `4*R*C - 1` steps, so that exactly the step counts below `4*R*C` give a move. -/
theorem find_next_move_sweep (s : BoardSolver) (hR : 0 < s.board.get_n_rows)
    (hC : 0 < s.board.get_n_cols) :
    (∀ m : Move, m.InGrid s.board.get_n_rows s.board.get_n_cols →
      ∃ n, s.scan n first_move = some m ∧ ∀ n', s.scan n' first_move = some m → n' = n) ∧
    (∀ n m, s.scan n first_move = some m → m.InGrid s.board.get_n_rows s.board.get_n_cols) ∧
    (∀ i j m m', i < j → s.scan i first_move = some m → s.scan j first_move = some m' →
      m.lex_lt m') ∧
    (∀ m : Move, (s.find_next_move m).1 = false ↔
      m = { pos := { row := (s.board.get_n_rows : Int) - 1
                     col := (s.board.get_n_cols : Int) - 1 }
            dir := Direction.Left }) ∧
    (∀ n, (s.scan n first_move).isSome = true ↔
      n < 4 * (s.board.get_n_rows * s.board.get_n_cols)) ∧
    s.scan (4 * (s.board.get_n_rows * s.board.get_n_cols) - 1) first_move =
      some { pos := { row := (s.board.get_n_rows : Int) - 1
                      col := (s.board.get_n_cols : Int) - 1 }
             dir := Direction.Left } := by
  have hf : first_move.InGrid s.board.n_rows s.board.n_cols := first_move_InGrid _ _ hR hC
  have hf0 : first_move.rank s.board.n_cols = 0 := first_move_rank _
  have hpos : 0 < 4 * (s.board.n_rows * s.board.n_cols) :=
    Nat.mul_pos (by decide) (Nat.mul_pos hR hC)
  simp only [PegBoard.get_n_rows, PegBoard.get_n_cols] at hR hC ⊢
  refine ⟨?_, ?_, ?_, ?_, ?_, ?_⟩
  · intro m hm
    have hlt := rank_lt _ _ m hm
    obtain ⟨m', e1, e2, e3⟩ := BoardSolver.scan_rank s (m.rank s.board.n_cols) first_move hf
      (by omega)
    have : m' = m := rank_inj _ _ m' m e2 hm (by omega)
    subst this
    refine ⟨_, e1, ?_⟩
    intro n' hn'
    have := (BoardSolver.scan_some s n' first_move m' hf hn').2
    omega
  · intro n m e
    exact (BoardSolver.scan_some s n first_move m hf e).1
  · intro i j m m' hij ei ej
    obtain ⟨a1, a2⟩ := BoardSolver.scan_some s i first_move m hf ei
    obtain ⟨b1, b2⟩ := BoardSolver.scan_some s j first_move m' hf ej
    exact lex_lt_of_rank _ _ m m' a1 b1 (by omega)
  · intro m
    exact BoardSolver.find_next_move_false_iff s m
  · intro n
    constructor
    · intro h
      by_contra hc
      rw [BoardSolver.scan_none s n first_move hf (by omega)] at h
      cases h
    · intro h
      obtain ⟨m', e1, _, _⟩ := BoardSolver.scan_rank s n first_move hf (by omega)
      rw [e1]; rfl
  · obtain ⟨m', e1, e2, e3⟩ := BoardSolver.scan_rank s
      (4 * (s.board.n_rows * s.board.n_cols) - 1) first_move hf (by omega)
    rw [e1]
    have hn : (s.find_next_move m').1 = false := by
      cases hn : (s.find_next_move m').1 with
      | false => rfl
      | true =>
        have h1 := (BoardSolver.find_next_move_true s m' e2 hn)
        have h2 := rank_lt _ _ _ h1.1
        omega
    have := (BoardSolver.find_next_move_false_iff s m').mp hn
    simp only [PegBoard.get_n_rows, PegBoard.get_n_cols] at this
    rw [this]

/-- Witness of C13 on the board `"110"` (one row, three columns): eleven steps lead from the
initial move to ((0,2), Left), and a twelfth call returns false. -/
theorem find_next_move_sweep_witness :
    solver_110.scan 11 first_move =
        some { pos := { row := 0, col := 2 }, dir := Direction.Left } ∧
      solver_110.scan 12 first_move = none ∧
      ((solver_110.scan 12 first_move).isSome = true ↔ 12 < 12) :=
  ⟨(find_next_move_sweep solver_110 (by decide) (by decide)).2.2.2.2.2, by decide,
    (find_next_move_sweep solver_110 (by decide) (by decide)).2.2.2.2.1 12⟩

/-! ## What a pass of the loops leaves unchanged -/

namespace BoardSolver

/-- A pass that goes on leaves the flags, the input board, the length of the move stack and the
dimensions of the working board as they are. -/
theorem solve_step_next_frame (ph ph' : Phase) (s s' : BoardSolver)
    (h : solve_step ph s = Step.next ph' s') :
    s'.solve_board_completed = s.solve_board_completed ∧ s'.input_board = s.input_board ∧
      s'.moves.length = s.moves.length ∧ s'.board.n_rows = s.board.n_rows ∧
      s'.board.n_cols = s.board.n_cols := by
  cases hm : s.moves[s.last_move_index]? with
  | none => cases ph <;> simp [solve_step, hm] at h
  | some mv =>
    cases ph with
    | try_move =>
      by_cases hin : s.board_saver.in_range (s.board.make_move mv false).2.flattened_board
      case neg => rw [solve_step_try_out s mv hm hin] at h; cases h
      rw [solve_step_try s mv hm hin] at h
      have d1 := PegBoard.make_move_shape s.board mv false
      have d2 := PegBoard.make_move_shape (s.board.make_move mv false).2 mv true
      split at h
      · simp only [Step.next.injEq] at h
        obtain ⟨_, rfl⟩ := h
        exact ⟨rfl, rfl, rfl, by simp only; rw [d2.1, d1.1], by simp only; rw [d2.2.1, d1.2.1]⟩
      · split at h
        · split at h
          · cases h
          · simp only [Step.next.injEq] at h
            obtain ⟨_, rfl⟩ := h
            exact ⟨rfl, rfl, by simp, d1.1, d1.2.1⟩
        · simp only [Step.next.injEq] at h
          obtain ⟨_, rfl⟩ := h
          exact ⟨rfl, rfl, rfl, d1.1, d1.2.1⟩
    | next_move =>
      by_cases hin : s.board_saver.in_range s.board.flattened_board
      case neg =>
        rw [solve_step_next_out s mv hm hin] at h
        split at h
        · simp only [Step.next.injEq] at h
          obtain ⟨_, rfl⟩ := h
          exact ⟨rfl, rfl, by simp, rfl, rfl⟩
        · split at h <;> cases h
      rw [solve_step_next s mv hm hin] at h
      split at h
      · simp only [Step.next.injEq] at h
        obtain ⟨_, rfl⟩ := h
        exact ⟨rfl, rfl, by simp, rfl, rfl⟩
      · split at h
        · cases h
        · cases hp : s.moves[s.last_move_index - 1]? with
          | none => rw [hp] at h; cases h
          | some prev =>
            rw [hp] at h
            simp only [Step.next.injEq] at h
            obtain ⟨_, rfl⟩ := h
            have d3 := PegBoard.make_move_shape s.board prev true
            exact ⟨rfl, rfl, rfl, d3.1, d3.2.1⟩

/-- A pass that returns stores the returned value as the status and leaves the flag
`solve_board_completed`, the move stack, the index and the store as they are. -/
theorem solve_step_done_frame (ph : Phase) (s s' : BoardSolver) (r : Bool)
    (h : solve_step ph s = Step.done r s') :
    s'.solve_board_completed = s.solve_board_completed ∧ s'.solve_board_status = r ∧
      s'.moves = s.moves ∧ s'.last_move_index = s.last_move_index ∧
      s'.board_saver = s.board_saver ∧ s'.input_board = s.input_board := by
  cases hm : s.moves[s.last_move_index]? with
  | none => cases ph <;> simp [solve_step, hm] at h
  | some mv =>
    cases ph with
    | try_move =>
      by_cases hin : s.board_saver.in_range (s.board.make_move mv false).2.flattened_board
      case neg => rw [solve_step_try_out s mv hm hin] at h; cases h
      rw [solve_step_try s mv hm hin] at h
      split at h
      · cases h
      · split at h
        · split at h
          · simp only [Step.done.injEq] at h
            obtain ⟨rfl, rfl⟩ := h
            exact ⟨rfl, rfl, rfl, rfl, rfl, rfl⟩
          · cases h
        · cases h
    | next_move =>
      by_cases hin : s.board_saver.in_range s.board.flattened_board
      case neg =>
        rw [solve_step_next_out s mv hm hin] at h
        split at h
        · cases h
        · split at h
          · simp only [Step.done.injEq] at h
            obtain ⟨rfl, rfl⟩ := h
            exact ⟨rfl, rfl, rfl, rfl, rfl, rfl⟩
          · cases h
      rw [solve_step_next s mv hm hin] at h
      split at h
      · cases h
      · split at h
        · simp only [Step.done.injEq] at h
          obtain ⟨rfl, rfl⟩ := h
          exact ⟨rfl, rfl, rfl, rfl, rfl, rfl⟩
        · cases hp : s.moves[s.last_move_index - 1]? with
          | none => rw [hp] at h; cases h
          | some prev => rw [hp] at h; cases h

/-- A run that returns leaves the flag `solve_board_completed` as it is and stores the returned
value as the status. -/
theorem solve_loop_flags (fuel : Nat) :
    ∀ (ph : Phase) (s s' : BoardSolver) (r : Bool), solve_loop fuel ph s = .ok (r, s') →
      s'.solve_board_completed = s.solve_board_completed ∧ s'.solve_board_status = r := by
  induction fuel with
  | zero => intro ph s s' r h; simp [solve_loop] at h
  | succ n ih =>
    intro ph s s' r h
    unfold solve_loop at h
    cases hs : solve_step ph s with
    | next ph1 s1 =>
      rw [hs] at h
      obtain ⟨a, b⟩ := ih _ _ _ _ h
      exact ⟨by rw [a, (solve_step_next_frame _ _ _ _ hs).1], b⟩
    | done st s1 =>
      rw [hs] at h
      simp only [Except.ok.injEq, Prod.mk.injEq] at h
      obtain ⟨rfl, rfl⟩ := h
      obtain ⟨a, b, _⟩ := solve_step_done_frame _ _ _ _ hs
      exact ⟨a, b⟩
    | fault => rw [hs] at h; cases h

end BoardSolver

/-- C17: `solve_board` is idempotent. Once `solve_board()` has returned on a solver, every
later call returns the same boolean and leaves the solver (the move stack, the index, the
working board and the store of unwinnable boards) unchanged. -/
theorem solve_board_idempotent (s s' : BoardSolver) (fuel : Nat) (r : Bool)
    (h : s.solve_board fuel = .ok (r, s')) (fuel' : Nat) :
    s'.solve_board fuel' = .ok (r, s') := by
  unfold BoardSolver.solve_board at h
  have hflags : s'.solve_board_completed = true ∧ s'.solve_board_status = r := by
    by_cases c : s.solve_board_completed = true
    · rw [if_pos c] at h
      simp only [Except.ok.injEq, Prod.mk.injEq] at h
      obtain ⟨rfl, rfl⟩ := h
      exact ⟨c, rfl⟩
    · rw [if_neg c] at h
      exact BoardSolver.solve_loop_flags fuel _ _ _ _ h
  unfold BoardSolver.solve_board
  rw [if_pos hflags.1, hflags.2]

/-- Witness of C17: on the board `"110"` the first call of `solve_board` returns true, and a
second call returns true again and leaves the solver as the first call left it. -/
theorem solve_board_idempotent_witness :
    solver_110.solve_board 3 = .ok (true, solved_110) ∧
      solved_110.solve_board 3 = .ok (true, solved_110) :=
  have h : solver_110.solve_board 3 = .ok (true, solved_110) := by decide
  ⟨h, solve_board_idempotent solver_110 solved_110 3 true h 3⟩

/-! ## Printing a board -/

theorem print_char_piece (row : List Char) (h : ∀ c ∈ row, c = ' ' ∨ c = '1' ∨ c = '0') :
    (row.map char_piece).map (fun col =>
        match col with
        | Piece.Hole => '0'
        | Piece.Peg => '1'
        | Piece.None => ' ') = row := by
  induction row with
  | nil => rfl
  | cons c cs ih =>
    have hc := h c (List.mem_cons_self _ _)
    have ht := ih (fun d hd => h d (List.mem_cons_of_mem _ hd))
    simp only [List.map_cons, List.cons.injEq]
    refine ⟨?_, ht⟩
    rcases hc with rfl | rfl | rfl <;> decide

/-- C18, as stated, fails on the layout `"110"`: the text printed for its board is
`"110\n\n"`, the row followed by two newlines, and not the layout itself. -/
theorem print_round_trip_counterexample :
    PegBoard.new "110" = .ok board_110 ∧ board_110.print = "110\n\n".data ∧
      board_110.print ≠ "110".data := by
  decide

/-- C18 amended: for every layout accepted by the constructor, the text that `print()` writes
is the rows of the layout in order, every cell as the character it was parsed from, every row
followed by a newline, and one more newline after the last row. -/
theorem print_layout (layout : String) (b : PegBoard) (h : PegBoard.new layout = .ok b) :
    b.print = ((getlines layout.data).map (fun row => row ++ ['\n'])).flatten ++ ['\n'] := by
  obtain ⟨fi, fb, hp, _⟩ := new_eq_ok layout b h
  obtain ⟨hchars, hpieces, _, _⟩ := parse_lines_ok _ _ _ _ _ _ _ hp
  unfold PegBoard.print
  rw [hpieces, List.map_map]
  congr 2
  apply List.map_congr_left
  intro row hrow
  simp only [Function.comp]
  rw [print_char_piece row (hchars row hrow)]

/-- Witness of the amended C18 on the layout `"110"`. -/
theorem print_layout_witness :
    PegBoard.new "110" = .ok board_110 ∧
      board_110.print
        = ((getlines "110".data).map (fun row => row ++ ['\n'])).flatten ++ ['\n'] :=
  ⟨board_110_new, print_layout "110" board_110 board_110_new⟩

/-! ## The search ends on every board whose store holds its flattened values -/

namespace BoardSolver

theorem Dims_in_range (R C L : Nat) (s : BoardSolver) (h : Dims R C L s) :
    s.board_saver.in_range s.board.flattened_board := by
  by_cases hm : s.board_saver.mode = SolverBoardSaving.Bitfield
  · obtain ⟨b0, hi⟩ := h.2.2.2 hm
    exact Inv_in_range b0 s hi
  · exact BoardSaver.in_range_of_mode _ _ hm

theorem Dims_in_range_try (R C L : Nat) (s : BoardSolver) (h : Dims R C L s) (mv : Move) :
    s.board_saver.in_range (s.board.make_move mv false).2.flattened_board := by
  by_cases hm : s.board_saver.mode = SolverBoardSaving.Bitfield
  · obtain ⟨b0, hi⟩ := h.2.2.2 hm
    exact Inv_in_range_try b0 s hi mv
  · exact BoardSaver.in_range_of_mode _ _ hm

/-- A pass of the loops keeps the invariant of a run in mode Bitfield. -/
theorem store_step (ph ph1 : Phase) (s s1 : BoardSolver)
    (h : s.board_saver.mode = SolverBoardSaving.Bitfield → ∃ b0, Inv b0 s)
    (hstep : solve_step ph s = Step.next ph1 s1)
    (hmode : s1.board_saver.mode = s.board_saver.mode) :
    s1.board_saver.mode = SolverBoardSaving.Bitfield → ∃ b0, Inv b0 s1 := by
  intro hm
  obtain ⟨b0, hi⟩ := h (by rw [← hmode]; exact hm)
  exact ⟨b0, Inv_step b0 ph ph1 s s1 hi hstep⟩

theorem Returns_of_Run_any (ph ph1 : Phase) (s s1 : BoardSolver)
    (h : Run ph s ph1 s1) (hr : ∃ r s', Returns ph1 s1 r s') : ∃ r s', Returns ph s r s' := by
  obtain ⟨r, s', hr⟩ := hr
  exact ⟨r, s', Returns_of_Run _ _ _ _ _ _ h hr⟩

/-- The inner loop, entered with the move `mv` in the slot of the index, ends the run or
exhausts the scan. -/
theorem term_sweep (R C L d : Nat) (ht : TermTry R C L d) (w : Nat) :
    ∀ s mv, Slot R C L d s mv → mv.rank C + w = 4 * (R * C) →
      (∃ r s', Returns Phase.next_move s r s') ∨
      ∃ t, Run Phase.next_move s Phase.next_move t ∧ ScanEnd R C L s t := by
  induction w with
  | zero =>
    intro s mv hs hw
    have := rank_lt R C mv hs.2.2.2
    omega
  | succ w ih =>
    intro s mv hs hw
    obtain ⟨⟨hR, hC, hL, hM⟩, hd, hmv, hg⟩ := hs
    have hstep := solve_step_next s mv hmv (Dims_in_range R C L s ⟨hR, hC, hL, hM⟩)
    by_cases c : (s.find_next_move mv).1 = true
    · rw [if_pos c] at hstep
      have hg' : mv.InGrid s.board.n_rows s.board.n_cols := by rw [hR, hC]; exact hg
      obtain ⟨hn1, hn2⟩ := find_next_move_true s mv hg' c
      rw [hR, hC] at hn1
      rw [hC] at hn2
      have hidx : s.last_move_index < s.moves.length := by omega
      have hslot : Slot R C L d
          { s with moves := s.moves.set s.last_move_index (s.find_next_move mv).2 }
          (s.find_next_move mv).2 := by
        refine ⟨⟨hR, hC, by simp only [List.length_set]; exact hL,
          store_step _ _ _ _ hM hstep rfl⟩, hd, ?_, hn1⟩
        simp only
        exact List.getElem?_set_self hidx
      rcases ht _ _ hslot with hret | ⟨t, hrun, hdims, hi, htake⟩
      · left
        exact Returns_of_Run_any _ _ _ _ (Run_one _ _ _ _ hstep) hret
      · simp only at hi htake
        have hmt : t.moves[t.last_move_index]? = some (s.find_next_move mv).2 := by
          rw [hi, getElem?_of_take_eq _ _ _ htake]
          exact List.getElem?_set_self hidx
        rcases ih t _ ⟨hdims, by omega, hmt, hn1⟩ (by omega) with hret | ⟨t', hrun', hend⟩
        · left
          exact Returns_of_Run_any _ _ _ _
            (Run_trans _ _ _ _ _ _ (Run_one _ _ _ _ hstep) hrun) hret
        · right
          obtain ⟨hd', hi', htake', hex⟩ := hend
          refine ⟨t', Run_trans _ _ _ _ _ _ (Run_one _ _ _ _ hstep)
            (Run_trans _ _ _ _ _ _ hrun hrun'), hd', by omega, ?_, hex⟩
          rw [hi] at htake'
          rw [htake', take_of_take_succ_eq _ _ _ htake]
          exact take_set_of_le _ _ _ _ (Nat.le_refl _)
    · right
      have c' : (s.find_next_move mv).1 = false := by simpa using c
      exact ⟨s, Run.refl _ _, ⟨hR, hC, hL, hM⟩, rfl, rfl, mv, hmv, c'⟩

/-- Trying a move and then scanning on: `TermExplore` from `TermTry`. -/
theorem term_explore_of_try (R C L d : Nat) (ht : TermTry R C L d) : TermExplore R C L d := by
  intro s mv hs
  rcases ht s mv hs with hret | ⟨t, hrun, hdims, hi, htake⟩
  · exact Or.inl hret
  · obtain ⟨_, hd, hmv, hg⟩ := hs
    have hlt := rank_lt R C mv hg
    have hmt : t.moves[t.last_move_index]? = some mv := by
      rw [hi, getElem?_of_take_eq _ _ _ htake]; exact hmv
    rcases term_sweep R C L d ht (4 * (R * C) - mv.rank C) t mv ⟨hdims, by omega, hmt, hg⟩
        (by omega) with hret | ⟨t', hrun', hd', hi', htake', hex⟩
    · exact Or.inl (Returns_of_Run_any _ _ _ _ hrun hret)
    · right
      refine ⟨t', Run_trans _ _ _ _ _ _ hrun hrun', hd', by omega, ?_, hex⟩
      rw [hi] at htake'
      rw [htake', take_of_take_succ_eq _ _ _ htake]

/-- Trying the move of the slot: the pass ends the run, or fails, or goes one slot up, where
the search ends the run or comes back. -/
theorem term_try (R C L d : Nat) (ih : d = 0 ∨ ∃ d', d = d' + 1 ∧ TermExplore R C L d') :
    TermTry R C L d := by
  intro s mv hs
  obtain ⟨⟨hR, hC, hL, hM⟩, hd, hmv, hg⟩ := hs
  have hstep := solve_step_try s mv hmv (Dims_in_range_try R C L s ⟨hR, hC, hL, hM⟩ mv)
  have d1 := PegBoard.make_move_shape s.board mv false
  have d2 := PegBoard.make_move_shape (s.board.make_move mv false).2 mv true
  by_cases c1 :
      s.board_saver.check (s.board.make_move mv false).2.flattened_board = true
  · rw [if_pos c1] at hstep
    right
    exact ⟨_, Run_one _ _ _ _ hstep, ⟨by simp only; rw [d2.1, d1.1, hR],
      by simp only; rw [d2.2.1, d1.2.1, hC], hL, store_step _ _ _ _ hM hstep rfl⟩, rfl, rfl⟩
  · rw [if_neg c1] at hstep
    by_cases c2 : (s.board.make_move mv false).1 = true
    · rw [if_pos c2] at hstep
      by_cases c3 : s.last_move_index = s.moves.length - 1
      · rw [if_pos c3] at hstep
        left
        exact ⟨true, _, Phase.try_move, s, Run.refl _ _, hstep⟩
      · rw [if_neg c3] at hstep
        rcases ih with h0 | ⟨d', hd', hex⟩
        · omega
        · have hlt : s.last_move_index + 1 < s.moves.length := by omega
          have hRpos : 0 < R := by have := hg.1; have := hg.2.1; omega
          have hCpos : 0 < C := by have := hg.2.2.1; have := hg.2.2.2; omega
          have hslot : Slot R C L d'
              { s with board := (s.board.make_move mv false).2
                       last_move_index := s.last_move_index + 1
                       moves := s.moves.set (s.last_move_index + 1) first_move } first_move := by
            refine ⟨⟨by simp only; rw [d1.1, hR], by simp only; rw [d1.2.1, hC],
              by simp only [List.length_set]; exact hL, store_step _ _ _ _ hM hstep rfl⟩,
              by simp only; omega, ?_,
              first_move_InGrid _ _ hRpos hCpos⟩
            simp only
            exact List.getElem?_set_self hlt
          rcases hex _ _ hslot with hret | ⟨t, hrun, hdt, hit, htake, mv', hmv', hfn⟩
          · left
            exact Returns_of_Run_any _ _ _ _ (Run_one _ _ _ _ hstep) hret
          · right
            simp only at hit htake
            rw [take_set_of_le _ _ _ _ (Nat.le_refl _)] at htake
            have hprev : t.moves[t.last_move_index - 1]? = some mv := by
              rw [hit, Nat.add_sub_cancel, getElem?_of_take_eq _ _ _ htake]
              exact hmv
            have hstep3 := solve_step_next t mv' hmv' (Dims_in_range R C L t hdt)
            rw [if_neg (by rw [hfn]; decide), if_neg (by omega), hprev] at hstep3
            simp only at hstep3
            have d3 := PegBoard.make_move_shape t.board mv true
            refine ⟨_, Run_trans _ _ _ _ _ _ (Run_one _ _ _ _ hstep)
              (Run_trans _ _ _ _ _ _ hrun (Run_one _ _ _ _ hstep3)),
              ⟨by simp only; rw [d3.1, hdt.1], by simp only; rw [d3.2.1, hdt.2.1], hdt.2.2.1,
                store_step _ _ _ _ hdt.2.2.2 hstep3 (BoardSaver.save_mode _ _)⟩,
              by simp only; omega, htake⟩
    · rw [if_neg c2] at hstep
      right
      exact ⟨_, Run_one _ _ _ _ hstep, ⟨by simp only; rw [d1.1, hR],
        by simp only; rw [d1.2.1, hC], hL, store_step _ _ _ _ hM hstep rfl⟩, rfl, rfl⟩

/-- The search ends the run or exhausts the scan, whatever the number of slots above the
index. -/
theorem term_explore (R C L : Nat) : ∀ d, TermExplore R C L d := by
  intro d
  induction d with
  | zero => exact term_explore_of_try R C L 0 (term_try R C L 0 (Or.inl rfl))
  | succ d ih =>
    exact term_explore_of_try R C L (d + 1) (term_try R C L (d + 1) (Or.inr ⟨d, rfl, ih⟩))

/-- The loops of `solve_board`, entered at index 0 with a move of the grid in slot 0, return. -/
theorem solve_loop_returns (R C L : Nat) (s : BoardSolver) (mv : Move)
    (hs : Slot R C L (L - 1) s mv) (h0 : s.last_move_index = 0) :
    ∃ r s', Returns Phase.try_move s r s' := by
  rcases term_explore R C L (L - 1) s mv hs with hret | ⟨t, hrun, hdt, hi, _, mv', hmv', hfn⟩
  · exact hret
  · have hstep := solve_step_next t mv' hmv' (Dims_in_range R C L t hdt)
    rw [if_neg (by rw [hfn]; decide), if_pos (by omega)] at hstep
    exact ⟨false, _, Phase.next_move, t, hrun, hstep⟩

end BoardSolver

/-! ## Claims on the termination of the search -/

namespace BoardSolver

/-- A solver for a board of at least two pegs whose store holds the flattened values of the
board starts the loops at index 0 with the first move of the scan in slot 0. -/
theorem new_Slot (bad_alloc : Bool) (b : PegBoard) (mode : SolverBoardSaving) (s : BoardSolver)
    (hR : 0 < b.n_rows) (hC : 0 < b.n_cols) (hp : 2 ≤ b.count_pieces Piece.Peg)
    (hc : mode = SolverBoardSaving.Bitfield → b.Consistent)
    (hfit : store_fits mode b.n_positions)
    (hs : BoardSolver.construct bad_alloc b mode = .ok s) :
    Slot b.n_rows b.n_cols (b.count_pieces Piece.Peg - 1) (b.count_pieces Piece.Peg - 1 - 1)
        { s with solve_board_completed := true } first_move ∧
      s.solve_board_completed = false ∧ s.last_move_index = 0 := by
  have hinv : s.board_saver.mode = SolverBoardSaving.Bitfield →
      ∃ b0, Inv b0 { s with solve_board_completed := true } := by
    intro hm
    obtain ⟨sv, hsv, e⟩ := construct_eq bad_alloc b mode s (by omega) hs
    have hm' : sv.mode = SolverBoardSaving.Bitfield := by rw [e] at hm; exact hm
    have hmode := ((BoardSaver.construct_ok bad_alloc _ mode sv hsv).2.2.1 hm').1
    exact ⟨b, (Inv_new bad_alloc b mode s (hc hmode) hfit hp hs).1⟩
  obtain ⟨sv, hsv, rfl⟩ := construct_eq bad_alloc b mode s (by omega) hs
  refine ⟨⟨⟨rfl, rfl, by simp, hinv⟩, by simp only; omega, ?_, first_move_InGrid _ _ hR hC⟩,
    rfl, rfl⟩
  simp only
  rw [List.getElem?_replicate]
  rw [if_pos (by omega)]

/-- A run that returns gives the same result of `solve_loop` for all fuel from some amount
on. -/
theorem Returns_solve_loop_all (ph : Phase) (s s' : BoardSolver) (r : Bool)
    (h : Returns ph s r s') : ∃ fuel, ∀ k, solve_loop (fuel + k) ph s = .ok (r, s') := by
  obtain ⟨fuel, hf⟩ := Returns_solve_loop ph s s' r h
  exact ⟨fuel, fun k => solve_loop_fuel_mono fuel ph s (r, s') k hf⟩

end BoardSolver

theorem new_dims_pos (layout : String) (b : PegBoard) (hb : PegBoard.new layout = .ok b) :
    0 < b.n_rows ∧ 0 < b.n_cols := by
  obtain ⟨fi, fb, _, _, _, h3, _, h5, h6, _⟩ := new_eq_ok layout b hb
  omega

/-- Termination of the search where the store holds the flattened values of the board: for
every board accepted by the constructor with at least two pegs, in the modes None and Hashmap,
and in mode Bitfield on a board of fewer than 64 positions, whether or not the allocation of
the bitfield fails, the loops of `solve_board()` reach one of the two return statements after
finitely many passes: with enough fuel `solve_board` returns, and all larger amounts of fuel
give the same boolean and the same final state. -/
theorem solve_board_terminates_of_store_fits (bad_alloc : Bool) (layout : String) (b : PegBoard)
    (mode : SolverBoardSaving) (s : BoardSolver) (hb : PegBoard.new layout = .ok b)
    (hp : 2 ≤ b.count_pieces Piece.Peg) (hfit : store_fits mode b.get_n_positions)
    (hs : BoardSolver.construct bad_alloc b mode = .ok s) :
    ∃ fuel r s', ∀ k, s.solve_board (fuel + k) = .ok (r, s') := by
  obtain ⟨hR, hC⟩ := new_dims_pos layout b hb
  obtain ⟨hslot, hcompl, h0⟩ := BoardSolver.new_Slot bad_alloc b mode s hR hC hp
    (fun hm => new_Consistent layout b hb (Nat.le_of_lt (hfit hm))) hfit hs
  obtain ⟨r, s', hret⟩ := BoardSolver.solve_loop_returns _ _ _ _ _ hslot h0
  obtain ⟨fuel, hf⟩ := BoardSolver.Returns_solve_loop_all _ _ _ _ hret
  refine ⟨fuel, r, s', fun k => ?_⟩
  unfold BoardSolver.solve_board
  rw [hcompl]
  simp only [Bool.false_eq_true, if_false]
  exact hf k

/-- An instance of `solve_board_terminates_of_store_fits`: the board `"110"` has two pegs, and
`solve_board` returns on it in mode Bitfield, with the bitfield allocated or not. -/
theorem solve_board_terminates_of_store_fits_example (bad_alloc : Bool) :
    PegBoard.new "110" = .ok board_110 ∧ 2 ≤ board_110.count_pieces Piece.Peg ∧
      ∃ s, BoardSolver.construct bad_alloc board_110 SolverBoardSaving.Bitfield = .ok s ∧
        ∃ fuel r s', ∀ k, s.solve_board (fuel + k) = .ok (r, s') := by
  have hs : ∃ s, BoardSolver.construct bad_alloc board_110 SolverBoardSaving.Bitfield = .ok s := by
    cases bad_alloc
    · exact ⟨_, rfl⟩
    · exact ⟨_, rfl⟩
  obtain ⟨s, hs⟩ := hs
  exact ⟨board_110_new, by decide, s, hs,
    solve_board_terminates_of_store_fits bad_alloc "110" board_110 SolverBoardSaving.Bitfield s
      board_110_new (by decide) (fun _ => by decide) hs⟩

/-! ## Boards of fewer than two pegs -/

/-- C15 fails on boards of fewer than two pegs. The layout `"0"` (no peg) is accepted by the
constructor of `PegBoard`, and the constructor of `BoardSolver` throws on its board in every
mode: `n_pegs - 1` wraps around and `resize` fails. The layout `"1"` (one peg) is accepted,
the solver constructed for it has an empty move stack, and `solve_board` reads `moves[0]` out
of range in its first pass, in every mode: no amount of fuel gives a result. -/
theorem solve_board_below_two_pegs :
    (PegBoard.new "0" = .ok board_0 ∧ board_0.count_pieces Piece.Peg = 0 ∧
      ∀ mode, BoardSolver.new board_0 mode = .error SolverError.length_error) ∧
    (PegBoard.new "1" = .ok board_1 ∧ board_1.count_pieces Piece.Peg = 1 ∧
      ∀ mode, ∃ s, BoardSolver.new board_1 mode = .ok s ∧ s.get_moves = [] ∧
        (∀ fuel, s.solve_board (fuel + 1) = .error SolverError.out_of_range) ∧
        ∀ fuel r, s.solve_board fuel ≠ .ok r) := by
  refine ⟨⟨by decide, by decide, fun mode => by cases mode <;> decide⟩,
    by decide, by decide, fun mode => ?_⟩
  have hex : ∃ sv, BoardSolver.new board_1 mode = .ok
      { moves := List.replicate (board_1.count_pieces Piece.Peg - 1) first_move
        last_move_index := 0
        input_board := board_1
        board := board_1
        board_saver := sv
        solve_board_completed := false
        solve_board_status := false } := by
    cases mode
    · exact ⟨_, rfl⟩
    · exact ⟨_, rfl⟩
    · exact ⟨_, rfl⟩
  obtain ⟨sv, hsv⟩ := hex
  have hstep : ∀ fuel, BoardSolver.solve_board (fuel + 1)
      { moves := List.replicate (board_1.count_pieces Piece.Peg - 1) first_move
        last_move_index := 0
        input_board := board_1
        board := board_1
        board_saver := sv
        solve_board_completed := false
        solve_board_status := false } = .error SolverError.out_of_range := by
    intro fuel
    rfl
  refine ⟨_, hsv, rfl, hstep, ?_⟩
  intro fuel r h
  cases fuel with
  | zero => cases h
  | succ n => rw [hstep n] at h; cases h

/-! ## Boards without a legal move -/

namespace PegBoard

theorem count_pos_of_get (b : PegBoard) (p : Position) (x : Piece) (h : b.get p = some x) :
    1 ≤ b.count_pieces x := by
  by_cases hx : x = Piece.Hole
  · have := count_pieces_set b p Piece.Peg x x h
    subst hx
    simp at this
    omega
  · have := count_pieces_set b p Piece.Hole x x h
    have hne : ¬ Piece.Hole = x := fun e => hx e.symm
    simp [hne] at this
    omega

theorem no_move_of_no_hole (b : PegBoard) (h : b.count_pieces Piece.Hole = 0) (m : Move) :
    (b.make_move m false).1 = false := by
  cases hm : (b.make_move m false).1 with
  | false => rfl
  | true =>
    obtain ⟨_, _, _, _, h5⟩ := (make_move_true_iff b m false).mp hm
    have := count_pos_of_get b _ _ h5
    simp only [piece_target, Bool.false_eq_true, if_false] at this
    omega

theorem position_on_board_iff (b : PegBoard) (p : Position) :
    b.position_on_board p = true ↔
      0 ≤ p.col ∧ p.col < (b.n_cols : Int) ∧ 0 ≤ p.row ∧ p.row < (b.n_rows : Int) := by
  unfold position_on_board
  simp only [Bool.and_eq_true, decide_eq_true_eq, ge_iff_le]
  tauto

theorem no_move_of_no_adjacent_pegs (b : PegBoard) (h : b.no_adjacent_pegs) (m : Move) :
    (b.make_move m false).1 = false := by
  cases hm : (b.make_move m false).1 with
  | false => rfl
  | true =>
    exfalso
    obtain ⟨h1, h2, h3, h4, _⟩ := (make_move_true_iff b m false).mp hm
    simp only [piece_other, Bool.false_eq_true, if_false] at h3 h4
    rw [position_on_board_iff] at h1 h2
    cases m with
    | mk pos dir =>
      cases pos with
      | mk row col =>
        simp only at h1 h3
        cases dir with
        | Up =>
          simp only [get_move_positions] at h2 h4
          have key := h (row - 1).toNat (by omega) col.toNat (by omega)
          have e1 : (((row - 1).toNat : Nat) : Int) = row - 1 := by omega
          have e2 : ((col.toNat : Nat) : Int) = col := by omega
          rw [e1, e2] at key
          have e3 : row - 1 + 1 = row := by omega
          rw [e3] at key
          exact (key h4).2 h3
        | Right =>
          simp only [get_move_positions] at h2 h4
          have key := h row.toNat (by omega) col.toNat (by omega)
          have e1 : ((row.toNat : Nat) : Int) = row := by omega
          have e2 : ((col.toNat : Nat) : Int) = col := by omega
          rw [e1, e2] at key
          exact (key h3).1 h4
        | Down =>
          simp only [get_move_positions] at h2 h4
          have key := h row.toNat (by omega) col.toNat (by omega)
          have e1 : ((row.toNat : Nat) : Int) = row := by omega
          have e2 : ((col.toNat : Nat) : Int) = col := by omega
          rw [e1, e2] at key
          exact (key h3).2 h4
        | Left =>
          simp only [get_move_positions] at h2 h4
          have key := h row.toNat (by omega) (col - 1).toNat (by omega)
          have e1 : ((row.toNat : Nat) : Int) = row := by omega
          have e2 : (((col - 1).toNat : Nat) : Int) = col - 1 := by omega
          rw [e1, e2] at key
          have e3 : col - 1 + 1 = col := by omega
          rw [e3] at key
          exact (key h4).1 h3

end PegBoard

namespace BoardSolver

/-- On a board without a legal move the scan at index 0 runs to its end and the solver
returns false. -/
theorem stuck_returns (b : PegBoard) (hno : ∀ m, (b.make_move m false).1 = false) (w : Nat) :
    ∀ s mv, Stuck b s mv → mv.rank b.n_cols + w = 4 * (b.n_rows * b.n_cols) →
      ∃ s', Returns Phase.try_move s false s' := by
  induction w with
  | zero =>
    intro s mv hs hw
    have := rank_lt _ _ mv hs.2.2.2.2
    omega
  | succ w ih =>
    intro s mv ⟨h0, hb, hstore, hmv, hg⟩ hw
    have hmv' : s.moves[s.last_move_index]? = some mv := by rw [h0]; exact hmv
    have hlen : 0 < s.moves.length := by
      rcases Nat.eq_zero_or_pos s.moves.length with e | e
      · rw [List.length_eq_zero] at e; rw [e] at hmv; simp at hmv
      · exact e
    have hfalse : (s.board.make_move mv false).1 = false := by rw [hb]; exact hno mv
    have hsame : (s.board.make_move mv false).2 = s.board :=
      PegBoard.make_move_false s.board mv false hfalse
    obtain ⟨hin, hcheck⟩ := BoardSaver.checkBoardSaved_some _ _ _ hstore
    have hin' : s.board_saver.in_range s.board.flattened_board := by rw [hb]; exact hin
    have hstep := solve_step_try s mv hmv' (by rw [hsame]; exact hin')
    rw [hsame, if_neg (by rw [hb, hcheck]; decide), if_neg (by rw [hfalse]; decide)] at hstep
    have hstep2 := solve_step_next { s with board := s.board } mv hmv' hin'
    by_cases c : (s.find_next_move mv).1 = true
    · have c' : (({ s with board := s.board } : BoardSolver).find_next_move mv).1 = true := c
      rw [if_pos c'] at hstep2
      have hg' : mv.InGrid s.board.n_rows s.board.n_cols := by rw [hb]; exact hg
      obtain ⟨hn1, hn2⟩ := find_next_move_true s mv hg' c
      rw [hb] at hn1 hn2
      obtain ⟨s', hret⟩ := ih
        { s with board := s.board
                 moves := s.moves.set s.last_move_index (s.find_next_move mv).2 }
        (s.find_next_move mv).2
        ⟨h0, hb, hstore, by simp only; rw [h0]; exact List.getElem?_set_self hlen, hn1⟩
        (by omega)
      exact ⟨s', Returns_of_Run _ _ _ _ _ _
        (Run_trans _ _ _ _ _ _ (Run_one _ _ _ _ hstep) (Run_one _ _ _ _ hstep2)) hret⟩
    · have c' : ¬ (({ s with board := s.board } : BoardSolver).find_next_move mv).1 = true := c
      rw [if_neg c', if_pos h0] at hstep2
      exact ⟨_, Phase.next_move, _, Run_one _ _ _ _ hstep, hstep2⟩

end BoardSolver

/-- The store constructed for the board of a layout reads and writes the flattened value of
the board in range, in mode Bitfield when the board has fewer than 64 positions. -/
theorem construct_in_range (bad_alloc : Bool) (layout : String) (b : PegBoard)
    (mode : SolverBoardSaving) (sv : BoardSaver) (hb : PegBoard.new layout = .ok b)
    (hfit : store_fits mode b.get_n_positions)
    (hsv : BoardSaver.construct bad_alloc b.get_n_positions mode = .ok sv) :
    sv.in_range b.flattened_board := by
  intro hm
  have hmode := ((BoardSaver.construct_ok bad_alloc _ mode sv hsv).2.2.1 hm).1
  exact BoardSolver.in_range_of_Covers sv b b.n_positions
    (BoardSaver.Covers_construct bad_alloc _ mode sv hsv hfit) rfl
    (new_Consistent layout b hb (Nat.le_of_lt (hfit hmode))) hm

/-- No legal first move means failure, where the store holds the flattened values of the
board. On a board accepted by the constructor with at least two pegs on which no move is a
legal forward move, `solve_board()` returns false in the modes None and Hashmap, and in mode
Bitfield on a board of fewer than 64 positions, whether or not the allocation of the bitfield
fails (with enough fuel, and then for all larger amounts of fuel). A board without a Hole has
no legal move, and neither has a board on which no two pegs are next to each other in a row or
in a column. -/
theorem solve_board_no_legal_move_of_store_fits (bad_alloc : Bool) (layout : String)
    (b : PegBoard) (mode : SolverBoardSaving) (s : BoardSolver)
    (hb : PegBoard.new layout = .ok b) (hp : 2 ≤ b.count_pieces Piece.Peg)
    (hfit : store_fits mode b.get_n_positions)
    (hs : BoardSolver.construct bad_alloc b mode = .ok s) :
    (b.count_pieces Piece.Hole = 0 → ∀ m, (b.make_move m false).1 = false) ∧
    (b.no_adjacent_pegs → ∀ m, (b.make_move m false).1 = false) ∧
    ((∀ m, (b.make_move m false).1 = false) →
      ∃ fuel s', ∀ k, s.solve_board (fuel + k) = .ok (false, s')) := by
  refine ⟨PegBoard.no_move_of_no_hole b, PegBoard.no_move_of_no_adjacent_pegs b, fun hno => ?_⟩
  obtain ⟨hR, hC⟩ := new_dims_pos layout b hb
  obtain ⟨sv, hsv, hnew⟩ := BoardSolver.construct_eq bad_alloc b mode s (by omega) hs
  have hstuck : BoardSolver.Stuck b { s with solve_board_completed := true } first_move := by
    rw [hnew]
    refine ⟨rfl, rfl, ?_, ?_, first_move_InGrid _ _ hR hC⟩
    · simp only
      rw [BoardSaver.checkBoardSaved_eq _ _
        (construct_in_range bad_alloc layout b mode sv hb hfit hsv),
        BoardSaver.check_construct bad_alloc _ mode sv hsv]
    · simp only
      rw [List.getElem?_replicate, if_pos (by omega)]
  obtain ⟨s', hret⟩ := BoardSolver.stuck_returns b hno (4 * (b.n_rows * b.n_cols)) _ _ hstuck
    (by rw [first_move_rank]; omega)
  obtain ⟨fuel, hf⟩ := BoardSolver.Returns_solve_loop_all _ _ _ _ hret
  refine ⟨fuel, s', fun k => ?_⟩
  unfold BoardSolver.solve_board
  rw [hnew]
  simp only [Bool.false_eq_true, if_false]
  rw [hnew] at hf
  exact hf k

/-- An instance of `solve_board_no_legal_move_of_store_fits` on the two boards of the test:
four rows of `"1111"` have no Hole, no two pegs of `"01010101010"` are adjacent, and
`solve_board` returns false on the first in mode Hashmap and on the second in mode Bitfield. -/
theorem solve_board_no_legal_move_of_store_fits_example :
    (PegBoard.new "1111\n1111\n1111\n1111" = .ok board_16 ∧
      board_16.count_pieces Piece.Hole = 0 ∧
      ∃ s, BoardSolver.new board_16 SolverBoardSaving.Hashmap = .ok s ∧
        ∃ fuel s', ∀ k, s.solve_board (fuel + k) = .ok (false, s')) ∧
    (PegBoard.new "01010101010" = .ok board_alternating ∧
      board_alternating.no_adjacent_pegs ∧
      ∃ s, BoardSolver.new board_alternating SolverBoardSaving.Bitfield = .ok s ∧
        ∃ fuel s', ∀ k, s.solve_board (fuel + k) = .ok (false, s')) :=
  have h16 : PegBoard.new "1111\n1111\n1111\n1111" = .ok board_16 := by decide
  have halt : PegBoard.new "01010101010" = .ok board_alternating := by decide
  have t16 := solve_board_no_legal_move_of_store_fits false "1111\n1111\n1111\n1111" board_16
    SolverBoardSaving.Hashmap _ h16 (by decide) (fun e => absurd e (by decide)) rfl
  have talt := solve_board_no_legal_move_of_store_fits false "01010101010" board_alternating
    SolverBoardSaving.Bitfield _ halt (by decide) (fun _ => by decide) rfl
  ⟨⟨h16, by decide, _, rfl, t16.2.2 (t16.1 (by decide))⟩,
    ⟨halt, by decide, _, rfl, talt.2.2 (talt.2.1 (by decide))⟩⟩

/-! ## The invariant of the move stack on boards of at most 64 positions -/

namespace BoardSolver

theorem solve_trace_Inv (b0 : PegBoard) (n : Nat) :
    ∀ (ph ph' : Phase) (s t : BoardSolver), Inv b0 s → solve_trace n ph s = some (ph', t) →
      Inv b0 t := by
  induction n with
  | zero =>
    intro ph ph' s t hi h
    simp only [solve_trace, Option.some.injEq, Prod.mk.injEq] at h
    rw [← h.2]; exact hi
  | succ n ih =>
    intro ph ph' s t hi h
    unfold solve_trace at h
    cases hs : solve_step ph s with
    | next ph1 s1 => rw [hs] at h; exact ih _ _ _ _ (Inv_step b0 _ _ _ _ hi hs) h
    | done st s1 => rw [hs] at h; cases h
    | fault => rw [hs] at h; cases h

end BoardSolver

/-- The invariant of the move stack where the bounds hold: on a board of at most 64 positions
(fewer than 64 in mode Bitfield) and at least two pegs, in every saving mode and whether or
not the allocation of the bitfield fails, after any number of passes of the loops of
`solve_board()` the index is inside the move stack, the moves below the index are legal one
after the other from the input board and give the working board, and the reversed `make_move`
of the move below the index returns true. -/
theorem solve_board_stack_of_le_64 (bad_alloc : Bool) (layout : String) (b : PegBoard)
    (mode : SolverBoardSaving) (s t : BoardSolver) (n : Nat) (ph : BoardSolver.Phase)
    (hb : PegBoard.new layout = .ok b) (h64 : b.get_n_positions ≤ 64)
    (hfit : store_fits mode b.get_n_positions) (hp : 2 ≤ b.count_pieces Piece.Peg)
    (hs : BoardSolver.construct bad_alloc b mode = .ok s)
    (ht : BoardSolver.solve_trace n BoardSolver.Phase.try_move
      { s with solve_board_completed := true } = some (ph, t)) :
    t.last_move_index < t.moves.length ∧
      replay_moves b (t.moves.take t.last_move_index) = (true, t.board) ∧
      ∀ prev, 0 < t.last_move_index → t.moves[t.last_move_index - 1]? = some prev →
        (t.board.make_move prev true).1 = true := by
  obtain ⟨hinv, _⟩ :=
    BoardSolver.Inv_new bad_alloc b mode s (new_Consistent layout b hb h64) hfit hp hs
  have hi := BoardSolver.solve_trace_Inv b n _ _ _ _ hinv ht
  refine ⟨hi.index, hi.path, ?_⟩
  intro prev hpos hprev
  have hidx : t.last_move_index - 1 + 1 = t.last_move_index := by omega
  have htake := take_succ_eq t.moves (t.last_move_index - 1) prev hprev
  rw [hidx] at htake
  have hpath := hi.path
  rw [htake, replay_moves_append] at hpath
  simp only [Prod.mk.injEq, Bool.and_eq_true] at hpath
  obtain ⟨⟨_, hlegal⟩, hboard⟩ := hpath
  have hundo := PegBoard.make_move_undo _ prev hlegal
  rw [← hboard]
  exact hundo.1

/-! ## The flattened positions follow the scan order -/

namespace PegBoard

end PegBoard

/-! ## The cells of the board and their flattened positions -/

namespace PegBoard

end PegBoard

/-! ## Claims on the flattened value -/

namespace PegBoard

end PegBoard

namespace BoardSolver

theorem scan_limit_try (C index j : Nat) (mv : Move) :
    scan_limit C Phase.try_move index j mv = mv.rank C := by
  simp [scan_limit]

theorem scan_limit_next_eq (C index : Nat) (mv : Move) :
    scan_limit C Phase.next_move index index mv = mv.rank C + 1 := by
  simp [scan_limit]

theorem scan_limit_next_ne (C index j : Nat) (mv : Move) (h : j ≠ index) :
    scan_limit C Phase.next_move index j mv = mv.rank C := by
  simp [scan_limit, h]

/-- After the trial of the move `mv` in the slot of the index, which did not lead on, the moves
up to `mv` are passed in this slot. -/
theorem handled_after_try (b0 : PegBoard) (s : BoardSolver) (mv : Move)
    (hs : Searched b0 Phase.try_move s) (hmv : s.moves[s.last_move_index]? = some mv)
    (hh : Handled s.board (s.moves.length - 1 - s.last_move_index) mv) :
    ∀ (j : Nat) (mv' m' : Move), j ≤ s.last_move_index → s.moves[j]? = some mv' →
      m'.InGrid b0.n_rows b0.n_cols →
      m'.rank b0.n_cols < scan_limit b0.n_cols Phase.next_move s.last_move_index j mv' →
      Handled (replay_moves b0 (s.moves.take j)).2 (s.moves.length - 1 - j) m' := by
  intro j mv' m' hj hmvj hm' hlim
  by_cases hjeq : j = s.last_move_index
  · subst hjeq
    rw [hmv] at hmvj
    cases hmvj
    rw [scan_limit_next_eq] at hlim
    by_cases hlt : m'.rank b0.n_cols < mv.rank b0.n_cols
    · exact hs.handled _ mv m' hj hmv hm' (by rw [scan_limit_try]; exact hlt)
    · have e : m' = mv :=
        rank_inj _ _ _ _ hm' (hs.ingrid _ mv (Nat.le_refl _) hmv) (by omega)
      rw [e, hs.inv.path]
      exact hh
  · rw [scan_limit_next_ne _ _ _ _ hjeq] at hlim
    exact hs.handled j mv' m' hj hmvj hm' (by rw [scan_limit_try]; exact hlim)

/-- A pass through the head of the outer loop keeps the invariant `Searched`. -/
theorem Searched_try (b0 : PegBoard) (ph' : Phase) (s s' : BoardSolver)
    (hs : Searched b0 Phase.try_move s)
    (hstep : solve_step Phase.try_move s = Step.next ph' s') : Searched b0 ph' s' := by
  have hinv' := Inv_step b0 _ _ _ _ hs.inv hstep
  have hinv := hs.inv
  have hidx := hinv.index
  have hL := hinv.length
  have hmv : s.moves[s.last_move_index]? = some s.moves[s.last_move_index] :=
    List.getElem?_eq_getElem hidx
  generalize s.moves[s.last_move_index] = mv at hmv
  have hg := hs.ingrid _ mv (Nat.le_refl _) hmv
  obtain ⟨hshape, hcons, hcount⟩ := Inv_board b0 s hinv
  have hfresh : s.board_saver.check s.board.flattened_board = false := by
    have := hinv.fresh s.last_move_index (Nat.le_refl _)
    rwa [hinv.path] at this
  have hshape' : (s.board.make_move mv false).2.SameShape b0 :=
    PegBoard.SameShape_trans _ _ _ (PegBoard.SameShape_make_move s.board mv false) hshape
  have hcons' : (s.board.make_move mv false).2.Consistent :=
    PegBoard.Consistent_make_move s.board mv false hcons
  rw [solve_step_try s mv hmv (Inv_in_range_try b0 s hinv mv)] at hstep
  by_cases c1 :
      s.board_saver.check (s.board.make_move mv false).2.flattened_board = true
  · rw [if_pos c1] at hstep
    simp only [Step.next.injEq] at hstep
    obtain ⟨rfl, rfl⟩ := hstep
    have hsucc : (s.board.make_move mv false).1 = true := by
      cases hsc : (s.board.make_move mv false).1 with
      | true => rfl
      | false =>
        rw [PegBoard.make_move_false s.board mv false hsc, hfresh] at c1
        cases c1
    have hh : Handled s.board (s.moves.length - 1 - s.last_move_index) mv := by
      intro _
      have h1 := hs.sound _ hshape' hcons' c1
      have h2 := PegBoard.count_pegs_make_move s.board mv hsucc
      have e : (s.board.make_move mv false).2.count_pieces Piece.Peg - 1
          = s.moves.length - 1 - s.last_move_index := by omega
      rwa [e] at h1
    exact ⟨hinv', hs.sound, hs.origin, hs.clean, hs.ingrid, handled_after_try b0 s mv hs hmv hh⟩
  · rw [if_neg c1] at hstep
    by_cases c2 : (s.board.make_move mv false).1 = true
    · rw [if_pos c2] at hstep
      by_cases c3 : s.last_move_index = s.moves.length - 1
      · rw [if_pos c3] at hstep; cases hstep
      · rw [if_neg c3] at hstep
        simp only [Step.next.injEq] at hstep
        obtain ⟨rfl, rfl⟩ := hstep
        have hlt : s.last_move_index + 1 < s.moves.length := by omega
        have hRpos : 0 < b0.n_rows := by have := hg.1; have := hg.2.1; omega
        have hCpos : 0 < b0.n_cols := by have := hg.2.2.1; have := hg.2.2.2; omega
        refine ⟨hinv', hs.sound, hs.origin, hs.clean, ?_, ?_⟩
        · intro j mv' hj hmvj
          simp only at hj hmvj
          by_cases hjeq : j = s.last_move_index + 1
          · subst hjeq
            rw [List.getElem?_set_self hlt] at hmvj
            cases hmvj
            exact first_move_InGrid _ _ hRpos hCpos
          · rw [List.getElem?_set_ne (fun e => hjeq e.symm)] at hmvj
            exact hs.ingrid j mv' (by omega) hmvj
        · intro j mv' m' hj hmvj hm' hlim
          simp only at hj hmvj hlim ⊢
          rw [scan_limit_try] at hlim
          by_cases hjeq : j = s.last_move_index + 1
          · subst hjeq
            rw [List.getElem?_set_self hlt] at hmvj
            cases hmvj
            rw [first_move_rank] at hlim
            omega
          · rw [List.getElem?_set_ne (fun e => hjeq e.symm)] at hmvj
            rw [take_set_of_le _ _ _ _ hj, List.length_set]
            exact hs.handled j mv' m' (by omega) hmvj hm' (by rw [scan_limit_try]; exact hlim)
    · rw [if_neg c2] at hstep
      simp only [Step.next.injEq] at hstep
      obtain ⟨rfl, rfl⟩ := hstep
      have hh : Handled s.board (s.moves.length - 1 - s.last_move_index) mv :=
        fun h => absurd h c2
      exact ⟨hinv', hs.sound, hs.origin, hs.clean, hs.ingrid,
        handled_after_try b0 s mv hs hmv hh⟩

theorem Clean_save (sv : BoardSaver) (v : Nat) (h : sv.Clean) : (sv.save v).Clean := by
  unfold BoardSaver.Clean BoardSaver.save at *
  cases hm : sv.mode <;> simp [hm] at h ⊢ <;> simp [h, hm]

theorem Clean_construct (bad_alloc : Bool) (capacity : Nat) (mode : SolverBoardSaving)
    (sv : BoardSaver) (h : BoardSaver.construct bad_alloc capacity mode = .ok sv) :
    sv.Clean := by
  obtain ⟨h1, h2, _⟩ := BoardSaver.construct_ok bad_alloc capacity mode sv h
  exact ⟨fun _ => h1, fun _ => h2⟩

/-- In a store that uses only the container of its mode, the values held are those for which
`checkBoardSaved` returns true. -/
theorem holds_iff_check (sv : BoardSaver) (h : sv.Clean) (v : Nat) :
    sv.holds v ↔ sv.check v = true := by
  unfold BoardSaver.Clean at h
  unfold BoardSaver.holds BoardSaver.check
  cases hm : sv.mode <;> simp [hm] at h ⊢ <;> simp [h]

/-- A pass through the inner loop keeps the invariant `Searched`. -/
theorem Searched_next (b0 : PegBoard) (ph' : Phase) (s s' : BoardSolver)
    (hs : Searched b0 Phase.next_move s)
    (hstep : solve_step Phase.next_move s = Step.next ph' s') : Searched b0 ph' s' := by
  have hinv' := Inv_step b0 _ _ _ _ hs.inv hstep
  have hinv := hs.inv
  have hidx := hinv.index
  have hL := hinv.length
  have hmv : s.moves[s.last_move_index]? = some s.moves[s.last_move_index] :=
    List.getElem?_eq_getElem hidx
  generalize s.moves[s.last_move_index] = mv at hmv
  have hg := hs.ingrid _ mv (Nat.le_refl _) hmv
  obtain ⟨hshape, hcons, hcount⟩ := Inv_board b0 s hinv
  have hg' : mv.InGrid s.board.n_rows s.board.n_cols := by
    rw [hshape.n_rows, hshape.n_cols]; exact hg
  rw [solve_step_next s mv hmv (Inv_in_range b0 s hinv)] at hstep
  by_cases c : (s.find_next_move mv).1 = true
  · rw [if_pos c] at hstep
    simp only [Step.next.injEq] at hstep
    obtain ⟨rfl, rfl⟩ := hstep
    obtain ⟨hn1, hn2⟩ := find_next_move_true s mv hg' c
    rw [hshape.n_rows, hshape.n_cols] at hn1
    rw [hshape.n_cols] at hn2
    refine ⟨hinv', hs.sound, hs.origin, hs.clean, ?_, ?_⟩
    · intro j mv' hj hmvj
      simp only at hj hmvj
      by_cases hjeq : j = s.last_move_index
      · subst hjeq
        rw [List.getElem?_set_self hidx] at hmvj
        cases hmvj
        exact hn1
      · rw [List.getElem?_set_ne (fun e => hjeq e.symm)] at hmvj
        exact hs.ingrid j mv' hj hmvj
    · intro j mv' m' hj hmvj hm' hlim
      simp only at hj hmvj hlim ⊢
      rw [scan_limit_try] at hlim
      rw [take_set_of_le _ _ _ _ hj, List.length_set]
      by_cases hjeq : j = s.last_move_index
      · subst hjeq
        rw [List.getElem?_set_self hidx] at hmvj
        cases hmvj
        exact hs.handled _ mv m' hj hmv hm' (by rw [scan_limit_next_eq]; omega)
      · rw [List.getElem?_set_ne (fun e => hjeq e.symm)] at hmvj
        exact hs.handled j mv' m' hj hmvj hm'
          (by rw [scan_limit_next_ne _ _ _ _ hjeq]; exact hlim)
  · rw [if_neg c] at hstep
    have hfn : (s.find_next_move mv).1 = false := by simpa using c
    have hlast := find_next_move_false s mv hg' hfn
    rw [hshape.n_rows, hshape.n_cols] at hlast
    by_cases c0 : s.last_move_index = 0
    · rw [if_pos c0] at hstep; cases hstep
    · rw [if_neg c0] at hstep
      cases hp : s.moves[s.last_move_index - 1]? with
      | none => rw [hp] at hstep; cases hstep
      | some prev =>
        rw [hp] at hstep
        simp only [Step.next.injEq] at hstep
        obtain ⟨rfl, rfl⟩ := hstep
        have hall : ∀ m : Move, m.InGrid s.board.n_rows s.board.n_cols →
            Handled s.board (s.moves.length - 1 - s.last_move_index) m := by
          intro m hm
          rw [hshape.n_rows, hshape.n_cols] at hm
          have hr := rank_lt _ _ m hm
          have := hs.handled _ mv m (Nat.le_refl _) hmv hm
            (by rw [scan_limit_next_eq]; omega)
          rwa [hinv.path] at this
        have hns := not_Solvable_of_Handled s.board _ hall
        have hd : s.moves.length - 1 - s.last_move_index + 1
            = s.board.count_pieces Piece.Peg - 1 := by omega
        rw [hd] at hns
        have hidx1 : s.last_move_index - 1 + 1 = s.last_move_index := by omega
        have htake := take_succ_eq s.moves (s.last_move_index - 1) prev hp
        rw [hidx1] at htake
        have hpath := hinv.path
        rw [htake, replay_moves_append] at hpath
        simp only [Prod.mk.injEq, Bool.and_eq_true] at hpath
        obtain ⟨⟨_, hlegal⟩, hboard⟩ := hpath
        refine ⟨hinv', ?_, ?_, Clean_save _ _ hs.clean, ?_, ?_⟩
        · intro c' hcs hcc hchk
          rcases (BoardSaver.check_save _ _ _).mp hchk with ⟨_, he⟩ | he
          · have hs2 : c'.SameShape s.board :=
              PegBoard.SameShape_trans _ _ _ hcs (PegBoard.SameShape_symm _ _ hshape)
            have hget := PegBoard.get_eq_of_flattened_eq _ _ hs2 hcc hcons he
            have hceq := PegBoard.eq_of_get_eq _ _ hs2 hget he
            rw [hceq]
            exact hns
          · exact hs.sound c' hcs hcc he
        · intro v hchk
          rcases (BoardSaver.check_save _ _ _).mp hchk with ⟨_, he⟩ | he
          · exact ⟨s.board, hshape, hcons, he.symm⟩
          · exact hs.origin v he
        · intro j mv' hj hmvj
          simp only at hj hmvj
          exact hs.ingrid j mv' (by omega) hmvj
        · intro j mv' m' hj hmvj hm' hlim
          simp only at hj hmvj hlim ⊢
          by_cases hjeq : j = s.last_move_index - 1
          · subst hjeq
            rw [hp] at hmvj
            cases hmvj
            rw [scan_limit_next_eq] at hlim
            by_cases hlt : m'.rank b0.n_cols < prev.rank b0.n_cols
            · exact hs.handled _ prev m' (by omega) hp hm'
                (by rw [scan_limit_next_ne _ _ _ _ (by omega)]; exact hlt)
            · have e : m' = prev :=
                rank_inj _ _ _ _ hm' (hs.ingrid _ prev (by omega) hp) (by omega)
              rw [e]
              intro _
              rw [hboard]
              have e2 : s.moves.length - 1 - (s.last_move_index - 1)
                  = s.board.count_pieces Piece.Peg - 1 := by omega
              rw [e2]
              exact hns
          · rw [scan_limit_next_ne _ _ _ _ hjeq] at hlim
            exact hs.handled j mv' m' (by omega) hmvj hm'
              (by rw [scan_limit_next_ne _ _ _ _ (by omega)]; exact hlim)

theorem Searched_step (b0 : PegBoard) (ph ph' : Phase) (s s' : BoardSolver)
    (hs : Searched b0 ph s) (hstep : solve_step ph s = Step.next ph' s') :
    Searched b0 ph' s' := by
  cases ph with
  | try_move => exact Searched_try b0 ph' s s' hs hstep
  | next_move => exact Searched_next b0 ph' s s' hs hstep

theorem solve_trace_Searched (b0 : PegBoard) (n : Nat) :
    ∀ (ph ph' : Phase) (s t : BoardSolver), Searched b0 ph s →
      solve_trace n ph s = some (ph', t) → Searched b0 ph' t := by
  induction n with
  | zero =>
    intro ph ph' s t hi h
    simp only [solve_trace, Option.some.injEq, Prod.mk.injEq] at h
    obtain ⟨rfl, rfl⟩ := h
    exact hi
  | succ n ih =>
    intro ph ph' s t hi h
    unfold solve_trace at h
    cases hs : solve_step ph s with
    | next ph1 s1 => rw [hs] at h; exact ih _ _ _ _ (Searched_step b0 _ _ _ _ hi hs) h
    | done st s1 => rw [hs] at h; cases h
    | fault => rw [hs] at h; cases h

/-- A run that returns has come, pass by pass, to a state whose pass returns. -/
theorem solve_loop_trace (fuel : Nat) :
    ∀ (ph : Phase) (s s' : BoardSolver) (r : Bool), solve_loop fuel ph s = .ok (r, s') →
      ∃ n ph1 t, solve_trace n ph s = some (ph1, t) ∧ solve_step ph1 t = Step.done r s' := by
  induction fuel with
  | zero => intro ph s s' r h; simp [solve_loop] at h
  | succ k ih =>
    intro ph s s' r h
    unfold solve_loop at h
    cases hs : solve_step ph s with
    | next ph1 s1 =>
      rw [hs] at h
      obtain ⟨n, ph2, t, ht, hd⟩ := ih _ _ _ _ h
      refine ⟨n + 1, ph2, t, ?_, hd⟩
      unfold solve_trace
      rw [hs]
      exact ht
    | done st s1 =>
      rw [hs] at h
      simp only [Except.ok.injEq, Prod.mk.injEq] at h
      obtain ⟨rfl, rfl⟩ := h
      exact ⟨0, ph, s, rfl, hs⟩
    | fault => rw [hs] at h; cases h

/-- The state in which `solve_board` enters its loops satisfies the invariant `Searched`. -/
theorem Searched_new (bad_alloc : Bool) (layout : String) (b : PegBoard)
    (mode : SolverBoardSaving) (s : BoardSolver) (hb : PegBoard.new layout = .ok b)
    (h64 : b.n_positions ≤ 64) (hfit : store_fits mode b.n_positions)
    (hp : 2 ≤ b.count_pieces Piece.Peg)
    (hs : BoardSolver.construct bad_alloc b mode = .ok s) :
    Searched b Phase.try_move { s with solve_board_completed := true } := by
  obtain ⟨hinv, _⟩ := Inv_new bad_alloc b mode s (new_Consistent layout b hb h64) hfit hp hs
  obtain ⟨hR, hC⟩ := new_dims_pos layout b hb
  obtain ⟨sv, hsv, hnew⟩ := construct_eq bad_alloc b mode s (by omega) hs
  have hm : ∀ (j : Nat) (mv : Move), j ≤ 0 →
      (List.replicate (b.count_pieces Piece.Peg - 1) first_move)[j]? = some mv →
      mv = first_move := by
    intro j mv hj hmv
    rw [List.getElem?_replicate] at hmv
    split at hmv
    · cases hmv; rfl
    · cases hmv
  refine ⟨hinv, ?_, ?_, ?_, ?_, ?_⟩
  · intro c _ _ hchk
    rw [hnew] at hchk
    simp only at hchk
    rw [BoardSaver.check_construct bad_alloc _ mode sv hsv] at hchk
    cases hchk
  · intro v hchk
    rw [hnew] at hchk
    simp only at hchk
    rw [BoardSaver.check_construct bad_alloc _ mode sv hsv] at hchk
    cases hchk
  · rw [hnew]; exact Clean_construct bad_alloc _ mode sv hsv
  · intro j mv hj hmv
    rw [hnew] at hj hmv
    rw [hm j mv hj hmv]
    exact first_move_InGrid _ _ hR hC
  · intro j mv m' hj hmv _ hlim
    rw [hnew] at hj hmv
    rw [hm j mv hj hmv, scan_limit_try, first_move_rank] at hlim
    omega

end BoardSolver

/-! ## Claims on the store of unwinnable boards -/

theorem Solvable_of_Winnable (c : PegBoard) (h : Winnable c) :
    Solvable (c.count_pieces Piece.Peg - 1) c := by
  obtain ⟨ms, h1, h2⟩ := h
  have := replay_moves_count c ms h1
  exact ⟨ms, by omega, h1⟩

namespace BoardSolver

theorem Searched_OnlyUnwinnable (b0 : PegBoard) (ph : Phase) (s : BoardSolver)
    (hs : Searched b0 ph s) : s.board_saver.OnlyUnwinnable b0 := by
  have key : ∀ c : PegBoard, c.SameShape b0 → c.Consistent →
      s.board_saver.holds c.get_flattened_value → ¬ Winnable c := by
    intro c hcs hcc hh hw
    exact hs.sound c hcs hcc ((holds_iff_check _ hs.clean _).mp hh) (Solvable_of_Winnable c hw)
  refine ⟨fun v hv => ?_, key⟩
  obtain ⟨c, hcs, hcc, he⟩ := hs.origin v ((holds_iff_check _ hs.clean _).mp hv)
  exact ⟨c, hcs, hcc, he, key c hcs hcc (by rw [← he] at hv; exact hv)⟩

end BoardSolver

/-- The store holds only unwinnable boards where the bounds hold. On a board accepted by the
constructor with at least two pegs and at most 64 positions (fewer than 64 in mode Bitfield),
in every saving mode and whether or not the allocation of the bitfield fails, after any number
of passes of the loops of `solve_board()`, and when `solve_board()` has returned, every
flattened value held in the store is the flattened value of a board of the shape of the input
board from which no sequence of legal forward moves reaches a board with exactly one peg, and
no winnable board of that shape has its flattened value in the store. -/
theorem store_only_unwinnable_of_store_fits (bad_alloc : Bool) (layout : String) (b : PegBoard)
    (mode : SolverBoardSaving) (s : BoardSolver) (hb : PegBoard.new layout = .ok b)
    (h64 : b.get_n_positions ≤ 64) (hfit : store_fits mode b.get_n_positions)
    (hp : 2 ≤ b.count_pieces Piece.Peg)
    (hs : BoardSolver.construct bad_alloc b mode = .ok s) :
    (∀ n ph t, BoardSolver.solve_trace n BoardSolver.Phase.try_move
        { s with solve_board_completed := true } = some (ph, t) →
      t.board_saver.OnlyUnwinnable b) ∧
    (∀ fuel r s', s.solve_board fuel = .ok (r, s') → s'.board_saver.OnlyUnwinnable b) := by
  have h0 := BoardSolver.Searched_new bad_alloc layout b mode s hb h64 hfit hp hs
  have htrace : ∀ n ph t, BoardSolver.solve_trace n BoardSolver.Phase.try_move
      { s with solve_board_completed := true } = some (ph, t) →
      t.board_saver.OnlyUnwinnable b := by
    intro n ph t ht
    exact BoardSolver.Searched_OnlyUnwinnable b ph t
      (BoardSolver.solve_trace_Searched b n _ _ _ _ h0 ht)
  refine ⟨htrace, ?_⟩
  intro fuel r s' hr
  have hcompl : s.solve_board_completed = false := by
    obtain ⟨sv, _, e⟩ := BoardSolver.construct_eq bad_alloc b mode s (by omega) hs
    rw [e]
  unfold BoardSolver.solve_board at hr
  rw [hcompl] at hr
  simp only [Bool.false_eq_true, if_false] at hr
  obtain ⟨n, ph1, t, ht, hd⟩ := BoardSolver.solve_loop_trace fuel _ _ _ _ hr
  obtain ⟨_, _, _, _, hsv, _⟩ := BoardSolver.solve_step_done_frame _ _ _ _ hd
  rw [hsv]
  exact htrace n ph1 t ht

/-- An instance of `store_only_unwinnable_of_store_fits` on the layout `"1110"` in mode Hashmap:
`solve_board` returns false after 64 passes, the store then holds the flattened value 9 (the
board Peg, Hole, Hole, Peg), and the store holds only unwinnable boards. -/
theorem store_only_unwinnable_of_store_fits_example :
    PegBoard.new "1110" = .ok board_1110 ∧
      BoardSolver.new board_1110 SolverBoardSaving.Hashmap
        = .ok (solver_of board_1110 SolverBoardSaving.Hashmap) ∧
      (solver_of board_1110 SolverBoardSaving.Hashmap).solve_board 64
        = .ok (false, searched_1110) ∧
      searched_1110.board_saver.holds 9 ∧
      searched_1110.board_saver.OnlyUnwinnable board_1110 :=
  have hnew : PegBoard.new "1110" = .ok board_1110 := by decide
  have hrun : (solver_of board_1110 SolverBoardSaving.Hashmap).solve_board 64
      = .ok (false, searched_1110) := by decide
  ⟨hnew, by decide, hrun, Or.inl (by decide),
    (store_only_unwinnable_of_store_fits false "1110" board_1110 SolverBoardSaving.Hashmap
      (solver_of board_1110 SolverBoardSaving.Hashmap) hnew (by decide)
      (fun e => absurd e (by decide)) (by decide) (by decide)).2 64 false searched_1110 hrun⟩

/-- A move is reversed for pruning only after it succeeded, where the bounds hold. On a board
accepted by the constructor with at least two pegs and at most 64 positions (fewer than 64 in
mode Bitfield), in every saving mode and whether or not the allocation of the bitfield fails,
at the head of every iteration of the outer loop of `solve_board()`: when the trial
`make_move` returns false, `checkBoardSaved` reads the store in range and returns false on the
flattened value of the working board, so that the reversed `make_move` is not executed; and
the pass does what the rule of the specification says (`try_move_spec`: the move is reversed
when it succeeded and the new flattened value is saved). -/
theorem reversed_only_after_success_of_store_fits (bad_alloc : Bool) (layout : String)
    (b : PegBoard) (mode : SolverBoardSaving) (s t : BoardSolver) (n : Nat)
    (hb : PegBoard.new layout = .ok b) (h64 : b.get_n_positions ≤ 64)
    (hfit : store_fits mode b.get_n_positions) (hp : 2 ≤ b.count_pieces Piece.Peg)
    (hs : BoardSolver.construct bad_alloc b mode = .ok s)
    (ht : BoardSolver.solve_trace n BoardSolver.Phase.try_move
      { s with solve_board_completed := true } = some (BoardSolver.Phase.try_move, t)) :
    ∃ move, t.get_moves[t.last_move_index]? = some move ∧
      ((t.board.make_move move false).1 = false →
        t.board_saver.checkBoardSaved (t.board.make_move move false).2.get_flattened_value
          = some false) ∧
      BoardSolver.solve_step BoardSolver.Phase.try_move t = t.try_move_spec := by
  obtain ⟨hinv0, _⟩ :=
    BoardSolver.Inv_new bad_alloc b mode s (new_Consistent layout b hb h64) hfit hp hs
  have hinv := BoardSolver.solve_trace_Inv b n _ _ _ _ hinv0 ht
  have hidx := hinv.index
  have hmv : t.moves[t.last_move_index]? = some t.moves[t.last_move_index] :=
    List.getElem?_eq_getElem hidx
  generalize t.moves[t.last_move_index] = mv at hmv
  have hin := BoardSolver.Inv_in_range_try b t hinv mv
  have hfresh : t.board_saver.check t.board.flattened_board = false := by
    have := hinv.fresh t.last_move_index (Nat.le_refl _)
    rwa [hinv.path] at this
  have hfail : (t.board.make_move mv false).1 = false →
      t.board_saver.check (t.board.make_move mv false).2.flattened_board = false := by
    intro hf
    rw [PegBoard.make_move_false t.board mv false hf]
    exact hfresh
  refine ⟨mv, hmv, fun hf => ?_, ?_⟩
  · rw [PegBoard.get_flattened_value, BoardSaver.checkBoardSaved_eq _ _ hin, hfail hf]
  rw [BoardSolver.solve_step_try t mv hmv hin]
  simp only [BoardSolver.try_move_spec, hmv, PegBoard.get_flattened_value]
  by_cases c2 : (t.board.make_move mv false).1 = true
  · by_cases c1 :
        t.board_saver.check (t.board.make_move mv false).2.flattened_board = true
    · simp [c1, c2]
    · simp [c1, c2]
  · have hf : (t.board.make_move mv false).1 = false := by simpa using c2
    have hc := hfail hf
    simp [hf, hc]

/-- An instance of `reversed_only_after_success_of_store_fits`: the solver for the layout
`"1110"` in mode Hashmap after 44 passes, at the head of the outer loop with the flattened
value 9 in the store. The trial of the move ((0,1), Down) fails, and the lookup of the flattened
value of the working board returns false. -/
theorem reversed_only_after_success_of_store_fits_example :
    PegBoard.new "1110" = .ok board_1110 ∧
      BoardSolver.new board_1110 SolverBoardSaving.Hashmap
        = .ok (solver_of board_1110 SolverBoardSaving.Hashmap) ∧
      BoardSolver.solve_trace 44 BoardSolver.Phase.try_move
        { solver_of board_1110 SolverBoardSaving.Hashmap with solve_board_completed := true }
        = some (BoardSolver.Phase.try_move, trial_1110) ∧
      trial_1110.board_saver.holds 9 ∧
      trial_1110.get_moves[trial_1110.last_move_index]?
        = some { pos := { row := 0, col := 1 }, dir := Direction.Down } ∧
      (trial_1110.board.make_move
        { pos := { row := 0, col := 1 }, dir := Direction.Down } false).1 = false ∧
      ∃ move, trial_1110.get_moves[trial_1110.last_move_index]? = some move ∧
        ((trial_1110.board.make_move move false).1 = false →
          trial_1110.board_saver.checkBoardSaved
            (trial_1110.board.make_move move false).2.get_flattened_value = some false) ∧
        BoardSolver.solve_step BoardSolver.Phase.try_move trial_1110
          = trial_1110.try_move_spec :=
  have hnew : PegBoard.new "1110" = .ok board_1110 := by decide
  have htrace : BoardSolver.solve_trace 44 BoardSolver.Phase.try_move
      { solver_of board_1110 SolverBoardSaving.Hashmap with solve_board_completed := true }
      = some (BoardSolver.Phase.try_move, trial_1110) := by decide
  ⟨hnew, by decide, htrace, Or.inl (by decide), by decide, by decide,
    reversed_only_after_success_of_store_fits false "1110" board_1110 SolverBoardSaving.Hashmap
      (solver_of board_1110 SolverBoardSaving.Hashmap) trial_1110 44 hnew (by decide)
      (fun e => absurd e (by decide)) (by decide) (by decide) htrace⟩

/-! ## The mode Bitfield on boards of 63 and 64 positions -/

namespace BoardSolver

/-- A read of a bitfield at an index that is not below its size is out of range. -/
theorem checkBoardSaved_out (sv : BoardSaver) (v : Nat)
    (hmode : sv.mode = SolverBoardSaving.Bitfield) (hsz : sv.bitfield_size ≤ v) :
    sv.checkBoardSaved v = none :=
  BoardSaver.checkBoardSaved_none sv v (fun h => by have := h hmode; omega)

/-- At the head of the outer loop in mode Bitfield, when the move of the slot is not legal and
the flattened value of the working board is not below the size of the bitfield, the read of
the store is out of range. -/
theorem first_pass_out_of_range (t : BoardSolver) (mv : Move)
    (hm : t.moves[t.last_move_index]? = some mv)
    (hmode : t.board_saver.mode = SolverBoardSaving.Bitfield)
    (hf : (t.board.make_move mv false).1 = false)
    (hv : t.board_saver.bitfield_size ≤ t.board.flattened_board) :
    t.board_saver.checkBoardSaved (t.board.make_move mv false).2.get_flattened_value = none ∧
      solve_step Phase.try_move t = Step.fault := by
  have hsame := PegBoard.make_move_false t.board mv false hf
  have hout : t.board_saver.checkBoardSaved
      (t.board.make_move mv false).2.get_flattened_value = none := by
    rw [hsame]
    exact checkBoardSaved_out _ _ hmode hv
  refine ⟨hout, ?_⟩
  apply solve_step_try_out t mv hm
  intro hin
  rw [PegBoard.get_flattened_value, BoardSaver.checkBoardSaved_eq _ _ hin] at hout
  cases hout

/-- A call of `solve_board` whose first pass reads out of range does not return. -/
theorem solve_board_fault (s : BoardSolver) (hc : s.solve_board_completed = false)
    (h : solve_step Phase.try_move { s with solve_board_completed := true } = Step.fault) :
    (∀ fuel, s.solve_board (fuel + 1) = .error SolverError.out_of_range) ∧
      ∀ fuel r, s.solve_board fuel ≠ .ok r := by
  have h1 : ∀ fuel, s.solve_board (fuel + 1) = .error SolverError.out_of_range := by
    intro fuel
    unfold solve_board
    rw [hc]
    simp only [Bool.false_eq_true, if_false]
    unfold solve_loop
    rw [h]
  refine ⟨h1, ?_⟩
  intro fuel r hr
  cases fuel with
  | zero =>
    unfold solve_board at hr
    rw [hc] at hr
    simp [solve_loop] at hr
  | succ n => rw [h1 n] at hr; cases hr

end BoardSolver

theorem bitfield_outcome_some (layout : String) (n p v : Nat) (adj mv : Bool)
    (res : Except SolverError Nat)
    (h : bitfield_outcome layout = some { n_positions := n, n_pegs := p, flattened := v
                                          apart := adj, first_trial := mv, bitfield := res }) :
    ∃ b, PegBoard.new layout = .ok b ∧ b.get_n_positions = n ∧
      b.count_pieces Piece.Peg = p ∧ b.get_flattened_value = v ∧
      (adj = true → b.no_adjacent_pegs) ∧ (b.make_move first_move false).1 = mv ∧
      (∀ e, res = .error e → BoardSolver.new b SolverBoardSaving.Bitfield = .error e) ∧
      (∀ sz, res = .ok sz → ∃ s, BoardSolver.new b SolverBoardSaving.Bitfield = .ok s ∧
        s.board_saver.bitfield_size = sz) := by
  unfold bitfield_outcome at h
  cases hb : PegBoard.new layout with
  | error e => rw [hb] at h; cases h
  | ok b =>
    rw [hb] at h
    simp only [Option.some.injEq, BitfieldOutcome.mk.injEq] at h
    obtain ⟨h1, h2, h3, h4, h5, h6⟩ := h
    refine ⟨b, rfl, h1, h2, h3, ?_, h5, ?_, ?_⟩
    · intro ha
      rw [← h4] at ha
      exact of_decide_eq_true ha
    · intro e he
      cases hs : BoardSolver.new b SolverBoardSaving.Bitfield with
      | error e' =>
        rw [hs] at h6
        rw [he] at h6
        cases h6
        rfl
      | ok s =>
        rw [hs] at h6
        rw [he] at h6
        cases h6
    · intro sz he
      cases hs : BoardSolver.new b SolverBoardSaving.Bitfield with
      | error e' =>
        rw [hs] at h6
        rw [he] at h6
        cases h6
      | ok s =>
        rw [hs] at h6
        rw [he] at h6
        simp only [Except.ok.injEq] at h6
        exact ⟨s, rfl, h6⟩

/-- The solver that the constructor gives in mode Bitfield for a board of at least two pegs:
the store is a bitfield, the working board is the input board, and slot 0 holds the first move
of the scan. -/
theorem new_bitfield (b : PegBoard) (s : BoardSolver) (hp : 2 ≤ b.count_pieces Piece.Peg)
    (hs : BoardSolver.new b SolverBoardSaving.Bitfield = .ok s) :
    s.board_saver.mode = SolverBoardSaving.Bitfield ∧ s.board = b ∧
      s.solve_board_completed = false ∧ s.last_move_index = 0 ∧
      s.moves[0]? = some first_move := by
  obtain ⟨sv, hsv, e⟩ := BoardSolver.construct_eq false b _ s (by omega) hs
  have hmode : sv.mode = SolverBoardSaving.Bitfield := by
    rcases (BoardSaver.construct_ok false _ _ sv hsv).2.2.2 with h | ⟨_, h, _⟩
    · exact h
    · cases h
  rw [e]
  refine ⟨hmode, rfl, rfl, rfl, ?_⟩
  simp only
  rw [List.getElem?_replicate, if_pos (by omega)]

theorem outcome_64_apart :
    bitfield_outcome layout_64_apart
      = some { n_positions := 64, n_pegs := 2, flattened := 2 ^ 60 + 2 ^ 62, apart := true
               first_trial := false, bitfield := .ok 0 } := by
  decide!

theorem outcome_64_pair :
    bitfield_outcome layout_64_pair
      = some { n_positions := 64, n_pegs := 2, flattened := 2 ^ 61 + 2 ^ 62, apart := false
               first_trial := false, bitfield := .ok 0 } := by
  decide!

theorem outcome_63_pair :
    bitfield_outcome layout_63_pair
      = some { n_positions := 63, n_pegs := 2, flattened := 2 ^ 60 + 2 ^ 61, apart := false
               first_trial := false, bitfield := .error SolverError.length_error } := by
  decide!

theorem outcome_64_inner :
    bitfield_outcome layout_64_inner
      = some { n_positions := 64, n_pegs := 2, flattened := 2 ^ 60 + 2 ^ 61, apart := false
               first_trial := false, bitfield := .ok 0 } := by
  decide!

/-- The run of the Bitfield solver on a board of at least two pegs whose first move of the scan
is not legal, when the bitfield is sized with 0 bits: the first pass of `solve_board` reads the
bitfield out of range, and so it does with a bitfield of 1 bit. -/
theorem bitfield_run (layout : String) (n p v : Nat) (adj : Bool)
    (h : bitfield_outcome layout = some { n_positions := n, n_pegs := p, flattened := v
                                          apart := adj, first_trial := false
                                          bitfield := .ok 0 })
    (hp : 2 ≤ p) (hv : 1 ≤ v) :
    ∃ b s, PegBoard.new layout = .ok b ∧ b.get_n_positions = n ∧
      b.count_pieces Piece.Peg = p ∧ b.get_flattened_value = v ∧
      (adj = true → b.no_adjacent_pegs) ∧
      BoardSolver.new b SolverBoardSaving.Bitfield = .ok s ∧
      s.board_saver.mode = SolverBoardSaving.Bitfield ∧ s.board_saver.bitfield_size = 0 ∧
      s.get_moves[s.last_move_index]? = some first_move ∧
      (s.board.make_move first_move false).1 = false ∧
      (s.board.make_move first_move false).2.get_flattened_value = v ∧
      s.board_saver.checkBoardSaved
        (s.board.make_move first_move false).2.get_flattened_value = none ∧
      BoardSolver.solve_step BoardSolver.Phase.try_move
        { s with solve_board_completed := true } = BoardSolver.Step.fault ∧
      (∀ fuel, s.solve_board (fuel + 1) = .error SolverError.out_of_range) ∧
      (∀ fuel r, s.solve_board fuel ≠ .ok r) ∧
      ({ s.board_saver with bitfield_size := 1 } : BoardSaver).checkBoardSaved
        (s.board.make_move first_move false).2.get_flattened_value = none ∧
      ∀ fuel r, ({ s with board_saver := { s.board_saver with bitfield_size := 1 } } :
        BoardSolver).solve_board fuel ≠ .ok r := by
  obtain ⟨b, h1, h2, h3, h4, h5, h6, _, h8⟩ := bitfield_outcome_some _ _ _ _ _ _ _ h
  obtain ⟨s, hs, hsz⟩ := h8 0 rfl
  obtain ⟨hmode, hboard, hcompl, h0, hm0⟩ := new_bitfield b s (by omega) hs
  have hm : s.moves[s.last_move_index]? = some first_move := by rw [h0]; exact hm0
  have hf : (s.board.make_move first_move false).1 = false := by rw [hboard]; exact h6
  have hflat : s.board.flattened_board = v := by rw [hboard]; exact h4
  have hsame := PegBoard.make_move_false s.board first_move false hf
  have hval : (s.board.make_move first_move false).2.get_flattened_value = v := by
    rw [hsame]; exact hflat
  have p0 := BoardSolver.first_pass_out_of_range { s with solve_board_completed := true }
    first_move hm hmode hf (by show s.board_saver.bitfield_size ≤ _; rw [hsz]; exact Nat.zero_le _)
  have p1 := BoardSolver.first_pass_out_of_range
    { s with board_saver := { s.board_saver with bitfield_size := 1 }
             solve_board_completed := true }
    first_move hm hmode hf (by show 1 ≤ s.board.flattened_board; rw [hflat]; exact hv)
  have r0 := BoardSolver.solve_board_fault s hcompl p0.2
  have r1 := BoardSolver.solve_board_fault
    { s with board_saver := { s.board_saver with bitfield_size := 1 } } hcompl p1.2
  exact ⟨b, s, h1, h2, h3, h4, h5, hs, hmode, hsz, hm, hf, hval, p0.1, p0.2, r0.1, r0.2, p1.1,
    r1.2⟩

/-- The store of mode Bitfield by capacity: below 63 positions its constructor gives a bitfield
of `2 ^ capacity` bits (or falls back to mode Hashmap when the allocation fails), for 63
positions it throws `std::length_error`, and for 64 positions the bitfield has no bit. -/
theorem new_bitfield_by_capacity :
    (∀ capacity, capacity < 63 →
      BoardSaver.new capacity SolverBoardSaving.Bitfield
        = .ok { mode := SolverBoardSaving.Bitfield, boards_hashmap := [], boards_bitfield := []
                bitfield_size := 2 ^ capacity } ∧
      BoardSaver.construct true capacity SolverBoardSaving.Bitfield
        = .ok { mode := SolverBoardSaving.Hashmap, boards_hashmap := [], boards_bitfield := []
                bitfield_size := 0 }) ∧
    BoardSaver.new 63 SolverBoardSaving.Bitfield = .error SolverError.length_error ∧
    BoardSaver.construct true 63 SolverBoardSaving.Bitfield
      = .error SolverError.length_error ∧
    BoardSaver.new 64 SolverBoardSaving.Bitfield
      = .ok { mode := SolverBoardSaving.Bitfield, boards_hashmap := [], boards_bitfield := []
              bitfield_size := 0 } := by
  refine ⟨fun capacity h => ?_, by decide, by decide, by decide⟩
  have hpow : shl1 capacity = 2 ^ capacity := BoardSaver.shl1_eq_pow capacity (by omega)
  have hle : 2 ^ capacity ≤ 2 ^ 62 := Nat.pow_le_pow_right (by decide) (by omega)
  have hpos : 0 < 2 ^ capacity := Nat.two_pow_pos capacity
  have hmax : ¬ 2 ^ capacity > vector_bool_max_size := by
    unfold vector_bool_max_size
    have : (2 : Nat) ^ 62 ≤ 2 ^ 63 - 64 := by decide
    omega
  have hne : 2 ^ capacity ≠ 0 := by omega
  constructor
  · unfold BoardSaver.new BoardSaver.construct
    simp [hpow, hmax]
  · unfold BoardSaver.construct
    simp [hpow, hmax, hne]

/-! ## Claims that fail in mode Bitfield on boards of 63 and 64 positions -/

/-- C14 fails on the code in mode Bitfield on a board of 64 positions. The constructor accepts
`layout_64_apart` (64 cells, pegs at the positions 60 and 62 only): no two pegs are next to
each other, and no move is a legal forward move. The solver constructed in mode Bitfield sizes
its bitfield by `uint64_t(1) << 64`, an undefined shift: 0 bits here, 1 bit where the shift
count is taken modulo 64. With either size the first pass of `solve_board()` reads the
bitfield at the flattened value of the board out of range, and `solve_board` does not return
false, whatever the fuel. -/
theorem solve_board_no_legal_move_bitfield_64 :
    ∃ b s, PegBoard.new layout_64_apart = .ok b ∧ b.get_n_positions = 64 ∧
      b.count_pieces Piece.Peg = 2 ∧ b.no_adjacent_pegs ∧
      (∀ m, (b.make_move m false).1 = false) ∧
      BoardSolver.new b SolverBoardSaving.Bitfield = .ok s ∧
      s.board_saver.mode = SolverBoardSaving.Bitfield ∧ s.board_saver.bitfield_size = 0 ∧
      (∀ fuel, s.solve_board (fuel + 1) = .error SolverError.out_of_range) ∧
      (∀ fuel r, s.solve_board fuel ≠ .ok r) ∧
      ∀ fuel r, ({ s with board_saver := { s.board_saver with bitfield_size := 1 } } :
        BoardSolver).solve_board fuel ≠ .ok r := by
  obtain ⟨b, s, h1, h2, h3, _, h5, h6, h7, h8, _, _, _, _, _, h14, h15, _, h17⟩ :=
    bitfield_run _ _ _ _ _ outcome_64_apart (by decide) (by decide)
  exact ⟨b, s, h1, h2, h3, h5 rfl, PegBoard.no_move_of_no_adjacent_pegs b (h5 rfl), h6, h7, h8,
    h14, h15, h17⟩

/-- C16 fails on the code in mode Bitfield on boards of 63 and of 64 positions. The constructor
accepts `layout_63_pair` (63 cells, two pegs); the constructor of the solver in mode Bitfield
resizes the bitfield to `2 ^ 63` bits, more than `max_size()`, and throws `std::length_error`:
there is no solver to call. The constructor accepts `layout_64_pair` (64 cells, two pegs); the
solver constructed in mode Bitfield sizes its bitfield by `uint64_t(1) << 64`, an undefined
shift: 0 bits here, 1 bit where the shift count is taken modulo 64. With either size the first
pass of `solve_board()` reads the bitfield out of range: the loops do not reach a return
statement, whatever the fuel. -/
theorem solve_board_bitfield_no_return :
    (∃ b, PegBoard.new layout_63_pair = .ok b ∧ b.get_n_positions = 63 ∧
      b.count_pieces Piece.Peg = 2 ∧
      BoardSolver.new b SolverBoardSaving.Bitfield = .error SolverError.length_error) ∧
    ∃ b s, PegBoard.new layout_64_pair = .ok b ∧ b.get_n_positions = 64 ∧
      b.count_pieces Piece.Peg = 2 ∧
      BoardSolver.new b SolverBoardSaving.Bitfield = .ok s ∧
      s.board_saver.mode = SolverBoardSaving.Bitfield ∧ s.board_saver.bitfield_size = 0 ∧
      (∀ fuel, s.solve_board (fuel + 1) = .error SolverError.out_of_range) ∧
      (∀ fuel r, s.solve_board fuel ≠ .ok r) ∧
      ∀ fuel r, ({ s with board_saver := { s.board_saver with bitfield_size := 1 } } :
        BoardSolver).solve_board fuel ≠ .ok r := by
  obtain ⟨c, g1, g2, g3, _, _, _, g7, _⟩ := bitfield_outcome_some _ _ _ _ _ _ _ outcome_63_pair
  obtain ⟨b, s, h1, h2, h3, _, _, h6, h7, h8, _, _, _, _, _, h14, h15, _, h17⟩ :=
    bitfield_run _ _ _ _ _ outcome_64_pair (by decide) (by decide)
  exact ⟨⟨c, g1, g2, g3, g7 _ rfl⟩, b, s, h1, h2, h3, h6, h7, h8, h14, h15, h17⟩

/-- C22 fails on the code in mode Bitfield on a board of 64 positions. The constructor accepts
`layout_64_inner` (64 cells, pegs at the positions 60 and 61, flattened value
`2 ^ 60 + 2 ^ 61`). The solver
constructed in mode Bitfield sizes its bitfield by `uint64_t(1) << 64`, an undefined shift: 0
bits here, 1 bit where the shift count is taken modulo 64. At the head of the first iteration
of the outer loop the trial `make_move` of the move ((0,0), Up) returns false, and the
`checkBoardSaved` that follows reads the bitfield at the flattened value of the working
board out of range, with either size: it does not return false, and whether the reversed
`make_move` is executed after the failed trial is not determined. -/
theorem failed_trial_bitfield_64_out_of_range :
    ∃ b s, PegBoard.new layout_64_inner = .ok b ∧ b.get_n_positions = 64 ∧
      b.count_pieces Piece.Peg = 2 ∧
      BoardSolver.new b SolverBoardSaving.Bitfield = .ok s ∧
      s.board_saver.mode = SolverBoardSaving.Bitfield ∧ s.board_saver.bitfield_size = 0 ∧
      s.get_moves[s.last_move_index]? = some first_move ∧
      (s.board.make_move first_move false).1 = false ∧
      (s.board.make_move first_move false).2.get_flattened_value = 2 ^ 60 + 2 ^ 61 ∧
      s.board_saver.checkBoardSaved
        (s.board.make_move first_move false).2.get_flattened_value = none ∧
      ({ s.board_saver with bitfield_size := 1 } : BoardSaver).checkBoardSaved
        (s.board.make_move first_move false).2.get_flattened_value = none ∧
      BoardSolver.solve_step BoardSolver.Phase.try_move
        { s with solve_board_completed := true } = BoardSolver.Step.fault := by
  obtain ⟨b, s, h1, h2, h3, _, _, h6, h7, h8, h9, h10, h11, h12, h13, _, _, h16, _⟩ :=
    bitfield_run _ _ _ _ _ outcome_64_inner (by decide) (by decide)
  exact ⟨b, s, h1, h2, h3, h6, h7, h8, h9, h10, h11, h12, h16, h13⟩

/-! ## The solver decides solvability on boards of at most 64 positions -/

/-- Where the bounds hold the solver is correct: on a board of at most 64 positions (fewer
than 64 in mode Bitfield) and at least two pegs, in every saving mode and whether or not the
allocation of the bitfield fails, `solve_board()` returns (with enough fuel, and then for all
larger amounts of fuel), and it returns true exactly when the input board can be reduced to
one peg by `peg_count - 1` legal moves; when it returns false the working board is the input
board again. -/
theorem solve_board_complete_of_le_64 (bad_alloc : Bool) (layout : String) (b : PegBoard)
    (mode : SolverBoardSaving) (s : BoardSolver) (hb : PegBoard.new layout = .ok b)
    (h64 : b.get_n_positions ≤ 64) (hfit : store_fits mode b.get_n_positions)
    (hp : 2 ≤ b.count_pieces Piece.Peg)
    (hs : BoardSolver.construct bad_alloc b mode = .ok s) :
    ∃ fuel r s', (∀ k, s.solve_board (fuel + k) = .ok (r, s')) ∧
      (r = true ↔ Solvable (b.count_pieces Piece.Peg - 1) b) ∧
      (r = false → s'.get_current_board = b) := by
  have hcons := new_Consistent layout b hb h64
  obtain ⟨hinv, hcompl⟩ := BoardSolver.Inv_new bad_alloc b mode s hcons hfit hp hs
  obtain ⟨hR, hC⟩ := new_dims_pos layout b hb
  obtain ⟨sv, hsv, hnew⟩ := BoardSolver.construct_eq bad_alloc b mode s (by omega) hs
  obtain ⟨hslot, _, _⟩ := BoardSolver.new_Slot bad_alloc b mode s hR hC hp (fun _ => hcons)
    hfit hs
  have hsound : ({ s with solve_board_completed := true } : BoardSolver).board_saver.Sound b := by
    intro c _ _ hchk
    rw [hnew] at hchk
    simp only at hchk
    rw [BoardSaver.check_construct bad_alloc _ mode sv hsv] at hchk
    cases hchk
  have h0 : ({ s with solve_board_completed := true } : BoardSolver).last_move_index = 0 := by
    rw [hnew]
  have hboard : ({ s with solve_board_completed := true } : BoardSolver).board = b := by
    rw [hnew]
  have hready : BoardSolver.Ready b (b.count_pieces Piece.Peg - 1 - 1)
      { s with solve_board_completed := true } first_move :=
    ⟨hinv, hsound, by have := hslot.1.2.2; have := hslot.2.1; omega, hslot.2.2.1, hslot.2.2.2⟩
  have key : ∃ r s', BoardSolver.Returns BoardSolver.Phase.try_move
      { s with solve_board_completed := true } r s' ∧
      (r = true ↔ Solvable (b.count_pieces Piece.Peg - 1) b) ∧
      (r = false → s'.get_current_board = b) := by
    rcases BoardSolver.explore b _ (4 * (b.n_rows * b.n_cols)) _ _ hready
        (by rw [first_move_rank]; omega)
        (by intro m' _ hm'; rw [first_move_rank] at hm'; omega) with
      ⟨s', hret⟩ | ⟨t, hrun, hinvt, _, hi, hbt, _, _, ⟨mv', hmv', hfn⟩, hns⟩
    · refine ⟨true, s', hret, ?_, fun h => by cases h⟩
      obtain ⟨fuel, hf⟩ := BoardSolver.Returns_solve_loop _ _ _ _ hret
      obtain ⟨_, h1, _, h3⟩ := BoardSolver.solve_loop_sound b fuel _ _ _ hinv hf
      refine ⟨fun _ => ⟨s'.moves, by omega, by rw [h1]⟩, fun _ => rfl⟩
    · have hstep := BoardSolver.solve_step_next t mv' hmv' (BoardSolver.Inv_in_range b t hinvt)
      rw [if_neg (by rw [hfn]; decide), if_pos (by omega)] at hstep
      refine ⟨false, _, ⟨BoardSolver.Phase.next_move, t, hrun, hstep⟩, ?_, fun _ => ?_⟩
      · constructor
        · intro h; cases h
        · intro hsol
          exfalso
          apply hns
          rw [hboard]
          have e : b.count_pieces Piece.Peg - 1 - 1 + 1 = b.count_pieces Piece.Peg - 1 := by
            omega
          rw [e]
          exact hsol
      · show t.board = b
        rw [hbt, hboard]
  obtain ⟨r, s', hret, hiff, hfail⟩ := key
  obtain ⟨fuel, hf⟩ := BoardSolver.Returns_solve_loop_all _ _ _ _ hret
  refine ⟨fuel, r, s', fun k => ?_, hiff, hfail⟩
  unfold BoardSolver.solve_board
  rw [hcompl]
  simp only [Bool.false_eq_true, if_false]
  exact hf k

/-- Where the bounds hold pruning does not change the outcome: on a board of at most 64
positions (fewer than 64 when one of the modes is Bitfield) and at least two pegs, the solvers
of any two saving modes return the same boolean, whether or not the allocation of a bitfield
fails. -/
theorem solve_board_modes_agree_of_le_64 (bad_alloc1 bad_alloc2 : Bool) (layout : String)
    (b : PegBoard) (mode1 mode2 : SolverBoardSaving) (s1 s2 : BoardSolver)
    (hb : PegBoard.new layout = .ok b) (h64 : b.get_n_positions ≤ 64)
    (hfit1 : store_fits mode1 b.get_n_positions) (hfit2 : store_fits mode2 b.get_n_positions)
    (hp : 2 ≤ b.count_pieces Piece.Peg)
    (hs1 : BoardSolver.construct bad_alloc1 b mode1 = .ok s1)
    (hs2 : BoardSolver.construct bad_alloc2 b mode2 = .ok s2) :
    ∃ fuel r t1 t2, (∀ k, s1.solve_board (fuel + k) = .ok (r, t1)) ∧
      ∀ k, s2.solve_board (fuel + k) = .ok (r, t2) := by
  obtain ⟨f1, r1, t1, a1, b1, _⟩ :=
    solve_board_complete_of_le_64 bad_alloc1 layout b mode1 s1 hb h64 hfit1 hp hs1
  obtain ⟨f2, r2, t2, a2, b2, _⟩ :=
    solve_board_complete_of_le_64 bad_alloc2 layout b mode2 s2 hb h64 hfit2 hp hs2
  have e : r1 = r2 := by
    cases r1 <;> cases r2 <;> simp at b1 b2 ⊢
    · exact b1 b2
    · exact b2 b1
  subst e
  refine ⟨f1 + f2, r1, t1, t2, fun k => ?_, fun k => ?_⟩
  · rw [Nat.add_assoc]; exact a1 (f2 + k)
  · rw [Nat.add_comm f1 f2, Nat.add_assoc]; exact a2 (f1 + k)

/-- An instance of `solve_board_complete_of_le_64`: the board `"110"` in mode None. -/
theorem solve_board_complete_of_le_64_example :
    ∃ fuel r s', (∀ k, solver_110.solve_board (fuel + k) = .ok (r, s')) ∧
      (r = true ↔ Solvable (board_110.count_pieces Piece.Peg - 1) board_110) ∧
      (r = false → s'.get_current_board = board_110) :=
  solve_board_complete_of_le_64 false "110" board_110 SolverBoardSaving.None solver_110
    board_110_new (by decide) (fun e => absurd e (by decide)) (by decide) (by decide)

/-- Where the bounds hold a failed search leaves the board as it was given: on a board of at
most 64 positions (fewer than 64 in mode Bitfield) and at least two pegs, in every saving mode
and whether or not the allocation of the bitfield fails, when `solve_board()` returns false
the working board is the input board. -/
theorem solve_board_failed_restores_of_le_64 (bad_alloc : Bool) (layout : String)
    (b : PegBoard) (mode : SolverBoardSaving) (s s' : BoardSolver) (fuel : Nat)
    (hb : PegBoard.new layout = .ok b) (h64 : b.get_n_positions ≤ 64)
    (hfit : store_fits mode b.get_n_positions) (hp : 2 ≤ b.count_pieces Piece.Peg)
    (hs : BoardSolver.construct bad_alloc b mode = .ok s)
    (hr : s.solve_board fuel = .ok (false, s')) : s'.get_current_board = b := by
  obtain ⟨fuel0, r0, s0, hall, _, hfail⟩ :=
    solve_board_complete_of_le_64 bad_alloc layout b mode s hb h64 hfit hp hs
  have h1 := BoardSolver.solve_board_fuel_mono fuel s (false, s') fuel0 hr
  have h2 := hall fuel
  rw [Nat.add_comm fuel0 fuel, h1] at h2
  simp only [Except.ok.injEq, Prod.mk.injEq] at h2
  obtain ⟨e1, e2⟩ := h2
  rw [e2]
  exact hfail e1.symm

/-! ## Runs of the solver on boards of more than 64 positions -/

theorem outcome_unsound_hashmap :
    solver_outcome 2950 layout_unsound SolverBoardSaving.Hashmap = some (true, false, 3) := by
  decide!

theorem outcome_incomplete_hashmap :
    solver_outcome 2048 layout_incomplete SolverBoardSaving.Hashmap = some (false, false, 19) := by
  decide!

theorem outcome_incomplete_none :
    solver_outcome 3099 layout_incomplete SolverBoardSaving.None = some (true, true, 1) := by
  decide!

theorem replay_unsound : replay_outcome layout_unsound [] = some (7, true) := by
  decide!

theorem replay_incomplete :
    replay_outcome layout_incomplete solution_incomplete = some (4, true) := by
  decide!

/-! ## Claims on the solver -/

/-- C1 fails on the code: the constructor accepts `layout_unsound` (96 cells, 7 pegs), and on
this board `solve_board()` in mode Hashmap returns true, yet replaying `get_moves()` on the
input board does not succeed at every step and `get_current_board()` holds 3 pegs. -/
theorem solve_board_unsound :
    ∃ b s s', PegBoard.new layout_unsound = .ok b ∧ b.count_pieces Piece.Peg = 7 ∧
      BoardSolver.new b SolverBoardSaving.Hashmap = .ok s ∧
      s.solve_board 2950 = .ok (true, s') ∧
      (replay_moves b s'.get_moves).1 = false ∧
      s'.get_current_board.count_pieces Piece.Peg = 3 := by
  obtain ⟨b, s, s', h1, h2, h3, h4, h5⟩ := solver_outcome_some _ _ _ _ _ _ outcome_unsound_hashmap
  obtain ⟨c, hc1, hc2, _⟩ := replay_outcome_some _ _ _ _ replay_unsound
  have e := new_unique _ _ _ h1 hc1
  exact ⟨b, s, s', h1, by rw [e]; exact hc2, h2, h3, h4, h5⟩

/-- C2 fails on the code: the constructor accepts `layout_incomplete` (128 cells, 4 pegs), and
on this board `solve_board()` in mode Hashmap returns false, yet the three moves of
`solution_incomplete` are legal one after the other from the input board. -/
theorem solve_board_incomplete :
    ∃ b s s', PegBoard.new layout_incomplete = .ok b ∧ b.count_pieces Piece.Peg = 4 ∧
      BoardSolver.new b SolverBoardSaving.Hashmap = .ok s ∧
      s.solve_board 2048 = .ok (false, s') ∧
      solution_incomplete.length = b.count_pieces Piece.Peg - 1 ∧
      (replay_moves b solution_incomplete).1 = true := by
  obtain ⟨b, s, s', h1, h2, h3, _, _⟩ :=
    solver_outcome_some _ _ _ _ _ _ outcome_incomplete_hashmap
  obtain ⟨c, hc1, hc2, hc3⟩ := replay_outcome_some _ _ _ _ replay_incomplete
  have e := new_unique _ _ _ h1 hc1
  subst e
  exact ⟨b, s, s', h1, hc2, h2, h3, by rw [hc2]; rfl, hc3⟩

/-- C3 fails on the code: on the board of `layout_incomplete` the solver built with mode None
returns true and the solver built with mode Hashmap returns false. -/
theorem solve_board_modes_differ :
    ∃ b s1 s2 r1 r2, PegBoard.new layout_incomplete = .ok b ∧
      2 ≤ b.count_pieces Piece.Peg ∧
      BoardSolver.new b SolverBoardSaving.None = .ok s1 ∧
      BoardSolver.new b SolverBoardSaving.Hashmap = .ok s2 ∧
      s1.solve_board 3099 = .ok (true, r1) ∧ s2.solve_board 2048 = .ok (false, r2) := by
  obtain ⟨b, s2, r2, h1, h2, h3, _, _⟩ :=
    solver_outcome_some _ _ _ _ _ _ outcome_incomplete_hashmap
  obtain ⟨b', s1, r1, g1, g2, g3, _, _⟩ :=
    solver_outcome_some _ _ _ _ _ _ outcome_incomplete_none
  obtain ⟨c, hc1, hc2, _⟩ := replay_outcome_some _ _ _ _ replay_incomplete
  have e : b = c := new_unique _ _ _ h1 hc1
  have e' : b' = c := new_unique _ _ _ g1 hc1
  rw [e] at h2
  rw [e'] at g2
  exact ⟨c, s1, s2, r1, r2, hc1, by rw [hc2]; decide, g2, h2, g3, h3⟩

theorem outcome_unrestored :
    solver_outcome 3072 layout_unrestored SolverBoardSaving.Hashmap = some (false, false, 5) := by
  decide!

theorem replay_unrestored : replay_outcome layout_unrestored [] = some (4, true) := by
  decide!

/-- C23 fails on the code: the constructor accepts `layout_unrestored` (96 cells, 4 pegs), and
on this board `solve_board()` in mode Hashmap returns false while `get_current_board()` holds 5
pegs: it is not the input board. -/
theorem solve_board_not_restored :
    ∃ b s s', PegBoard.new layout_unrestored = .ok b ∧ b.count_pieces Piece.Peg = 4 ∧
      BoardSolver.new b SolverBoardSaving.Hashmap = .ok s ∧
      s.solve_board 3072 = .ok (false, s') ∧
      s'.get_current_board.count_pieces Piece.Peg = 5 ∧
      s'.get_current_board ≠ b := by
  obtain ⟨b, s, s', h1, h2, h3, _, h5⟩ := solver_outcome_some _ _ _ _ _ _ outcome_unrestored
  obtain ⟨c, hc1, hc2, _⟩ := replay_outcome_some _ _ _ _ replay_unrestored
  have e := new_unique _ _ _ h1 hc1
  have h4 : b.count_pieces Piece.Peg = 4 := by rw [e]; exact hc2
  refine ⟨b, s, s', h1, h4, h2, h3, h5, ?_⟩
  intro heq
  rw [heq, h4] at h5
  cases h5

theorem trace_outcome_some (n : Nat) (layout : String) (mode : SolverBoardSaving)
    (ph : BoardSolver.Phase) (i : Nat) (legal same : Bool)
    (h : trace_outcome n layout mode = some (ph, i, legal, same)) :
    ∃ b s t, PegBoard.new layout = .ok b ∧ BoardSolver.new b mode = .ok s ∧
      BoardSolver.solve_trace n BoardSolver.Phase.try_move
        { s with solve_board_completed := true } = some (ph, t) ∧
      t.last_move_index = i ∧ (replay_moves b (t.moves.take t.last_move_index)).1 = legal ∧
      decide ((replay_moves b (t.moves.take t.last_move_index)).2 = t.board) = same := by
  unfold trace_outcome at h
  cases hb : PegBoard.new layout with
  | error e => rw [hb] at h; cases h
  | ok b =>
    rw [hb] at h
    simp only at h
    cases hs : BoardSolver.new b mode with
    | error e => rw [hs] at h; cases h
    | ok s =>
      rw [hs] at h
      simp only at h
      cases ht : BoardSolver.solve_trace n BoardSolver.Phase.try_move
          { s with solve_board_completed := true } with
      | none => rw [ht] at h; cases h
      | some res =>
        obtain ⟨ph', t⟩ := res
        rw [ht] at h
        simp only [Option.some.injEq, Prod.mk.injEq] at h
        obtain ⟨h1, h2, h3, h4⟩ := h
        exact ⟨b, s, t, rfl, hs, by rw [← h1]; exact ht, h2, h3, h4⟩

theorem trace_unsound :
    trace_outcome 1349 layout_unsound SolverBoardSaving.Hashmap
      = some (BoardSolver.Phase.try_move, 3, true, false) := by
  decide!

/-- C19 fails on the code: the constructor accepts `layout_unsound` (96 cells, 7 pegs), and in
the call of `solve_board()` in mode Hashmap on this board the solver is, after 1349 passes of
the loops, at the head of the outer loop with index 3, and the working board is not the board
that the moves of the slots 0, 1 and 2 give from the input board. -/
theorem solve_board_stack_broken :
    ∃ b s t, PegBoard.new layout_unsound = .ok b ∧ b.count_pieces Piece.Peg = 7 ∧
      BoardSolver.new b SolverBoardSaving.Hashmap = .ok s ∧
      BoardSolver.solve_trace 1349 BoardSolver.Phase.try_move
        { s with solve_board_completed := true } = some (BoardSolver.Phase.try_move, t) ∧
      t.last_move_index = 3 ∧
      (replay_moves b (t.moves.take t.last_move_index)).2 ≠ t.board := by
  obtain ⟨b, s, t, h1, h2, h3, h4, _, h6⟩ := trace_outcome_some _ _ _ _ _ _ _ trace_unsound
  obtain ⟨c, hc1, hc2, _⟩ := replay_outcome_some _ _ _ _ replay_unsound
  have e := new_unique _ _ _ h1 hc1
  exact ⟨b, s, t, h1, by rw [e]; exact hc2, h2, h3, h4, of_decide_eq_false h6⟩

end ps
